import Mathlib

/-!
# sjtu::map (map.hpp): a red-black tree over a pointer graph

The container of `map.hpp` is a graph of heap-allocated `node` objects linked by raw
pointers, each node holding a pointer `data` to a separately allocated `value_type`
(a key/value pair).  Rotations exchange the `data` pointers of node objects and relink
children, so aliasing matters; the embedding therefore keeps an explicit heap:

* `Mem.cells` : the `value_type` objects, addressed by index (`none` = freed);
* `Mem.nodes` : the `node` objects, addressed by index (`none` = freed);
* a node pointer is `Ptr = Option Nat` (`none` = `nullptr`).

Engine code runs in `Run K V = StateT (Mem K V) (Except Fault)`; a `Fault` is undefined
behaviour of the C++ program (null / dangling dereference, falling off the end of a
value-returning function) or exhaustion of the loop budget `fuel` that stands for a
loop which has not terminated within that many iterations.  C++ exceptions thrown by the
facade are ordinary results (`Except exception _`), so the heap at the point of the throw
stays observable.
-/

namespace sjtu

/-! ## Heap -/

/-- The enumeration `colorT` of map.hpp:30. -/
inductive colorT where
  | RED
  | BLACK
  deriving DecidableEq

/-- A `node *`: `none` is `nullptr`, `some a` the address of a node object. -/
abbrev Ptr := Option Nat

/-- The struct `node` of map.hpp:31-40; `data` is the address of the `value_type` cell. -/
structure node where
  data : Nat
  left : Ptr
  right : Ptr
  color : colorT
  deriving DecidableEq

/-- Ways in which the C++ program leaves defined behaviour (or the loop budget). -/
inductive Fault where
  | nullDeref
  | dangling
  | noReturn
  | outOfFuel
  deriving DecidableEq

/-- The two exception classes of `exceptions.hpp` that map.hpp throws. -/
inductive exception where
  | index_out_of_bound
  | invalid_iterator
  deriving DecidableEq

/-- The free store: `value_type` cells and `node` objects, `none` once deleted. -/
structure Mem (K V : Type) where
  cells : List (Option (K × V))
  nodes : List (Option node)
  deriving DecidableEq

deriving instance DecidableEq for Except

/-- Engine computations: heap-passing with faults. -/
abbrev Run (K V : Type) := StateT (Mem K V) (Except Fault)

section primitives
variable {K V : Type}

/-- Read the node object behind a pointer (`*o`). -/
def Mem.deref (m : Mem K V) : Ptr → Except Fault node
  | none => .error .nullDeref
  | some a =>
    match m.nodes.get? a with
    | some (some n) => .ok n
    | _ => .error .dangling

/-- Read the `value_type` object at address `d` (`*data`). -/
def Mem.payload (m : Mem K V) (d : Nat) : Except Fault (K × V) :=
  match m.cells.get? d with
  | some (some kv) => .ok kv
  | _ => .error .dangling

/-- Read `*(o->data)`. -/
def Mem.pair (m : Mem K V) (o : Ptr) : Except Fault (K × V) := do
  let n ← m.deref o
  m.payload n.data

/-- Read `o->data->first`. -/
def Mem.key (m : Mem K V) (o : Ptr) : Except Fault K := do
  let kv ← m.pair o
  pure kv.1

/-- The function `colorOf` of map.hpp:48-51. -/
def Mem.colorOf (m : Mem K V) (o : Ptr) : Except Fault colorT :=
  match o with
  | none => .ok .BLACK
  | some _ => do
    let n ← m.deref o
    if n.color = .BLACK then pure .BLACK else pure .RED

/-- Run a read-only computation inside `Run`. -/
def rd {α : Type} (f : Mem K V → Except Fault α) : Run K V α := fun m => do
  let a ← f m
  pure (a, m)

/-- Overwrite the node object behind `o` with `f` of its current contents. -/
def wr (o : Ptr) (f : node → node) : Run K V Unit := fun m =>
  match o with
  | none => .error .nullDeref
  | some a =>
    match m.nodes.get? a with
    | some (some n) => .ok ((), { m with nodes := m.nodes.set a (some (f n)) })
    | _ => .error .dangling

/-- Read `o->left`. -/
def getLeft (o : Ptr) : Run K V Ptr := rd fun m => do let n ← m.deref o; pure n.left
/-- Read `o->right`. -/
def getRight (o : Ptr) : Run K V Ptr := rd fun m => do let n ← m.deref o; pure n.right
/-- Read `o->color`. -/
def getColor (o : Ptr) : Run K V colorT := rd fun m => do let n ← m.deref o; pure n.color
/-- Read `o->data` (the pointer). -/
def getData (o : Ptr) : Run K V Nat := rd fun m => do let n ← m.deref o; pure n.data
/-- Read `o->data->first`. -/
def getKey (o : Ptr) : Run K V K := rd fun m => m.key o
/-- Assign `o->left = v`. -/
def setLeft (o v : Ptr) : Run K V Unit := wr o fun n => { n with left := v }
/-- Assign `o->right = v`. -/
def setRight (o v : Ptr) : Run K V Unit := wr o fun n => { n with right := v }
/-- Assign `o->color = c`. -/
def setColor (o : Ptr) (c : colorT) : Run K V Unit := wr o fun n => { n with color := c }
/-- Assign `o->data = d`. -/
def setData (o : Ptr) (d : Nat) : Run K V Unit := wr o fun n => { n with data := d }

/-- The expression `new node(element, l, r, c)`: the constructor allocates a fresh
`value_type` copy of `element` and the node object itself (map.hpp:35-38). -/
def newNode (element : K × V) (l r : Ptr) (c : colorT) : Run K V Ptr := fun m =>
  .ok (some m.nodes.length,
    { cells := m.cells ++ [some element],
      nodes := m.nodes ++ [some ⟨m.cells.length, l, r, c⟩] })

/-- The statement `delete o`: the destructor deletes `data` (map.hpp:39), then the node
object is released.  `delete nullptr` does nothing. -/
def deleteNode (o : Ptr) : Run K V Unit := fun m =>
  match o with
  | none => .ok ((), m)
  | some a =>
    match m.nodes.get? a with
    | some (some n) =>
      match m.cells.get? n.data with
      | some (some _) =>
        .ok ((), { cells := m.cells.set n.data none, nodes := m.nodes.set a none })
      | _ => .error .dangling
    | _ => .error .dangling

end primitives

/-! ## The balancing engine `redBlackTree` -/

/-- The data members of `redBlackTree` (map.hpp:43-53); the comparator `Less` is passed to
the member functions. `_size` is a `size_t`, kept in `[0, 2^64)`. -/
structure redBlackTree where
  root : Ptr
  _size : Nat
  deriving DecidableEq

/-- Arithmetic of `size_t`. -/
def sizeMod : Nat := 2 ^ 64

section engine
variable {K V : Type}

/-- The default constructor `redBlackTree() { root = nullptr; }` (map.hpp:55): `_size` is
not initialised, so it keeps whatever value `junk` the storage held. -/
def redBlackTree.default (junk : Nat) : redBlackTree := ⟨none, junk % sizeMod⟩

/-- The member `redBlackTree::size` (map.hpp:54). -/
def redBlackTree.size (t : redBlackTree) : Nat := t._size

/-- The member `redBlackTree::Equal` (map.hpp:45-47). -/
def Equal (Less : K → K → Bool) (lhs rhs : K) : Bool := !(Less lhs rhs || Less rhs lhs)

/-- The loop of `redBlackTree::find` (map.hpp:356-361); `fuel` bounds the iterations. -/
def findLoop (Less : K → K → Bool) (m : Mem K V) (x : K) : Nat → Ptr → Except Fault Ptr
  | _, none => .ok none
  | 0, some _ => .error .outOfFuel
  | fuel + 1, some a => do
    let n ← m.deref (some a)
    let kv ← m.payload n.data
    if Equal Less kv.1 x then pure (some a)
    else if Less x kv.1 then findLoop Less m x fuel n.left
    else findLoop Less m x fuel n.right

/-- The member `redBlackTree::find` (map.hpp:353-362). -/
def redBlackTree.find (Less : K → K → Bool) (t : redBlackTree) (m : Mem K V) (x : K)
    (fuel : Nat) : Except Fault Ptr :=
  findLoop Less m x fuel t.root

/-- The member `redBlackTree::maximium` (map.hpp:67-70). -/
def maximium (m : Mem K V) : Nat → Ptr → Except Fault Ptr
  | 0, _ => .error .outOfFuel
  | fuel + 1, o => do
    let n ← m.deref o
    match n.right with
    | none => pure o
    | some r => maximium m fuel (some r)

/-- The member `redBlackTree::minimium` (map.hpp:71-74). -/
def minimium (m : Mem K V) : Nat → Ptr → Except Fault Ptr
  | 0, _ => .error .outOfFuel
  | fuel + 1, o => do
    let n ← m.deref o
    match n.left with
    | none => pure o
    | some l => minimium m fuel (some l)

/-- The member `redBlackTree::swapData` (map.hpp:81-85): exchanges the two `data` pointers. -/
def swapData (t1 t2 : Ptr) : Run K V Unit := do
  let temp ← getData t1
  setData t1 (← getData t2)
  setData t2 temp

/-- The member `redBlackTree::LL` (map.hpp:398-406). -/
def LL (gp : Ptr) : Run K V Unit := do
  let p ← getLeft gp
  let o ← getLeft p
  let temp ← getRight gp
  swapData gp p
  setLeft gp o
  setRight gp p
  setLeft p (← getRight p)
  setRight p temp

/-- The member `redBlackTree::LR` (map.hpp:408-418), statement by statement. -/
def LR (gp : Ptr) : Run K V Unit := do
  let p ← getLeft gp
  let o ← getRight p
  let temp ← getRight gp
  swapData gp o
  setRight gp o
  setData gp (← getData o)
  setRight p (← getLeft o)
  setLeft o (← getRight o)
  setRight o temp

/-- The member `redBlackTree::RR` (map.hpp:420-428). -/
def RR (gp : Ptr) : Run K V Unit := do
  let p ← getRight gp
  let o ← getRight p
  let temp ← getLeft gp
  swapData gp p
  setRight gp o
  setLeft gp p
  setRight p (← getLeft p)
  setLeft p temp

/-- The member `redBlackTree::RL` (map.hpp:430-439), statement by statement: `p` and `temp` are both
read from `gp->left` and `o` from `p->right`, and `p->left` is assigned twice. -/
def RL (gp : Ptr) : Run K V Unit := do
  let p ← getLeft gp
  let o ← getRight p
  let temp ← getLeft gp
  swapData gp o
  setLeft gp o
  setLeft p (← getRight o)
  setLeft p (← getRight o)
  setRight o (← getLeft o)
  setLeft o temp

/-- The member `redBlackTree::insertFixUp` (map.hpp:441-452). -/
def insertFixUp (root gp p o : Ptr) : Run K V Unit := do
  if (← getColor p) = .BLACK then pure ()
  else if p = root then setColor root .BLACK
  else if (← getLeft gp) = p then
    if (← getLeft p) = o then LL gp else LR gp
  else
    if (← getRight p) = o then RR gp else RL gp

/-- The `while (true)` loop of `redBlackTree::insert` (map.hpp:374-395) over the locals
`o`, `p`, `gp`. -/
def insertLoop (Less : K → K → Bool) (root : Ptr) (element : K × V) :
    Nat → Ptr → Ptr → Ptr → Run K V Unit
  | 0, _, _, _ => fun _ => .error .outOfFuel
  | fuel + 1, o, p, gp =>
    match o with
    | some _ => do
      let l ← getLeft o
      if (← rd fun m => m.colorOf l) = .RED then
        let r ← getRight o
        if (← rd fun m => m.colorOf r) = .RED then
          setColor o .RED
          setColor (← getRight o) .BLACK
          setColor (← getLeft o) .BLACK
          insertFixUp root gp p o
      let k ← getKey o
      let o2 ← if Less element.1 k then getLeft o else getRight o
      insertLoop Less root element fuel o2 o p
    | none => do
      let o ← newNode element none none .RED
      if Less element.1 (← getKey p) then setLeft p o else setRight p o
      insertFixUp root gp p o
      setColor root .BLACK

/-- The member `redBlackTree::insert` (map.hpp:364-396); the diagnostic print is omitted. -/
def redBlackTree.insert (Less : K → K → Bool) (t : redBlackTree) (element : K × V)
    (fuel : Nat) : Run K V redBlackTree := do
  let t1 : redBlackTree := { t with _size := (t._size + 1) % sizeMod }
  match t1.root with
  | none =>
    let r ← newNode element none none .BLACK
    pure { t1 with root := r }
  | some _ =>
    insertLoop Less t1.root element fuel t1.root t1.root t1.root
    pure t1

/-- The loop of `redBlackTree::successor` (map.hpp:574-582) over the locals `c`, `last`;
leaving the loop reaches the end of the function without a `return`. -/
def successorLoop (Less : K → K → Bool) (m : Mem K V) (o : Ptr) :
    Nat → Ptr → Ptr → Except Fault Ptr
  | _, none, _ => .error .noReturn
  | 0, some _, _ => .error .outOfFuel
  | fuel + 1, some c, last =>
    if o = some c then .ok last
    else do
      let ko ← m.key o
      let kc ← m.key (some c)
      let n ← m.deref (some c)
      if Less ko kc then successorLoop Less m o fuel n.left (some c)
      else successorLoop Less m o fuel n.right last

/-- The member `redBlackTree::successor` (map.hpp:570-583). -/
def redBlackTree.successor (Less : K → K → Bool) (t : redBlackTree) (m : Mem K V) (o : Ptr)
    (fuel : Nat) : Except Fault Ptr :=
  match o with
  | none => .ok none
  | some _ => do
    let n ← m.deref o
    match n.right with
    | some r => minimium m fuel (some r)
    | none => successorLoop Less m o fuel t.root none

/-- The loop of `redBlackTree::precursor` (map.hpp:589-597). -/
def precursorLoop (Less : K → K → Bool) (m : Mem K V) (o : Ptr) :
    Nat → Ptr → Ptr → Except Fault Ptr
  | _, none, _ => .error .noReturn
  | 0, some _, _ => .error .outOfFuel
  | fuel + 1, some c, last =>
    if some c = o then .ok last
    else do
      let ko ← m.key o
      let kc ← m.key (some c)
      let n ← m.deref (some c)
      if Less ko kc then precursorLoop Less m o fuel n.left last
      else precursorLoop Less m o fuel n.right (some c)

/-- The member `redBlackTree::precursor` (map.hpp:585-598). -/
def redBlackTree.precursor (Less : K → K → Bool) (t : redBlackTree) (m : Mem K V) (o : Ptr)
    (fuel : Nat) : Except Fault Ptr :=
  match o with
  | none => .ok none
  | some _ => do
    let n ← m.deref o
    match n.left with
    | some l => maximium m fuel (some l)
    | none => precursorLoop Less m o fuel t.root none

/-- The member `redBlackTree::removeFixUp` (map.hpp:489-568).  The three reference
parameters `o`, `p`, `c` are returned with their final values; `fuel` bounds the depth of
the recursive call at map.hpp:564. -/
def removeFixUp (Less : K → K → Bool) (root : Ptr) (del : K) :
    Nat → Ptr → Ptr → Ptr → Run K V (Ptr × Ptr × Ptr)
  | 0, _, _, _ => fun _ => .error .outOfFuel
  | fuel + 1, o, p, c => do
    if (← getColor o) = .RED then pure (o, p, c)
    else
      -- map.hpp:493-498
      let early ←
        if o = root then do
          let l ← getLeft o
          if l ≠ none then
            let r ← getRight o
            if r ≠ none then
              if (← getColor r) = (← getColor l) then
                setColor o .RED
                setColor (← getRight c) .BLACK
                setColor (← getLeft o) .BLACK
                pure true
              else pure false
            else pure false
          else pure false
        else pure false
      if early then pure (o, p, c)
      else
        let ol ← getLeft o
        let twoBlack ←
          if (← rd fun m => m.colorOf ol) = .BLACK then do
            let r ← getRight o
            pure ((← rd fun m => m.colorOf r) = .BLACK : Bool)
          else pure false
        if twoBlack then
          -- map.hpp:500-532
          let cl ← getLeft c
          let cBlack ←
            if (← rd fun m => m.colorOf cl) = .BLACK then do
              let r ← getRight c
              pure ((← rd fun m => m.colorOf r) = .BLACK : Bool)
            else pure false
          if cBlack then
            setColor p .BLACK
            setColor c .RED
            setColor o .RED
            pure (o, p, c)
          else if (← getLeft p) = c then
            let l ← getLeft c
            if (← rd fun m => m.colorOf l) = .RED then
              setColor (← getLeft c) .BLACK
              LL p
              pure (o, c, c)
            else
              LR p
              let p2 ← getRight p
              setColor p2 .BLACK
              pure (o, p2, c)
          else
            let r ← getRight c
            if (← rd fun m => m.colorOf r) = .RED then
              setColor (← getRight c) .BLACK
              RR p
              pure (o, c, c)
            else
              RL p
              let p2 ← getLeft p
              setColor p2 .BLACK
              pure (o, p2, c)
        else
          -- map.hpp:533-567
          if Equal Less (← getKey o) del then
            let l ← getLeft o
            let both ← if l ≠ none then do pure ((← getRight o) ≠ none : Bool) else pure false
            if both then
              if (← getColor (← getRight o)) = .BLACK then
                LL o
                pure (← getRight o, p, c)
              else pure (o, p, c)
            else if (← getLeft o) ≠ none then
              LL o
              pure (← getRight o, o, c)
            else
              RR o
              pure (← getLeft o, o, c)
          else
            let p1 := o
            let lt := Less del (← getKey o)
            let o1 ← if lt then getLeft o else getRight o
            let c1 ← if lt then getRight p1 else getLeft p1
            if (← getColor o1) = .BLACK then
              if c1 = (← getRight p1) then RR p1 else LL p1
              let p2 := c1
              let c2 ← if o1 = (← getLeft p2) then getRight p2 else getLeft p2
              removeFixUp Less root del fuel o1 p2 c2
            else pure (o1, p1, c1)

/-- The `while (true)` loop of `redBlackTree::remove` (map.hpp:465-486) over the locals
`o`, `p`, `c`.  The expression statement `root->color == BLACK;` at map.hpp:480 only
reads `root->color`. -/
def removeLoop (Less : K → K → Bool) (root : Ptr) (x : K) (depth : Nat) :
    Nat → Ptr → Ptr → Ptr → Run K V Unit
  | 0, _, _, _ => fun _ => .error .outOfFuel
  | fuel + 1, o, p, c => do
    let (o, p, c) ← removeFixUp Less root x depth o p c
    let two ←
      if Equal Less (← getKey o) x then do
        if (← getLeft o) ≠ none then pure ((← getRight o) ≠ none : Bool) else pure false
      else pure false
    let (o, p, _) ←
      if two then do
        let r ← getRight o
        let shadow ← rd fun m => minimium m depth r
        swapData o shadow
        pure (← getRight o, o, ← getLeft o)
      else pure (o, p, c)
    if Equal Less (← getKey o) x then
      deleteNode o
      if (← getLeft p) = o then setLeft p none else setRight p none
      let _ ← getColor root
      pure ()
    else
      let p1 := o
      let lt := Less x (← getKey o)
      let o1 ← if lt then getLeft o else getRight o
      let c1 ← if lt then getRight p1 else getLeft p1
      removeLoop Less root x depth fuel o1 p1 c1

/-- The member `redBlackTree::remove` (map.hpp:454-487). -/
def redBlackTree.remove (Less : K → K → Bool) (t : redBlackTree) (x : K) (fuel : Nat) :
    Run K V redBlackTree := do
  let t1 : redBlackTree := { t with _size := (t._size + sizeMod - 1) % sizeMod }
  match t1.root with
  | none => pure t1
  | some _ =>
    let single ←
      if Equal Less (← getKey t1.root) x then do
        if (← getLeft t1.root) = none then pure ((← getRight t1.root) = none : Bool)
        else pure false
      else pure false
    if single then
      deleteNode t1.root
      pure { t1 with root := none }
    else
      removeLoop Less t1.root x fuel fuel t1.root t1.root t1.root
      pure t1

end engine

/-! ## The facade `map` and its iterator -/

/-- The class `map` (map.hpp:20-335): its only data member is the tree `R`. -/
structure map where
  R : redBlackTree
  deriving DecidableEq

/-- The class `map::iterator` (map.hpp:107-164): the node pointer `o`; the container
pointer `M` is the map the iterator is used with. `o = none` is past-the-end. -/
structure iterator where
  o : Ptr
  deriving DecidableEq

section facade
variable {K V : Type}

/-- The constructor `map() {}` (map.hpp:215): default-constructs `R`. -/
def map.default (junk : Nat) : map := ⟨redBlackTree.default junk⟩

/-- The free store before anything was allocated. -/
def Mem.empty : Mem K V := ⟨[], []⟩

/-- The member `iterator::invalid` (map.hpp:113). -/
def iterator.invalid (it : iterator) : Bool := it.o = none

/-- The member `map::size` (map.hpp:280). -/
def map.size (mp : map) : Nat := mp.R.size

/-- The member `map::empty` (map.hpp:276). -/
def map.empty (mp : map) : Bool := mp.R.size = 0

/-- The member `map::end` (map.hpp:270). -/
def map.end (_mp : map) : iterator := ⟨none⟩

/-- The member `map::begin` (map.hpp:264). -/
def map.begin (mp : map) (fuel : Nat) : Run K V iterator := do
  let o ← rd fun m => minimium m fuel mp.R.root
  pure ⟨o⟩

/-- The member `map::at` (map.hpp:236-240); the returned reference is represented by the
value it refers to. -/
def map.at (Less : K → K → Bool) (mp : map) (key : K) (fuel : Nat) :
    Run K V (Except exception V) := do
  let o ← rd fun m => mp.R.find Less m key fuel
  if o = none then pure (.error .index_out_of_bound)
  else
    let kv ← rd fun m => m.pair o
    pure (.ok kv.2)

/-- The member `map::operator[]` (map.hpp:252-256); `T()` is `default`. -/
def map.index [Inhabited V] (Less : K → K → Bool) (mp : map) (key : K) (fuel : Nat) :
    Run K V (Except exception V × map) := do
  let o ← rd fun m => mp.R.find Less m key fuel
  let mp1 ← if o = none then do
      let t ← mp.R.insert Less (key, (Inhabited.default : V)) fuel
      pure (⟨t⟩ : map)
    else pure mp
  let r ← mp1.at Less key fuel
  pure (r, mp1)

/-- The member `map::insert` (map.hpp:291-298). -/
def map.insert (Less : K → K → Bool) (mp : map) (value : K × V) (fuel : Nat) :
    Run K V ((iterator × Bool) × map) := do
  let o ← rd fun m => mp.R.find Less m value.1 fuel
  if o = none then
    let t ← mp.R.insert Less value fuel
    let o2 ← rd fun m => t.find Less m value.1 fuel
    pure ((⟨o2⟩, true), ⟨t⟩)
  else pure ((⟨o⟩, false), mp)

/-- The member `map::erase` (map.hpp:304-307). -/
def map.erase (Less : K → K → Bool) (mp : map) (pos : iterator) (fuel : Nat) :
    Run K V (Except exception Unit × map) := do
  if pos.invalid then pure (.error .invalid_iterator, mp)
  else
    let x ← getKey pos.o
    let t ← mp.R.remove Less x fuel
    pure (.ok (), ⟨t⟩)

/-- The member `map::count` (map.hpp:315-318). -/
def map.count (Less : K → K → Bool) (mp : map) (key : K) (fuel : Nat) : Run K V Nat := do
  let o ← rd fun m => mp.R.find Less m key fuel
  if o ≠ none then pure 1 else pure 0

/-- The member `map::find` (map.hpp:325-329). -/
def map.find (Less : K → K → Bool) (mp : map) (key : K) (fuel : Nat) : Run K V iterator := do
  let o ← rd fun m => mp.R.find Less m key fuel
  if o = none then pure mp.end else pure ⟨o⟩

/-- The prefix increment `iterator::operator++` (map.hpp:129-133). -/
def iterator.incr (Less : K → K → Bool) (mp : map) (it : iterator) (fuel : Nat) :
    Run K V iterator := do
  let o ← rd fun m => mp.R.successor Less m it.o fuel
  pure ⟨o⟩

/-- The prefix decrement `iterator::operator--` (map.hpp:142-146). -/
def iterator.decr (Less : K → K → Bool) (mp : map) (it : iterator) (fuel : Nat) :
    Run K V iterator := do
  if it.o = none then
    let o ← rd fun m => maximium m fuel mp.R.root
    pure ⟨o⟩
  else
    let o ← rd fun m => mp.R.precursor Less m it.o fuel
    pure ⟨o⟩

end facade

/-! ## Client code: operation sequences and traversal -/

section client
variable {K V : Type}

/-- The client loop `for (it = m.begin(); it != m.end(); ++it) visit(*it)`, from a given
position `it`; the result lists the pairs `*it` in the order visited. -/
def walk (Less : K → K → Bool) (mp : map) (fuel : Nat) :
    Nat → iterator → Run K V (List (K × V))
  | 0, _ => fun _ => .error .outOfFuel
  | steps + 1, it =>
    if it = mp.end then pure []
    else do
      let kv ← rd fun m => m.pair it.o
      let nxt ← it.incr Less mp fuel
      let rest ← walk Less mp fuel steps nxt
      pure (kv :: rest)

/-- Forward iteration over the whole container, `begin()` to `end()`. -/
def map.traverse (Less : K → K → Bool) (mp : map) (fuel : Nat) : Run K V (List (K × V)) := do
  let it ← mp.begin fuel
  walk Less mp fuel fuel it

/-- The facade calls a client makes: `m.insert(kv)`, `m.erase(m.find(k))` and `m[k]`. -/
inductive Op (K V : Type) where
  | insert (kv : K × V)
  | erase (k : K)
  | index (k : K)

/-- One facade call; an exception thrown by the call is caught by the client. -/
def Op.apply [Inhabited V] (Less : K → K → Bool) (fuel : Nat) (mp : map) :
    Op K V → Run K V map
  | .insert kv => do
    let r ← mp.insert Less kv fuel
    pure r.2
  | .erase k => do
    let it ← mp.find Less k fuel
    let r ← mp.erase Less it fuel
    pure r.2
  | .index k => do
    let r ← mp.index Less k fuel
    pure r.2

/-- A sequence of facade calls, left to right. -/
def runOps [Inhabited V] (Less : K → K → Bool) (fuel : Nat) :
    List (Op K V) → map → Run K V map
  | [], mp => pure mp
  | op :: ops, mp => do
    let mp1 ← op.apply Less fuel mp
    runOps Less fuel ops mp1

/-- The comparator `std::less` on natural-number keys. -/
def natLess (a b : Nat) : Bool := decide (a < b)

/-- The state a client reaches from a default-constructed map (whose `_size` started at
`junk`) by the calls `ops`. -/
def reach (junk : Nat) (fuel : Nat) (ops : List (Op Nat Nat)) :
    Except Fault (map × Mem Nat Nat) :=
  (runOps natLess fuel ops (map.default junk)).run Mem.empty

end client

/-! ## Copying and destruction -/

section lifetime
variable {K V : Type}

/-- The member `redBlackTree::copy` (map.hpp:337-344): the clone is built by
`new node(*(o->data))`, so with null children and the default colour RED, and its
children are then set to the clones of the children.  `fuel` bounds the recursion depth. -/
def redBlackTree.copy : Nat → Ptr → Run K V Ptr
  | _, none => pure none
  | 0, some _ => fun _ => .error .outOfFuel
  | fuel + 1, some a => do
    let kv ← rd fun m => m.pair (some a)
    let ret ← newNode kv none none .RED
    let l ← redBlackTree.copy fuel (← getLeft (some a))
    setLeft ret l
    let r ← redBlackTree.copy fuel (← getRight (some a))
    setRight ret r
    pure ret

/-- The member `redBlackTree::clear` (map.hpp:346-351); it starts by reading `o->left`,
also when `o` is `nullptr`. -/
def redBlackTree.clear : Nat → Ptr → Run K V Unit
  | 0, _ => fun _ => .error .outOfFuel
  | fuel + 1, o => do
    let l ← getLeft o
    if l ≠ none then redBlackTree.clear fuel l
    let r ← getRight o
    if r ≠ none then redBlackTree.clear fuel r
    deleteNode o

/-- The destructor `~redBlackTree() { clear(root); }` (map.hpp:57).  It assigns to no
data member, so `root` and `_size` of the object keep their values. -/
def redBlackTree.destroy (t : redBlackTree) (fuel : Nat) : Run K V Unit :=
  redBlackTree.clear fuel t.root

/-- The copy constructor of `redBlackTree` (map.hpp:56). -/
def redBlackTree.copyCtor (other : redBlackTree) (fuel : Nat) : Run K V redBlackTree := do
  let root ← redBlackTree.copy fuel other.root
  pure ⟨root, other._size⟩

/-- The member `redBlackTree::operator=` (map.hpp:58-64) for `this != &other`. -/
def redBlackTree.assign (this other : redBlackTree) (fuel : Nat) : Run K V redBlackTree := do
  this.destroy fuel
  let root ← redBlackTree.copy fuel other.root
  pure ⟨root, other._size⟩

/-- The copy constructor `map(const map &other) : R(other.R) {}` (map.hpp:216). -/
def map.copyCtor (other : map) (fuel : Nat) : Run K V map := do
  let t ← other.R.copyCtor fuel
  pure ⟨t⟩

/-- The member `map::operator=` (map.hpp:220-225) for `this != &other`: the destructor of
`R` is called explicitly, then `R = other.R` runs `redBlackTree::operator=`. -/
def map.assign (this other : map) (fuel : Nat) : Run K V map := do
  this.R.destroy fuel
  let t ← this.R.assign other.R fuel
  pure ⟨t⟩

/-- The member `map::clear` (map.hpp:284): `R.~redBlackTree()` and nothing else, so the
map object is returned as it was. -/
def map.clear (mp : map) (fuel : Nat) : Run K V map := do
  mp.R.destroy fuel
  pure mp

end lifetime

/-! ## Specification vocabulary

The data-model invariants of the specification, stated over the heap. -/

section spec
variable {K V : Type}

/-- The shape of a finite tree of node objects: at address `a` a node of colour `c` whose
`data` pointer is `d`, whose cell holds `kv`, with subtrees `l` and `r`. -/
inductive Tree (K V : Type) where
  | nil : Tree K V
  | node (a : Nat) (l : Tree K V) (d : Nat) (c : colorT) (kv : K × V) (r : Tree K V) : Tree K V

/-- The pointer to the top node of a tree shape (`nullptr` for the empty one). -/
def Tree.ptr : Tree K V → Ptr
  | .nil => none
  | .node a _ _ _ _ _ => some a

/-- The heap `m` contains the tree `t`: every node object and every cell is live and holds
what `t` says. -/
def Tree.Holds (m : Mem K V) : Tree K V → Prop
  | .nil => True
  | .node a l d c kv r =>
    m.nodes.get? a = some (some ⟨d, l.ptr, r.ptr, c⟩) ∧ m.cells.get? d = some (some kv) ∧
      l.Holds m ∧ r.Holds m

/-- In-order sequence of (node address, stored pair). -/
def Tree.entries : Tree K V → List (Nat × (K × V))
  | .nil => []
  | .node a l _ _ kv r => l.entries ++ (a, kv) :: r.entries

/-- Number of nodes on the longest downward path. -/
def Tree.height : Tree K V → Nat
  | .nil => 0
  | .node _ l _ _ _ r => max l.height r.height + 1

/-- Invariant 1 of the data model: in-order keys strictly increasing under the comparator. -/
def Tree.Ordered (Less : K → K → Bool) (t : Tree K V) : Prop :=
  t.entries.Pairwise fun e f => Less e.2.1 f.2.1 = true

/-- The comparator is a strict weak order: irreflexive, transitive, and the derived
equivalence `Equal` is transitive. -/
structure StrictWeak (Less : K → K → Bool) : Prop where
  irrefl : ∀ a, Less a a = false
  trans : ∀ a b c, Less a b = true → Less b c = true → Less a c = true
  equiv_trans : ∀ a b c, Equal Less a b = true → Equal Less b c = true → Equal Less a c = true

/-- A list of keys is strictly increasing under the comparator. -/
def StrictlyIncreasing (Less : K → K → Bool) (ks : List K) : Prop :=
  ks.Pairwise fun a b => Less a b = true

/-- The number of BLACK nodes on each path from `p` down to an absent child, leftmost
path first. -/
def blackCounts (m : Mem K V) : Nat → Ptr → Except Fault (List Nat)
  | _, none => .ok [0]
  | 0, some _ => .error .outOfFuel
  | fuel + 1, some a => do
    let n ← m.deref (some a)
    let l ← blackCounts m fuel n.left
    let r ← blackCounts m fuel n.right
    pure ((l ++ r).map fun b => if n.color = .BLACK then b + 1 else b)

/-- Whether some RED node below `p` has a RED child. -/
def redRed (m : Mem K V) : Nat → Ptr → Except Fault Bool
  | _, none => .ok false
  | 0, some _ => .error .outOfFuel
  | fuel + 1, some a => do
    let n ← m.deref (some a)
    let cl ← m.colorOf n.left
    let cr ← m.colorOf n.right
    let l ← redRed m fuel n.left
    let r ← redRed m fuel n.right
    pure ((n.color = .RED && (cl = .RED || cr = .RED)) || l || r)

/-- Invariants 2-4 of the data model for the tree below `root`: the root (if present) is
BLACK, no RED node has a RED child, all paths carry the same number of BLACK nodes. -/
def balanced (m : Mem K V) (fuel : Nat) (root : Ptr) : Except Fault Bool := do
  let c ← m.colorOf root
  let rr ← redRed m fuel root
  let bs ← blackCounts m fuel root
  pure (c = .BLACK && !rr && bs.all fun b => b = bs.headD 0)

/-- Addresses of the node objects reachable from `p`, in in-order. -/
def reachable (m : Mem K V) : Nat → Ptr → Except Fault (List Nat)
  | _, none => .ok []
  | 0, some _ => .error .outOfFuel
  | fuel + 1, some a => do
    let n ← m.deref (some a)
    let l ← reachable m fuel n.left
    let r ← reachable m fuel n.right
    pure (l ++ a :: r)

/-- A three-element heap: keys 2 (BLACK, at the root), 1 and 3 (RED), as left by inserting
2, 1, 3 into an empty map. -/
def mem213 : Mem Nat Nat :=
  ⟨[some (2, 20), some (1, 10), some (3, 30)],
   [some ⟨0, some 1, some 2, .BLACK⟩, some ⟨1, none, none, .RED⟩, some ⟨2, none, none, .RED⟩]⟩

/-- The tree shape held by `mem213`. -/
def tree213 : Tree Nat Nat :=
  .node 0 (.node 1 .nil 1 .RED (1, 10) .nil) 0 .BLACK (2, 20) (.node 2 .nil 2 .RED (3, 30) .nil)

/-- The map object whose tree is `tree213`. -/
def map213 : map := ⟨⟨some 0, 3⟩⟩

/-- The map object after the calls insert 3, insert 1. -/
def map31 : map := ⟨⟨some 0, 2⟩⟩

/-- The heap after the calls insert 3, insert 1: key 3 at the BLACK root, key 1 its RED
left child. -/
def mem31 : Mem Nat Nat :=
  ⟨[some (3, 30), some (1, 10)],
   [some ⟨0, some 1, none, .BLACK⟩, some ⟨1, none, none, .RED⟩]⟩

/-- The map object after the calls insert 3, insert 1, insert 2. -/
def map312 : map := ⟨⟨some 0, 3⟩⟩

/-- The heap after the calls insert 3, insert 1, insert 2: the root (node 0) and the new
node (node 2) both point at cell 0, which holds key 3; cell 2 with key 2 is referenced by
no node. -/
def mem312 : Mem Nat Nat :=
  ⟨[some (3, 30), some (1, 10), some (2, 20)],
   [some ⟨0, some 1, some 2, .BLACK⟩, some ⟨1, none, none, .RED⟩, some ⟨0, none, none, .RED⟩]⟩

/-- The heap after inserting 2, 1, 3 and erasing the element with key 2: a RED root with
key 3 whose only child is the BLACK node with key 1. -/
def mem13 : Mem Nat Nat :=
  ⟨[none, some (1, 10), some (3, 30)],
   [some ⟨2, some 1, none, .RED⟩, some ⟨1, none, none, .BLACK⟩, none]⟩

/-- The map object after the calls insert 2, insert 1, insert 3, insert 4. -/
def map2134 : map := ⟨⟨some 0, 4⟩⟩

/-- The heap after the calls insert 2, insert 1, insert 3, insert 4: a BLACK root 2 with
BLACK children 1 and 3, and 4 the RED right child of 3. -/
def mem2134 : Mem Nat Nat :=
  ⟨[some (2, 20), some (1, 10), some (3, 30), some (4, 40)],
   [some ⟨0, some 1, some 2, .BLACK⟩, some ⟨1, none, none, .BLACK⟩,
    some ⟨2, none, some 3, .BLACK⟩, some ⟨3, none, none, .RED⟩]⟩

/-- The map object after erasing the element with key 2 from `map2134`. -/
def map134 : map := ⟨⟨some 0, 3⟩⟩

/-- The heap after erasing the element with key 2 from `mem2134`: node 2 was deleted and
node 3 (key 4), still allocated, is no longer linked from any node. -/
def mem134 : Mem Nat Nat :=
  ⟨[none, some (1, 10), some (3, 30), some (4, 40)],
   [some ⟨2, some 1, none, .RED⟩, some ⟨1, none, none, .BLACK⟩, none,
    some ⟨3, none, none, .RED⟩]⟩

/-- The tree shape reachable from the root of `mem134`. -/
def tree134 : Tree Nat Nat :=
  .node 0 (.node 1 .nil 1 .BLACK (1, 10) .nil) 2 .RED (3, 30) .nil

/-- In-order sequence of the pairs stored below `p`, read from the heap. -/
def inorder (m : Mem K V) : Nat → Ptr → Except Fault (List (K × V))
  | _, none => .ok []
  | 0, some _ => .error .outOfFuel
  | fuel + 1, some a => do
    let n ← m.deref (some a)
    let kv ← m.payload n.data
    let l ← inorder m fuel n.left
    let r ← inorder m fuel n.right
    pure (l ++ kv :: r)

/-- The heap once `mem213` has been extended by a copy of its tree: nodes 3, 4, 5 are the
clones of nodes 0, 1, 2. -/
def mem213copy : Mem Nat Nat :=
  ⟨[some (2, 20), some (1, 10), some (3, 30), some (2, 20), some (1, 10), some (3, 30)],
   [some ⟨0, some 1, some 2, .BLACK⟩, some ⟨1, none, none, .RED⟩, some ⟨2, none, none, .RED⟩,
    some ⟨3, some 4, some 5, .RED⟩, some ⟨4, none, none, .RED⟩, some ⟨5, none, none, .RED⟩]⟩

/-- The map object after the calls insert 5, 3, 8, 1, 4, 7, 9. -/
def map7 : map := ⟨⟨some 0, 7⟩⟩

/-- The heap after the calls insert 5, 3, 8, 1, 4, 7, 9 on an empty map. -/
def mem7 : Mem Nat Nat :=
  ⟨[some (5, 50), some (3, 30), some (8, 80), some (1, 10), some (4, 40), some (7, 70),
    some (9, 90)],
   [some ⟨0, some 1, some 2, .BLACK⟩, some ⟨1, some 3, some 4, .BLACK⟩,
    some ⟨2, some 5, some 6, .BLACK⟩, some ⟨3, none, none, .RED⟩, some ⟨4, none, none, .RED⟩,
    some ⟨5, none, none, .RED⟩, some ⟨6, none, none, .RED⟩]⟩

/-- The map object after erasing the element with key 5 from `map7`. -/
def map6 : map := ⟨⟨some 0, 6⟩⟩

/-- The heap after erasing the element with key 5 from `mem7`. -/
def mem6 : Mem Nat Nat :=
  ⟨[none, some (3, 30), some (8, 80), some (1, 10), some (4, 40), some (7, 70), some (9, 90)],
   [some ⟨5, some 1, some 2, .RED⟩, some ⟨1, some 3, some 4, .BLACK⟩,
    some ⟨2, none, some 6, .BLACK⟩, some ⟨3, none, none, .RED⟩, some ⟨4, none, none, .RED⟩,
    none, some ⟨6, none, none, .RED⟩]⟩

/-- The shape `insertFixUp` hands to `LL`: gp = node 0 (key 3), p = gp->left = node 1
(key 2), o = p->left = node 2 (key 1). -/
def memLL : Mem Nat Nat :=
  ⟨[some (3, 30), some (2, 20), some (1, 10)],
   [some ⟨0, some 1, none, .BLACK⟩, some ⟨1, some 2, none, .RED⟩, some ⟨2, none, none, .RED⟩]⟩

/-- The shape `insertFixUp` hands to `LR`: gp = node 0 (key 3), p = gp->left = node 1
(key 1), o = p->right = node 2 (key 2). -/
def memLR : Mem Nat Nat :=
  ⟨[some (3, 30), some (1, 10), some (2, 20)],
   [some ⟨0, some 1, none, .BLACK⟩, some ⟨1, none, some 2, .RED⟩, some ⟨2, none, none, .RED⟩]⟩

/-- The shape `insertFixUp` hands to `RR`: gp = node 0 (key 1), p = gp->right = node 1
(key 2), o = p->right = node 2 (key 3). -/
def memRR : Mem Nat Nat :=
  ⟨[some (1, 10), some (2, 20), some (3, 30)],
   [some ⟨0, none, some 1, .BLACK⟩, some ⟨1, none, some 2, .RED⟩, some ⟨2, none, none, .RED⟩]⟩

/-- The shape `insertFixUp` hands to `RL`: gp = node 0 (key 1), p = gp->right = node 1
(key 3), o = p->left = node 2 (key 2). -/
def memRL : Mem Nat Nat :=
  ⟨[some (1, 10), some (3, 30), some (2, 20)],
   [some ⟨0, none, some 1, .BLACK⟩, some ⟨1, some 2, none, .RED⟩, some ⟨2, none, none, .RED⟩]⟩

/-- The `RL` shape of `memRL` below a grandparent that also has a left child (node 3,
key 0) with a right child (node 4, key 1); gp holds key 2, p key 4, o key 3. -/
def memRLuncle : Mem Nat Nat :=
  ⟨[some (2, 20), some (4, 40), some (3, 30), some (0, 0), some (1, 10)],
   [some ⟨0, some 3, some 1, .BLACK⟩, some ⟨1, some 2, none, .RED⟩, some ⟨2, none, none, .RED⟩,
    some ⟨3, none, some 4, .BLACK⟩, some ⟨4, none, none, .RED⟩]⟩

/-- Colour of the top node of a tree shape; the empty shape counts as BLACK, as in
`colorOf`. -/
def Tree.color : Tree K V → colorT
  | .nil => .BLACK
  | .node _ _ _ c _ _ => c

/-- Addresses of the node objects of a tree shape. -/
def Tree.addrs : Tree K V → List Nat
  | .nil => []
  | .node a l _ _ _ r => a :: (l.addrs ++ r.addrs)

/-- No node object occurs twice in the tree shape. -/
def Tree.Sep : Tree K V → Prop
  | .nil => True
  | .node a l _ _ _ r =>
    a ∉ l.addrs ∧ a ∉ r.addrs ∧ (∀ x ∈ l.addrs, x ∉ r.addrs) ∧ l.Sep ∧ r.Sep

/-- Invariants 3 and 4 of the data model for a tree shape: no RED node has a RED child and
every path from the top to an absent child passes through `h` BLACK nodes. -/
def Tree.RB : Tree K V → Nat → Prop
  | .nil, h => h = 0
  | .node _ l _ .RED _ r, h => l.color = .BLACK ∧ r.color = .BLACK ∧ l.RB h ∧ r.RB h
  | .node _ _ _ .BLACK _ _, 0 => False
  | .node _ l _ .BLACK _ r, h + 1 => l.RB h ∧ r.RB h

/-- The calls `insert((1,1)), insert((2,2)), ..., insert((n,n))`. -/
def ascending (n : Nat) : List (Op Nat Nat) :=
  (List.range' 1 n).map fun k => Op.insert (k, k)

/-- The heap `m'` holds the tree `T'`, which is `T` (held by `m`) grown by one node for
`element` at the right end: same top node object, the new node object is the one
allocated next, the stored pairs are those of `T` followed by `element`, and outside the
node objects of `T` the old part of the heap is untouched. -/
def Grown (m m' : Mem K V) (element : K × V) (T T' : Tree K V) : Prop :=
  T'.Holds m' ∧ T'.ptr = T.ptr ∧ T'.Sep ∧
  T'.entries.map Prod.snd = T.entries.map Prod.snd ++ [element] ∧
  (∀ x, x ∈ T'.addrs ↔ x ∈ T.addrs ∨ x = m.nodes.length) ∧
  m'.nodes.length = m.nodes.length + 1 ∧
  m'.cells = m.cells ++ [some element] ∧
  (∀ a, a < m.nodes.length → a ∉ T.addrs → m'.nodes.get? a = m.nodes.get? a)

/-- Number of nodes on the longest downward path from `p`, read from the heap. -/
def heightOf (m : Mem K V) : Nat → Ptr → Except Fault Nat
  | _, none => .ok 0
  | 0, some _ => .error .outOfFuel
  | fuel + 1, some a => do
    let n ← m.deref (some a)
    let l ← heightOf m fuel n.left
    let r ← heightOf m fuel n.right
    pure (max l r + 1)

/-- The node object at address `b` is live in `m`. -/
def Live (m : Mem K V) (b : Nat) : Prop := ∃ n, m.nodes.get? b = some (some n)

/-- The number `d` is the `data` pointer of a node object that is live in `m0`. -/
def InData (m0 : Mem K V) (d : Nat) : Prop :=
  ∃ q nq, m0.nodes.get? q = some (some nq) ∧ nq.data = d

/-- What `remove` may have done to the heap `m0` before its `delete`: no `value_type`
object was touched, the same node objects are live, and the `data` pointer of every
live node object is one that a live node object had in `m0`. -/
def FrameA (m0 m : Mem K V) : Prop :=
  m.cells = m0.cells ∧ (∀ b, Live m b ↔ Live m0 b) ∧
  (∀ b n, m.nodes.get? b = some (some n) → InData m0 n.data)

/-- What `remove(x)` may have done to the heap `m0` once its `delete` has run: exactly one
`value_type` object `d0` was deleted, and it held a key equivalent to `x`; no other was
touched; exactly one node object `b0` was deleted and the others are live as before;
the `data` pointer of every live node object is one that a live node object had in
`m0`. -/
def FrameB (Less : K → K → Bool) (x : K) (m0 m : Mem K V) : Prop :=
  ∃ b0 d0 kv, m0.cells.get? d0 = some (some kv) ∧ Equal Less kv.1 x = true ∧
    m.cells = m0.cells.set d0 none ∧ Live m0 b0 ∧ ¬ Live m b0 ∧
    (∀ b, b ≠ b0 → (Live m b ↔ Live m0 b)) ∧
    (∀ b n, m.nodes.get? b = some (some n) → InData m0 n.data)

/-- Either of `FrameA` and `FrameB`. -/
def FrameAB (Less : K → K → Bool) (x : K) (m0 m : Mem K V) : Prop :=
  FrameA m0 m ∨ FrameB Less x m0 m

/-- The computation `prog`, started in a heap that satisfies `J`, leaves a heap that
satisfies `J'` and returns a value that satisfies `Q`, if it returns. -/
def Keeps {α : Type} (J J' : Mem K V → Prop) (prog : Run K V α) (Q : α → Prop) : Prop :=
  ∀ m a m', J m → prog m = .ok (a, m') → J' m' ∧ Q a

/-- The heap predicate `J` survives an assignment to the fields of a live node object that
stores a `data` pointer taken from a live node object of `m0`, and it implies that every
`data` pointer is of that kind. -/
def Inv (m0 : Mem K V) (J : Mem K V → Prop) : Prop :=
  (∀ m b n n', J m → m.nodes.get? b = some (some n) → InData m0 n'.data →
    J { m with nodes := m.nodes.set b (some n') }) ∧
  (∀ m b n, J m → m.nodes.get? b = some (some n) → InData m0 n.data)

end spec

/-! ## Theorems -/

section lemmas
variable {K V : Type}

theorem Mem.deref_eq {m : Mem K V} {a : Nat} {n : node}
    (h : m.nodes.get? a = some (some n)) : m.deref (some a) = .ok n := by
  simp only [Mem.deref, h]

theorem Mem.payload_eq {m : Mem K V} {d : Nat} {kv : K × V}
    (h : m.cells.get? d = some (some kv)) : m.payload d = .ok kv := by
  simp only [Mem.payload, h]

theorem Equal_symm (Less : K → K → Bool) (a b : K) : Equal Less a b = Equal Less b a := by
  simp [Equal, Bool.or_comm]

/-- Every entry of a tree held by the heap can be read back through its node pointer. -/
theorem Tree.Holds.pair_eq {m : Mem K V} :
    ∀ {t : Tree K V}, t.Holds m → ∀ a kv, (a, kv) ∈ t.entries → m.pair (some a) = .ok kv := by
  intro t
  induction t with
  | nil => intro _ a kv h; simp [Tree.entries] at h
  | node a0 l d c kv0 r ihl ihr =>
    intro hH a kv hmem
    obtain ⟨hn, hc, hl, hr⟩ := hH
    simp only [Tree.entries, List.mem_append, List.mem_cons] at hmem
    rcases hmem with h | h | h
    · exact ihl hl a kv h
    · cases h
      simp only [Mem.pair, Mem.deref_eq hn, Mem.payload_eq hc, bind, Except.bind]
    · exact ihr hr a kv h

/-- The loop of `find` on an ordered tree held by the heap: with fuel for the height of
the tree it returns, and what it returns is the node with the equivalent key, if any. -/
theorem findLoop_spec (Less : K → K → Bool) (hs : StrictWeak Less) (m : Mem K V) (k : K) :
    ∀ (t : Tree K V) (fuel : Nat), t.Holds m → t.Ordered Less → t.height ≤ fuel →
      ∃ r, findLoop Less m k fuel t.ptr = .ok r ∧
        (∀ a, r = some a → ∃ kv, (a, kv) ∈ t.entries ∧ Equal Less kv.1 k = true) ∧
        (∀ a kv, (a, kv) ∈ t.entries → Equal Less kv.1 k = true → r = some a) := by
  intro t
  induction t with
  | nil =>
    intro fuel _ _ _
    refine ⟨none, ?_, ?_, ?_⟩
    · cases fuel <;> rfl
    · intro a h; cases h
    · intro a kv h; simp [Tree.entries] at h
  | node a l d c kv r ihl ihr =>
    intro fuel hH hO hf
    obtain ⟨hn, hc, hl, hr⟩ := hH
    cases fuel with
    | zero => simp [Tree.height] at hf
    | succ f =>
      have hfl : l.height ≤ f := by simp [Tree.height] at hf; omega
      have hfr : r.height ≤ f := by simp [Tree.height] at hf; omega
      simp only [Tree.Ordered, Tree.entries, List.pairwise_append, List.pairwise_cons,
        List.mem_cons] at hO
      obtain ⟨hOl, ⟨hkr, hOr⟩, hlr⟩ := hO
      have hstep : findLoop Less m k (f + 1) (some a) =
          if Equal Less kv.1 k then .ok (some a)
          else if Less k kv.1 then findLoop Less m k f l.ptr
          else findLoop Less m k f r.ptr := by
        simp only [findLoop, Mem.deref_eq hn, Mem.payload_eq hc, bind, Except.bind, pure,
          Except.pure]
      simp only [Tree.ptr]
      rw [hstep]
      by_cases he : Equal Less kv.1 k = true
      · rw [if_pos he]
        refine ⟨some a, rfl, ?_, ?_⟩
        · intro a' ha'
          cases ha'
          exact ⟨kv, by simp [Tree.entries], he⟩
        · intro a' kv' hmem he'
          simp only [Tree.entries, List.mem_append, List.mem_cons] at hmem
          have hee : Equal Less kv'.1 kv.1 = true :=
            hs.equiv_trans _ _ _ he' (by rw [Equal_symm]; exact he)
          rcases hmem with h | h | h
          · have := hlr _ h (a, kv) (Or.inl rfl)
            simp [Equal, this] at hee
          · cases h; rfl
          · have := hkr _ h
            simp [Equal, this] at hee
      · rw [if_neg he]
        by_cases hlt : Less k kv.1 = true
        · rw [if_pos hlt]
          obtain ⟨res, h1, h2, h3⟩ := ihl f hl hOl hfl
          refine ⟨res, h1, ?_, ?_⟩
          · intro a' ha'
            obtain ⟨kv', hm, hq⟩ := h2 a' ha'
            exact ⟨kv', by simp [Tree.entries, hm], hq⟩
          · intro a' kv' hmem he'
            simp only [Tree.entries, List.mem_append, List.mem_cons] at hmem
            rcases hmem with h | h | h
            · exact h3 a' kv' h he'
            · cases h; exact absurd he' he
            · have h4 := hs.trans _ _ _ hlt (hkr _ h)
              simp [Equal, h4] at he'
        · rw [if_neg hlt]
          have hgt : Less kv.1 k = true := by
            cases h1 : Less kv.1 k with
            | true => rfl
            | false =>
              have h2 : Less k kv.1 = false := by simpa using hlt
              exact absurd (by simp [Equal, h1, h2]) he
          obtain ⟨res, h1, h2, h3⟩ := ihr f hr hOr hfr
          refine ⟨res, h1, ?_, ?_⟩
          · intro a' ha'
            obtain ⟨kv', hm, hq⟩ := h2 a' ha'
            exact ⟨kv', by simp [Tree.entries, hm], hq⟩
          · intro a' kv' hmem he'
            simp only [Tree.entries, List.mem_append, List.mem_cons] at hmem
            rcases hmem with h | h | h
            · have h4 := hs.trans _ _ _ (hlr _ h (a, kv) (Or.inl rfl)) hgt
              simp [Equal, h4] at he'
            · cases h; exact absurd he' he
            · exact h3 a' kv' h he'

/-- The engine `find` on the tree of a map, in the form the facade theorems use: the
result is `none` exactly when no stored key is equivalent to `k`. -/
theorem find_spec (Less : K → K → Bool) (hs : StrictWeak Less) (mp : map) (m : Mem K V)
    (t : Tree K V) (hroot : mp.R.root = t.ptr) (hH : t.Holds m) (hO : t.Ordered Less)
    (k : K) (fuel : Nat) (hf : t.height ≤ fuel) :
    ∃ r, mp.R.find Less m k fuel = .ok r ∧
      (∀ a, r = some a →
        ∃ kv, (a, kv) ∈ t.entries ∧ m.pair (some a) = .ok kv ∧ Equal Less kv.1 k = true) ∧
      (∀ a kv, (a, kv) ∈ t.entries → Equal Less kv.1 k = true → r = some a) ∧
      (r = none ↔ ∀ e ∈ t.entries, Equal Less e.2.1 k = false) := by
  obtain ⟨r, h1, h2, h3⟩ := findLoop_spec Less hs m k t fuel hH hO hf
  refine ⟨r, by rw [redBlackTree.find, hroot]; exact h1, ?_, h3, ?_⟩
  · intro a ha
    obtain ⟨kv, hm, he⟩ := h2 a ha
    exact ⟨kv, hm, hH.pair_eq a kv hm, he⟩
  · constructor
    · intro hr e hm
      cases hq : Equal Less e.2.1 k with
      | false => rfl
      | true =>
        have := h3 e.1 e.2 hm hq
        rw [hr] at this
        cases this
    · intro hall
      cases r with
      | none => rfl
      | some a =>
        obtain ⟨kv, hm, he⟩ := h2 a rfl
        have := hall (a, kv) hm
        rw [he] at this
        cases this

theorem count_run (Less : K → K → Bool) (mp : map) (m : Mem K V) (k : K) (fuel : Nat)
    (r : Ptr) (h : mp.R.find Less m k fuel = .ok r) :
    (mp.count Less k fuel).run m = .ok ((if r = none then 0 else 1), m) := by
  simp only [map.count, rd, StateT.run, bind, StateT.bind, h, Except.bind, pure, StateT.pure,
    Except.pure]
  cases r <;> rfl

theorem find_run (Less : K → K → Bool) (mp : map) (m : Mem K V) (k : K) (fuel : Nat)
    (r : Ptr) (h : mp.R.find Less m k fuel = .ok r) :
    (mp.find Less k fuel).run m = .ok (⟨r⟩, m) := by
  simp only [map.find, rd, StateT.run, bind, StateT.bind, h, Except.bind, pure, StateT.pure,
    Except.pure, map.end]
  cases r <;> rfl

theorem at_run_none (Less : K → K → Bool) (mp : map) (m : Mem K V) (k : K) (fuel : Nat)
    (h : mp.R.find Less m k fuel = .ok none) :
    (mp.at Less k fuel).run m = .ok (.error .index_out_of_bound, m) := by
  simp only [map.at, rd, StateT.run, bind, StateT.bind, h, Except.bind, pure, StateT.pure,
    Except.pure]
  rfl

theorem at_run_some (Less : K → K → Bool) (mp : map) (m : Mem K V) (k : K) (fuel : Nat)
    (a : Nat) (kv : K × V)
    (h : mp.R.find Less m k fuel = .ok (some a)) (hp : m.pair (some a) = .ok kv) :
    (mp.at Less k fuel).run m = .ok (.ok kv.2, m) := by
  simp only [map.at, rd, StateT.run, bind, StateT.bind, h, Except.bind, pure, StateT.pure,
    Except.pure, hp, if_neg (Option.some_ne_none a), reduceCtorEq, if_false]

theorem insert_run_some (Less : K → K → Bool) (mp : map) (m : Mem K V) (value : K × V)
    (fuel : Nat) (a : Nat) (h : mp.R.find Less m value.1 fuel = .ok (some a)) :
    (mp.insert Less value fuel).run m = .ok (((⟨some a⟩, false), mp), m) := by
  simp only [map.insert, rd, StateT.run, bind, StateT.bind, h, Except.bind, pure, StateT.pure,
    Except.pure, reduceCtorEq, if_false]

theorem natLess_strictWeak : StrictWeak natLess := by
  refine ⟨?_, ?_, ?_⟩
  · intro a; simp [natLess]
  · intro a b c; simp only [natLess, decide_eq_true_eq]; omega
  · intro a b c
    simp only [Equal, natLess, Bool.not_eq_true', Bool.or_eq_false_iff, decide_eq_false_iff_not]
    omega

theorem tree213_holds : tree213.Holds mem213 :=
  ⟨rfl, rfl, ⟨rfl, rfl, trivial, trivial⟩, ⟨rfl, rfl, trivial, trivial⟩⟩

theorem tree213_ordered : tree213.Ordered natLess := by
  simp [tree213, Tree.Ordered, Tree.entries, natLess]

theorem tree134_holds : tree134.Holds mem134 :=
  ⟨rfl, rfl, ⟨rfl, rfl, trivial, trivial⟩, trivial⟩

theorem tree134_ordered : tree134.Ordered natLess := by
  simp [tree134, Tree.Ordered, Tree.entries, natLess]

theorem maximium_spec (m : Mem K V) :
    ∀ (t : Tree K V) (fuel : Nat), t ≠ .nil → t.Holds m → t.height ≤ fuel →
      ∃ a kv init, t.entries = init ++ [(a, kv)] ∧ maximium m fuel t.ptr = .ok (some a) := by
  intro t
  induction t with
  | nil => intro _ h; exact absurd rfl h
  | node a l d c kv r _ ihr =>
    intro fuel _ hH hf
    obtain ⟨hn, _, _, hr⟩ := hH
    cases fuel with
    | zero => simp [Tree.height] at hf
    | succ f =>
      have hfr : r.height ≤ f := by simp [Tree.height] at hf; omega
      cases r with
      | nil =>
        refine ⟨a, kv, l.entries, by simp [Tree.entries], ?_⟩
        simp only [Tree.ptr, maximium, Mem.deref_eq hn, bind, Except.bind, pure, Except.pure]
      | node ra rl rd rc rkv rr =>
        obtain ⟨a', kv', init, he, hm⟩ := ihr f (by simp) hr hfr
        refine ⟨a', kv', l.entries ++ (a, kv) :: init, ?_, ?_⟩
        · rw [Tree.entries, he]; simp
        · simp only [Tree.ptr, maximium, Mem.deref_eq hn, bind, Except.bind]
          exact hm

theorem minimium_spec (m : Mem K V) :
    ∀ (t : Tree K V) (fuel : Nat), t ≠ .nil → t.Holds m → t.height ≤ fuel →
      ∃ a kv rest, t.entries = (a, kv) :: rest ∧ minimium m fuel t.ptr = .ok (some a) := by
  intro t
  induction t with
  | nil => intro _ h; exact absurd rfl h
  | node a l d c kv r ihl _ =>
    intro fuel _ hH hf
    obtain ⟨hn, _, hl, _⟩ := hH
    cases fuel with
    | zero => simp [Tree.height] at hf
    | succ f =>
      have hfl : l.height ≤ f := by simp [Tree.height] at hf; omega
      cases l with
      | nil =>
        refine ⟨a, kv, r.entries, by simp [Tree.entries], ?_⟩
        simp only [Tree.ptr, minimium, Mem.deref_eq hn, bind, Except.bind, pure, Except.pure]
      | node la ll ld lc lkv lr =>
        obtain ⟨a', kv', rest, he, hm⟩ := ihl f (by simp) hl hfl
        refine ⟨a', kv', rest ++ (a, kv) :: r.entries, ?_, ?_⟩
        · rw [Tree.entries, he]; simp
        · simp only [Tree.ptr, minimium, Mem.deref_eq hn, bind, Except.bind]
          exact hm

theorem split_cases {α : Type} (x y : α) (r post : List α) :
    ∀ (l pre : List α), l ++ x :: r = pre ++ y :: post →
      (∃ post', l = pre ++ y :: post' ∧ post = post' ++ x :: r) ∨
      (pre = l ∧ y = x ∧ post = r) ∨
      (∃ pre', pre = l ++ x :: pre' ∧ r = pre' ++ y :: post) := by
  intro l
  induction l with
  | nil =>
    intro pre h
    cases pre with
    | nil =>
      simp only [List.nil_append, List.cons.injEq] at h
      exact Or.inr (Or.inl ⟨rfl, h.1.symm, h.2.symm⟩)
    | cons p pre' =>
      simp only [List.nil_append, List.cons_append, List.cons.injEq] at h
      exact Or.inr (Or.inr ⟨pre', by simp [h.1], h.2⟩)
  | cons a l' ih =>
    intro pre h
    cases pre with
    | nil =>
      simp only [List.nil_append, List.cons_append, List.cons.injEq] at h
      exact Or.inl ⟨l', by simp [h.1], h.2.symm⟩
    | cons p pre' =>
      simp only [List.cons_append, List.cons.injEq] at h
      rcases ih pre' h.2 with ⟨post', h1, h2⟩ | ⟨h1, h2, h3⟩ | ⟨pre'', h1, h2⟩
      · exact Or.inl ⟨post', by simp [h.1, h1], h2⟩
      · exact Or.inr (Or.inl ⟨by simp [h.1, h1], h2, h3⟩)
      · exact Or.inr (Or.inr ⟨pre'', by simp [h.1, h1], h2⟩)

theorem Tree.Holds.deref_of_mem {m : Mem K V} :
    ∀ {t : Tree K V}, t.Holds m → ∀ a kv, (a, kv) ∈ t.entries → ∃ n, m.deref (some a) = .ok n := by
  intro t
  induction t with
  | nil => intro _ a kv h; simp [Tree.entries] at h
  | node a0 l d c kv0 r ihl ihr =>
    intro hH a kv hmem
    obtain ⟨hn, _, hl, hr⟩ := hH
    simp only [Tree.entries, List.mem_append, List.mem_cons] at hmem
    rcases hmem with h | h | h
    · exact ihl hl a kv h
    · cases h
      exact ⟨_, Mem.deref_eq hn⟩
    · exact ihr hr a kv h

theorem Mem.key_eq {m : Mem K V} {o : Ptr} {kv : K × V} (h : m.pair o = .ok kv) :
    m.key o = .ok kv.1 := by
  simp only [Mem.key, h, bind, Except.bind, pure, Except.pure]

theorem successor_right_spec (m : Mem K V) (a : Nat) (kv : K × V) (n : node) (r : Nat)
    (hder : m.deref (some a) = .ok n) (hright : n.right = some r) :
    ∀ (t : Tree K V) (fuel : Nat) (pre post : List (Nat × (K × V))), t.Holds m →
      t.height ≤ fuel → t.entries = pre ++ (a, kv) :: post →
      ∃ e rest, post = e :: rest ∧ minimium m fuel (some r) = .ok (some e.1) := by
  intro t
  induction t with
  | nil => intro _ pre post _ _ h; simp [Tree.entries] at h
  | node a0 l d c kv0 r0 ihl ihr =>
    intro fuel pre post hH hf he
    obtain ⟨hn, _, hl, hr⟩ := hH
    have hfl : l.height ≤ fuel := by simp [Tree.height] at hf; omega
    have hfr : r0.height ≤ fuel := by simp [Tree.height] at hf; omega
    rcases split_cases _ _ _ _ _ _ he with ⟨post', h1, h2⟩ | ⟨_, h2, h3⟩ | ⟨pre', _, h2⟩
    · obtain ⟨e, rest, hp, hmin⟩ := ihl fuel pre post' hl hfl h1
      exact ⟨e, rest ++ (a0, kv0) :: r0.entries, by simp [h2, hp], hmin⟩
    · cases h2
      rw [Mem.deref_eq hn] at hder
      cases hder
      simp only at hright
      cases r0 with
      | nil => simp [Tree.ptr] at hright
      | node ra rl rd rc rkv rr =>
        simp only [Tree.ptr, Option.some.injEq] at hright
        subst hright
        obtain ⟨a', kv', rest, he', hm⟩ :=
          minimium_spec m (.node ra rl rd rc rkv rr) fuel (by simp) hr hfr
        exact ⟨(a', kv'), rest, by rw [h3, he'], hm⟩
    · exact ihr fuel pre' post hr hfr h2

theorem successorLoop_spec (Less : K → K → Bool) (hs : StrictWeak Less) (m : Mem K V)
    (a : Nat) (kv : K × V) (n : node)
    (hder : m.deref (some a) = .ok n) (hright : n.right = none) :
    ∀ (t : Tree K V) (fuel : Nat) (last : Ptr) (pre post : List (Nat × (K × V))),
      t.Holds m → t.Ordered Less → t.height ≤ fuel → t.entries = pre ++ (a, kv) :: post →
      successorLoop Less m (some a) fuel t.ptr last =
        .ok (match post with
          | [] => last
          | e :: _ => some e.1) := by
  intro t
  induction t with
  | nil => intro _ _ pre post _ _ _ h; simp [Tree.entries] at h
  | node a0 l d c kv0 r0 ihl ihr =>
    intro fuel last pre post hH hO hf he
    have hpair : ∀ b kvb, (b, kvb) ∈ (Tree.node a0 l d c kv0 r0).entries →
        m.pair (some b) = .ok kvb := fun b kvb hb => hH.pair_eq b kvb hb
    have hp0 : m.pair (some a0) = .ok kv0 := hpair a0 kv0 (by simp [Tree.entries])
    obtain ⟨hn, hc, hl, hr⟩ := hH
    cases fuel with
    | zero => simp [Tree.height] at hf
    | succ f =>
      have hfl : l.height ≤ f := by simp [Tree.height] at hf; omega
      have hfr : r0.height ≤ f := by simp [Tree.height] at hf; omega
      simp only [Tree.Ordered, Tree.entries, List.pairwise_append, List.pairwise_cons,
        List.mem_cons] at hO
      obtain ⟨hOl, ⟨hkr, hOr⟩, hlr⟩ := hO
      rcases split_cases _ _ _ _ _ _ he with ⟨post', h1, h2⟩ | ⟨_, h2, h3⟩ | ⟨pre', _, h2⟩
      · -- the node lies in the left subtree
        have hmem : (a, kv) ∈ l.entries := by rw [h1]; simp
        have hlt : Less kv.1 kv0.1 = true := hlr _ hmem (a0, kv0) (Or.inl rfl)
        have hpa : m.pair (some a) = .ok kv := hl.pair_eq a kv hmem
        have hne : a ≠ a0 := by
          intro h
          subst h
          rw [hp0] at hpa
          cases hpa
          rw [hs.irrefl] at hlt
          cases hlt
        have hstep : successorLoop Less m (some a) (f + 1) (some a0) last =
            successorLoop Less m (some a) f l.ptr (some a0) := by
          simp only [successorLoop, Option.some.injEq, hne, if_false, Mem.key_eq hpa,
            Mem.key_eq hp0, Mem.deref_eq hn, bind, Except.bind, hlt, if_true]
        simp only [Tree.ptr]
        rw [hstep, ihl f (some a0) pre post' hl hOl hfl h1, h2]
        cases post' <;> rfl
      · cases h2
        rw [Mem.deref_eq hn] at hder
        cases hder
        simp only at hright
        have : r0 = .nil := by
          cases r0 with
          | nil => rfl
          | node _ _ _ _ _ _ => simp [Tree.ptr] at hright
        subst this
        simp only [Tree.entries] at h3
        subst h3
        simp only [Tree.ptr, successorLoop, if_true]
      · have hmem : (a, kv) ∈ r0.entries := by rw [h2]; simp
        have hgt : Less kv0.1 kv.1 = true := hkr _ hmem
        have hpa : m.pair (some a) = .ok kv := hr.pair_eq a kv hmem
        have hne : a ≠ a0 := by
          intro h
          subst h
          rw [hp0] at hpa
          cases hpa
          rw [hs.irrefl] at hgt
          cases hgt
        have hnlt : Less kv.1 kv0.1 = false := by
          cases h : Less kv.1 kv0.1 with
          | false => rfl
          | true =>
            have := hs.trans _ _ _ hgt h
            rw [hs.irrefl] at this
            cases this
        have hstep : successorLoop Less m (some a) (f + 1) (some a0) last =
            successorLoop Less m (some a) f r0.ptr last := by
          simp only [successorLoop, Option.some.injEq, hne, if_false, Mem.key_eq hpa,
            Mem.key_eq hp0, Mem.deref_eq hn, bind, Except.bind, hnlt, Bool.false_eq_true]
        simp only [Tree.ptr]
        rw [hstep, ihr f last pre' post hr hOr hfr h2]

theorem successor_spec (Less : K → K → Bool) (hs : StrictWeak Less) (mp : map) (m : Mem K V)
    (t : Tree K V) (hroot : mp.R.root = t.ptr) (hH : t.Holds m) (hO : t.Ordered Less)
    (fuel : Nat) (hf : t.height ≤ fuel) (pre post : List (Nat × (K × V))) (a : Nat)
    (kv : K × V) (he : t.entries = pre ++ (a, kv) :: post) :
    mp.R.successor Less m (some a) fuel = .ok (post.head?.map Prod.fst) := by
  obtain ⟨n, hder⟩ := hH.deref_of_mem a kv (by rw [he]; simp)
  simp only [redBlackTree.successor, hder, bind, Except.bind]
  cases hright : n.right with
  | none =>
    simp only [hroot]
    rw [successorLoop_spec Less hs m a kv n hder hright t fuel none pre post hH hO hf he]
    cases post <;> rfl
  | some r =>
    obtain ⟨e, rest, hp, hmin⟩ := successor_right_spec m a kv n r hder hright t fuel pre post hH hf he
    simp only [hmin, hp, List.head?_cons, Option.map_some']

theorem walk_spec (Less : K → K → Bool) (hs : StrictWeak Less) (mp : map) (m : Mem K V)
    (t : Tree K V) (hroot : mp.R.root = t.ptr) (hH : t.Holds m) (hO : t.Ordered Less)
    (fuel : Nat) (hf : t.height ≤ fuel) :
    ∀ (post pre : List (Nat × (K × V))) (steps : Nat), t.entries = pre ++ post →
      post.length < steps →
      (walk Less mp fuel steps ⟨post.head?.map Prod.fst⟩).run m =
        .ok (post.map Prod.snd, m) := by
  intro post
  induction post with
  | nil =>
    intro pre steps _ hs
    cases steps with
    | zero => simp at hs
    | succ s => rfl
  | cons e post' ih =>
    intro pre steps he hlen
    obtain ⟨a, kv⟩ := e
    cases steps with
    | zero => simp at hlen
    | succ s =>
      have hp : m.pair (some a) = .ok kv := hH.pair_eq a kv (by rw [he]; simp)
      have hsucc := successor_spec Less hs mp m t hroot hH hO fuel hf pre post' a kv he
      have hrec := ih (pre ++ [(a, kv)]) s (by rw [he]; simp) (by simp at hlen; omega)
      have hne : (⟨some a⟩ : iterator) ≠ mp.end := by simp [map.end]
      simp only [StateT.run] at hrec ⊢
      simp only [walk, List.head?_cons, Option.map_some', hne, if_false, bind, StateT.bind, rd,
        hp, Except.bind, pure, Except.pure, iterator.incr, hsucc, hrec, StateT.pure,
        List.map_cons]

theorem get?_set_lt {α : Type} {l : List α} {i : Nat} (v : α) (h : i < l.length) :
    (l.set i v).get? i = some v := by
  simp [h]

theorem get?_set_other {α : Type} {l : List α} {i j : Nat} (v : α) (h : i ≠ j) :
    (l.set i v).get? j = l.get? j := by
  simp [h]

theorem lt_of_get?_some {α : Type} {l : List α} {i : Nat} {x : α} (h : l.get? i = some x) :
    i < l.length := by
  rw [List.get?_eq_some] at h
  exact h.1

/-- The run of `erase` on the root node `r` when its right child `s` is a leaf: the
final node table `N` has `r` pointing at the cell of `s`, `s` deleted, `l` with its old
`data` pointer and every other entry untouched; the cell of `r` is deleted. -/
theorem erase_root_run (Less : K → K → Bool) (hirr : ∀ k, Less k k = false)
    (mp : map) (m : Mem K V) (r l s dr ds : Nat) (nl : node) (cr cs : colorT)
    (kvr : K × V) (fuel : Nat)
    (hroot : mp.R.root = some r)
    (hr : m.nodes.get? r = some (some ⟨dr, some l, some s, cr⟩))
    (hl : m.nodes.get? l = some (some nl))
    (hs : m.nodes.get? s = some (some ⟨ds, none, none, cs⟩))
    (hcol : cr = .BLACK → nl.color = cs)
    (hcr : m.cells.get? dr = some (some kvr))
    (hrl : r ≠ l) (hrs : r ≠ s) (hls : l ≠ s) :
    ∃ (N : List (Option node)) (nl' : node),
      (mp.erase Less ⟨some r⟩ (fuel + 1)).run m =
        .ok ((.ok (), ⟨⟨some r, (mp.R._size + sizeMod - 1) % sizeMod⟩⟩),
          ⟨m.cells.set dr none, N⟩) ∧
      N.get? r = some (some ⟨ds, some l, none, .RED⟩) ∧
      N.get? s = some none ∧
      N.get? l = some (some nl') ∧ nl'.data = nl.data ∧
      ∀ b, b ≠ r → b ≠ s → b ≠ l → N.get? b = m.nodes.get? b := by
  have hrlt := lt_of_get?_some hr
  have hllt := lt_of_get?_some hl
  have hslt := lt_of_get?_some hs
  have hdlt := lt_of_get?_some hcr
  have hlr : l ≠ r := fun h => hrl h.symm
  have hsr : s ≠ r := fun h => hrs h.symm
  have hsl : s ≠ l := fun h => hls h.symm
  have hEq : Equal Less kvr.1 kvr.1 = true := by simp [Equal, hirr]
  cases cr with
  | BLACK =>
    have hc := hcol rfl
    refine ⟨(((((((m.nodes.set r (some ⟨dr, some l, some s, .RED⟩)).set s
             (some ⟨ds, none, none, .BLACK⟩)).set l (some { nl with color := .BLACK })).set r
             (some ⟨ds, some l, some s, .RED⟩)).set s (some ⟨dr, none, none, .BLACK⟩)).set s
             none).set r (some ⟨ds, some l, none, .RED⟩)), { nl with color := .BLACK },
             ?_, ?_, ?_, ?_, rfl, ?_⟩
    · simp only [map.erase, iterator.invalid, getKey, rd, Mem.key, Mem.pair, Mem.deref,
        Mem.payload, redBlackTree.remove, hroot, removeLoop, removeFixUp, getColor, getLeft,
        getRight, getData, setColor, setData, setRight, setLeft, wr, swapData, minimium,
        deleteNode, Mem.colorOf, bind, StateT.bind, Except.bind, pure, StateT.pure, Except.pure,
        StateT.run, hr, hl, hs, hcr, hEq, hc, get?_set_lt, get?_set_other,
        List.length_set, hrlt, hllt, hslt, hdlt, hrl, hrs, hls, hlr, hsr, hsl, ne_eq,
        not_false_eq_true, reduceCtorEq, if_true, if_false, Option.some.injEq, decide_True,
        decide_False, Bool.false_eq_true, not_true_eq_false, decide_not, Bool.not_true,
        Bool.not_false]
    · simp only [get?_set_lt, List.length_set, hrlt]
    · simp only [get?_set_lt, get?_set_other, List.length_set, hslt, hrs, hsr, ne_eq,
        not_false_eq_true]
    · simp only [get?_set_lt, get?_set_other, List.length_set, hllt, hrl, hsl, hlr, hls, ne_eq,
        not_false_eq_true]
    · intro b hbr hbs hbl
      simp only [get?_set_other, ne_eq, not_false_eq_true, Ne.symm hbr, Ne.symm hbs,
        Ne.symm hbl]
  | RED =>
    refine ⟨((((m.nodes.set r
             (some ⟨ds, some l, some s, .RED⟩)).set s (some ⟨dr, none, none, cs⟩)).set s
             none).set r (some ⟨ds, some l, none, .RED⟩)), nl,
             ?_, ?_, ?_, ?_, rfl, ?_⟩
    · simp only [map.erase, iterator.invalid, getKey, rd, Mem.key, Mem.pair, Mem.deref,
        Mem.payload, redBlackTree.remove, hroot, removeLoop, removeFixUp, getColor, getLeft,
        getRight, getData, setColor, setData, setRight, setLeft, wr, swapData, minimium,
        deleteNode, Mem.colorOf, bind, StateT.bind, Except.bind, pure, StateT.pure, Except.pure,
        StateT.run, hr, hl, hs, hcr, hEq, get?_set_lt, get?_set_other,
        List.length_set, hrlt, hllt, hslt, hdlt, hrl, hrs, hls, hlr, hsr, hsl, ne_eq,
        not_false_eq_true, reduceCtorEq, if_true, if_false, Option.some.injEq, decide_True,
        decide_False, Bool.false_eq_true, not_true_eq_false, decide_not, Bool.not_true,
        Bool.not_false]
    · simp only [get?_set_lt, List.length_set, hrlt]
    · simp only [get?_set_lt, get?_set_other, List.length_set, hslt, hrs, hsr, ne_eq,
        not_false_eq_true]
    · simp only [get?_set_other, hrl, hsl, hlr, hls, ne_eq, not_false_eq_true, hl]
    · intro b hbr hbs hbl
      simp only [get?_set_other, ne_eq, not_false_eq_true, Ne.symm hbr, Ne.symm hbs]

/-! ### Ascending inserts: the loop of `insert` along the right spine -/

theorem get?_append_lt {α : Type} {l : List α} {i : Nat} (x : α) (h : i < l.length) :
    (l ++ [x]).get? i = l.get? i := by
  simp [List.getElem?_append_left h]

theorem get?_append_length {α : Type} (l : List α) (x : α) :
    (l ++ [x]).get? l.length = some x := by
  simp

theorem Tree.Holds.colorOf_eq {m : Mem K V} {t : Tree K V} (h : t.Holds m) :
    m.colorOf t.ptr = .ok t.color := by
  cases t with
  | nil => rfl
  | node a l d c kv r =>
    obtain ⟨hn, _, _, _⟩ := h
    cases c <;>
      simp only [Tree.ptr, Mem.colorOf, Mem.deref_eq hn, bind, Except.bind, Tree.color,
        reduceCtorEq, if_true, if_false, pure, Except.pure]

theorem Tree.Holds.addr_lt {m : Mem K V} :
    ∀ {t : Tree K V}, t.Holds m → ∀ a ∈ t.addrs, a < m.nodes.length := by
  intro t
  induction t with
  | nil => intro _ a h; simp [Tree.addrs] at h
  | node a0 l d c kv r ihl ihr =>
    intro hH a hmem
    obtain ⟨hn, _, hl, hr⟩ := hH
    simp only [Tree.addrs, List.mem_cons, List.mem_append] at hmem
    rcases hmem with h | h | h
    · subst h; exact lt_of_get?_some hn
    · exact ihl hl a h
    · exact ihr hr a h

theorem Tree.Holds.frame {m m' : Mem K V} :
    ∀ {t : Tree K V}, t.Holds m →
      (∀ a ∈ t.addrs, m'.nodes.get? a = m.nodes.get? a) →
      (∀ d, d < m.cells.length → m'.cells.get? d = m.cells.get? d) → t.Holds m' := by
  intro t
  induction t with
  | nil => intro _ _ _; trivial
  | node a0 l d c kv r ihl ihr =>
    intro hH hN hC
    obtain ⟨hn, hc, hl, hr⟩ := hH
    refine ⟨?_, ?_, ?_, ?_⟩
    · rw [hN a0 (by simp [Tree.addrs])]; exact hn
    · rw [hC d (lt_of_get?_some hc)]; exact hc
    · exact ihl hl (fun a ha => hN a (by simp [Tree.addrs, ha])) hC
    · exact ihr hr (fun a ha => hN a (by simp [Tree.addrs, ha])) hC

theorem Tree.mem_addrs_iff {t : Tree K V} {a : Nat} :
    a ∈ t.addrs ↔ ∃ kv, (a, kv) ∈ t.entries := by
  induction t with
  | nil => simp [Tree.addrs, Tree.entries]
  | node a0 l d c kv r ihl ihr =>
    simp only [Tree.addrs, Tree.entries, List.mem_cons, List.mem_append, ihl, ihr,
      Prod.mk.injEq]
    constructor
    · rintro (h | ⟨kv', h⟩ | ⟨kv', h⟩)
      · exact ⟨kv, Or.inr (Or.inl ⟨h, rfl⟩)⟩
      · exact ⟨kv', Or.inl h⟩
      · exact ⟨kv', Or.inr (Or.inr h)⟩
    · rintro ⟨kv', h | ⟨h, _⟩ | h⟩
      · exact Or.inr (Or.inl ⟨kv', h⟩)
      · exact Or.inl h
      · exact Or.inr (Or.inr ⟨kv', h⟩)

theorem insertLoop_step_plain (Less : K → K → Bool) (root : Ptr) (element : K × V)
    (m : Mem K V) (ao : Nat) (no : node) (kvo : K × V) (cl cr : colorT) (p gp : Ptr)
    (fuel : Nat)
    (ho : m.nodes.get? ao = some (some no))
    (hc : m.cells.get? no.data = some (some kvo))
    (hcl : m.colorOf no.left = .ok cl) (hcr : m.colorOf no.right = .ok cr)
    (hnt : ¬ (cl = .RED ∧ cr = .RED))
    (hk : Less element.1 kvo.1 = false) :
    insertLoop Less root element (fuel + 1) (some ao) p gp m =
      insertLoop Less root element fuel no.right (some ao) p m := by
  cases cl with
  | BLACK =>
    simp only [insertLoop, getLeft, getRight, getKey, rd, Mem.key, Mem.pair, Mem.deref,
      Mem.payload, bind, StateT.bind, Except.bind, pure, StateT.pure, Except.pure, ho, hc, hcl,
      hk, reduceCtorEq, if_false, Bool.false_eq_true]
  | RED =>
    have : cr = .BLACK := by
      cases cr with
      | BLACK => rfl
      | RED => exact absurd ⟨rfl, rfl⟩ hnt
    subst this
    simp only [insertLoop, getLeft, getRight, getKey, rd, Mem.key, Mem.pair, Mem.deref,
      Mem.payload, bind, StateT.bind, Except.bind, pure, StateT.pure, Except.pure, ho, hc, hcl,
      hcr, hk, reduceCtorEq, if_false, if_true, Bool.false_eq_true]

theorem insertLoop_step_recolor (Less : K → K → Bool) (root : Ptr) (element : K × V)
    (m : Mem K V) (ao al ar ap d dl dr dp : Nat) (c : colorT) (ll lr rl rr pl pr : Ptr)
    (kvo : K × V) (gp : Ptr) (fuel : Nat)
    (ho : m.nodes.get? ao = some (some ⟨d, some al, some ar, c⟩))
    (hl : m.nodes.get? al = some (some ⟨dl, ll, lr, .RED⟩))
    (hr : m.nodes.get? ar = some (some ⟨dr, rl, rr, .RED⟩))
    (hp : m.nodes.get? ap = some (some ⟨dp, pl, pr, .BLACK⟩))
    (hc : m.cells.get? d = some (some kvo)) (hk : Less element.1 kvo.1 = false)
    (h1 : ao ≠ al) (h2 : ao ≠ ar) (h3 : al ≠ ar) (h4 : ap ≠ ao) (h5 : ap ≠ al)
    (h6 : ap ≠ ar) :
    ∃ m1 : Mem K V,
      insertLoop Less root element (fuel + 1) (some ao) (some ap) gp m =
        insertLoop Less root element fuel (some ar) (some ao) (some ap) m1 ∧
      m1.cells = m.cells ∧ m1.nodes.length = m.nodes.length ∧
      m1.nodes.get? ao = some (some ⟨d, some al, some ar, .RED⟩) ∧
      m1.nodes.get? al = some (some ⟨dl, ll, lr, .BLACK⟩) ∧
      m1.nodes.get? ar = some (some ⟨dr, rl, rr, .BLACK⟩) ∧
      ∀ a, a ≠ ao → a ≠ al → a ≠ ar → m1.nodes.get? a = m.nodes.get? a := by
  have hao := lt_of_get?_some ho
  have hal := lt_of_get?_some hl
  have har := lt_of_get?_some hr
  refine ⟨⟨m.cells, ((m.nodes.set ao (some ⟨d, some al, some ar, .RED⟩)).set ar
    (some ⟨dr, rl, rr, .BLACK⟩)).set al (some ⟨dl, ll, lr, .BLACK⟩)⟩, ?_, rfl, ?_, ?_, ?_,
    ?_, ?_⟩
  · simp only [insertLoop, insertFixUp, getLeft, getRight, getKey, getColor, setColor, wr, rd,
      Mem.key, Mem.pair, Mem.deref, Mem.payload, Mem.colorOf, bind, StateT.bind, Except.bind,
      pure, StateT.pure, Except.pure, ho, hl, hr, hp, hc, hk, get?_set_lt, get?_set_other,
      List.length_set, hao, hal, har, h1, h2, h3, h4, h5, h6, Ne.symm h1, Ne.symm h2,
      Ne.symm h3, Ne.symm h4, Ne.symm h5, Ne.symm h6, ne_eq, not_false_eq_true, reduceCtorEq,
      if_true, if_false, Bool.false_eq_true]
  · simp only [List.length_set]
  · simp only [get?_set_lt, get?_set_other, List.length_set, hao, Ne.symm h1, Ne.symm h2,
      ne_eq, not_false_eq_true]
  · simp only [get?_set_lt, List.length_set, hal]
  · simp only [get?_set_lt, get?_set_other, List.length_set, har, h3, Ne.symm h3, ne_eq,
      not_false_eq_true]
  · intro a ha1 ha2 ha3
    simp only [get?_set_other, Ne.symm ha1, Ne.symm ha2, Ne.symm ha3, ne_eq,
      not_false_eq_true]

theorem insertLoop_step_recolor_RR (Less : K → K → Bool) (root : Ptr) (element : K × V)
    (m : Mem K V) (ao al ar ap ag d dl dr dp dg : Nat) (c cg : colorT)
    (ll lr rl rr pl gl : Ptr) (kvo : K × V) (fuel : Nat)
    (ho : m.nodes.get? ao = some (some ⟨d, some al, some ar, c⟩))
    (hl : m.nodes.get? al = some (some ⟨dl, ll, lr, .RED⟩))
    (hr : m.nodes.get? ar = some (some ⟨dr, rl, rr, .RED⟩))
    (hp : m.nodes.get? ap = some (some ⟨dp, pl, some ao, .RED⟩))
    (hg : m.nodes.get? ag = some (some ⟨dg, gl, some ap, cg⟩))
    (hgl : gl ≠ some ap) (hroot : some ap ≠ root)
    (hc : m.cells.get? d = some (some kvo)) (hk : Less element.1 kvo.1 = false)
    (h1 : ao ≠ al) (h2 : ao ≠ ar) (h3 : al ≠ ar) (h4 : ap ≠ ao) (h5 : ap ≠ al)
    (h6 : ap ≠ ar) (h7 : ag ≠ ao) (h8 : ag ≠ al) (h9 : ag ≠ ar) (h10 : ag ≠ ap) :
    ∃ m1 : Mem K V,
      insertLoop Less root element (fuel + 1) (some ao) (some ap) (some ag) m =
        insertLoop Less root element fuel (some ar) (some ao) (some ap) m1 ∧
      m1.cells = m.cells ∧ m1.nodes.length = m.nodes.length ∧
      m1.nodes.get? ao = some (some ⟨d, some al, some ar, .RED⟩) ∧
      m1.nodes.get? al = some (some ⟨dl, ll, lr, .BLACK⟩) ∧
      m1.nodes.get? ar = some (some ⟨dr, rl, rr, .BLACK⟩) ∧
      m1.nodes.get? ag = some (some ⟨dp, some ap, some ao, cg⟩) ∧
      m1.nodes.get? ap = some (some ⟨dg, gl, pl, .RED⟩) ∧
      ∀ a, a ≠ ao → a ≠ al → a ≠ ar → a ≠ ag → a ≠ ap →
        m1.nodes.get? a = m.nodes.get? a := by
  have hao := lt_of_get?_some ho
  have hal := lt_of_get?_some hl
  have har := lt_of_get?_some hr
  have hap := lt_of_get?_some hp
  have hag := lt_of_get?_some hg
  refine ⟨⟨m.cells, ((((((((((m.nodes.set ao (some ⟨d, some al, some ar, .RED⟩)).set ar
    (some ⟨dr, rl, rr, .BLACK⟩)).set al (some ⟨dl, ll, lr, .BLACK⟩)).set ag
    (some ⟨dp, gl, some ap, cg⟩)).set ap (some ⟨dg, pl, some ao, .RED⟩)).set ag
    (some ⟨dp, gl, some ao, cg⟩)).set ag (some ⟨dp, some ap, some ao, cg⟩)).set ap
    (some ⟨dg, pl, pl, .RED⟩)).set ap (some ⟨dg, gl, pl, .RED⟩)))⟩, ?_, rfl, ?_, ?_, ?_, ?_,
    ?_, ?_, ?_⟩
  · simp only [insertLoop, insertFixUp, RR, swapData, getLeft, getRight, getKey, getColor,
      getData, setColor, setData, setLeft, setRight, wr, rd,
      Mem.key, Mem.pair, Mem.deref, Mem.payload, Mem.colorOf, bind, StateT.bind, Except.bind,
      pure, StateT.pure, Except.pure, ho, hl, hr, hp, hg, hc, hk, hgl, hroot, get?_set_lt,
      get?_set_other,
      List.length_set, hao, hal, har, hap, hag, h1, h2, h3, h4, h5, h6, h7, h8, h9, h10,
      Ne.symm h1, Ne.symm h2,
      Ne.symm h3, Ne.symm h4, Ne.symm h5, Ne.symm h6, Ne.symm h7, Ne.symm h8, Ne.symm h9,
      Ne.symm h10, ne_eq, not_false_eq_true, reduceCtorEq,
      if_true, if_false, Bool.false_eq_true]
  · simp only [List.length_set]
  · simp only [get?_set_lt, get?_set_other, List.length_set, hao, Ne.symm h1, Ne.symm h2,
      h4, h7, ne_eq, not_false_eq_true]
  · simp only [get?_set_lt, get?_set_other, List.length_set, hal, h5, h8, ne_eq,
      not_false_eq_true]
  · simp only [get?_set_lt, get?_set_other, List.length_set, har, h3, Ne.symm h3, h6, h9,
      ne_eq, not_false_eq_true]
  · simp only [get?_set_lt, get?_set_other, List.length_set, hag, h10, Ne.symm h10, ne_eq,
      not_false_eq_true]
  · simp only [get?_set_lt, List.length_set, hap]
  · intro a ha1 ha2 ha3 ha4 ha5
    simp only [get?_set_other, Ne.symm ha1, Ne.symm ha2, Ne.symm ha3, Ne.symm ha4,
      Ne.symm ha5, ne_eq, not_false_eq_true]

theorem get?_append_other {α : Type} {l : List α} {i : Nat} (x : α) (h : i < l.length) :
    (l ++ [x]).get? i = l.get? i := get?_append_lt x h

theorem insertLoop_final_black (Less : K → K → Bool) (root : Nat) (element : K × V)
    (m : Mem K V) (ap dp dr : Nat) (pl pr rl rr : Ptr) (kvp : K × V) (gp : Ptr) (fuel : Nat)
    (hp : m.nodes.get? ap = some (some ⟨dp, pl, pr, .BLACK⟩))
    (hc : m.cells.get? dp = some (some kvp)) (hk : Less element.1 kvp.1 = false)
    (hroot : m.nodes.get? root = some (some ⟨dr, rl, rr, .BLACK⟩)) :
    ∃ m1 : Mem K V,
      insertLoop Less (some root) element (fuel + 1) none (some ap) gp m = .ok ((), m1) ∧
      m1.cells = m.cells ++ [some element] ∧ m1.nodes.length = m.nodes.length + 1 ∧
      m1.nodes.get? ap = some (some ⟨dp, pl, some m.nodes.length, .BLACK⟩) ∧
      m1.nodes.get? m.nodes.length = some (some ⟨m.cells.length, none, none, .RED⟩) ∧
      ∀ a, a ≠ ap → a < m.nodes.length → m1.nodes.get? a = m.nodes.get? a := by
  have hap := lt_of_get?_some hp
  have har := lt_of_get?_some hroot
  have hdp := lt_of_get?_some hc
  have hne : ap ≠ m.nodes.length := Nat.ne_of_lt hap
  have hne2 : root ≠ m.nodes.length := Nat.ne_of_lt har
  by_cases hra : root = ap
  · subst hra
    rw [hp] at hroot
    simp only [Option.some.injEq, node.mk.injEq, and_true] at hroot
    obtain ⟨-, h1, h2⟩ := hroot
    subst h1 h2
    refine ⟨⟨m.cells ++ [some element],
      ((m.nodes ++ [some (node.mk m.cells.length none none .RED)]).set root
        (some ⟨dp, pl, some m.nodes.length, .BLACK⟩)).set root
        (some ⟨dp, pl, some m.nodes.length, .BLACK⟩)⟩, ?_, rfl, ?_, ?_, ?_, ?_⟩
    · simp only [insertLoop, insertFixUp, newNode, getLeft, getRight, getKey, getColor,
        setColor, setRight, setLeft, wr, rd, Mem.key, Mem.pair, Mem.deref, Mem.payload, bind,
        StateT.bind, Except.bind, pure, StateT.pure, Except.pure, hp, hc, hk,
        get?_set_lt, get?_set_other, get?_append_other, List.length_set, List.length_append,
        List.length_singleton, hap, hdp, Nat.lt_succ_of_lt hap, ne_eq, not_false_eq_true,
        reduceCtorEq, if_true, if_false, Bool.false_eq_true]
    · simp only [List.length_set, List.length_append, List.length_singleton]
    · simp only [get?_set_lt, List.length_set, List.length_append, List.length_singleton,
        Nat.lt_succ_of_lt hap]
    · simp only [get?_set_other, hne, ne_eq, not_false_eq_true, get?_append_length]
    · intro a ha1 ha2
      simp only [get?_set_other, Ne.symm ha1, ne_eq, not_false_eq_true,
        get?_append_other _ ha2]
  · refine ⟨⟨m.cells ++ [some element],
      ((m.nodes ++ [some (node.mk m.cells.length none none .RED)]).set ap
        (some ⟨dp, pl, some m.nodes.length, .BLACK⟩)).set root
        (some ⟨dr, rl, rr, .BLACK⟩)⟩, ?_, rfl, ?_, ?_, ?_, ?_⟩
    · simp only [insertLoop, insertFixUp, newNode, getLeft, getRight, getKey, getColor,
        setColor, setRight, setLeft, wr, rd, Mem.key, Mem.pair, Mem.deref, Mem.payload, bind,
        StateT.bind, Except.bind, pure, StateT.pure, Except.pure, hp, hc, hk, hroot,
        get?_set_lt, get?_set_other, get?_append_other, List.length_set, List.length_append,
        List.length_singleton, hap, har, hdp, Nat.lt_succ_of_lt hap, hra, Ne.symm hra, ne_eq,
        not_false_eq_true, reduceCtorEq, if_true, if_false, Bool.false_eq_true]
    · simp only [List.length_set, List.length_append, List.length_singleton]
    · simp only [get?_set_lt, get?_set_other, List.length_set, List.length_append,
        List.length_singleton, Nat.lt_succ_of_lt hap, hra, ne_eq, not_false_eq_true]
    · simp only [get?_set_other, hne, hne2, ne_eq, not_false_eq_true, get?_append_length]
    · intro a ha1 ha2
      by_cases har2 : a = root
      · subst har2
        simp only [get?_set_lt, List.length_set, List.length_append, List.length_singleton,
          Nat.lt_succ_of_lt har, hroot]
      · simp only [get?_set_other, Ne.symm ha1, Ne.symm har2, ne_eq, not_false_eq_true,
          get?_append_other _ ha2]

theorem insertLoop_final_RR (Less : K → K → Bool) (root : Nat) (element : K × V)
    (m : Mem K V) (ap ag dp dg dr : Nat) (cg : colorT) (pl pr gl rl rr : Ptr) (kvp : K × V)
    (fuel : Nat)
    (hp : m.nodes.get? ap = some (some ⟨dp, pl, pr, .RED⟩))
    (hg : m.nodes.get? ag = some (some ⟨dg, gl, some ap, cg⟩))
    (hgl : gl ≠ some ap)
    (hc : m.cells.get? dp = some (some kvp)) (hk : Less element.1 kvp.1 = false)
    (hroot : m.nodes.get? root = some (some ⟨dr, rl, rr, .BLACK⟩))
    (hga : ag ≠ ap) :
    ∃ m1 : Mem K V,
      insertLoop Less (some root) element (fuel + 1) none (some ap) (some ag) m =
        .ok ((), m1) ∧
      m1.cells = m.cells ++ [some element] ∧ m1.nodes.length = m.nodes.length + 1 ∧
      m1.nodes.get? ag = some (some ⟨dp, some ap, some m.nodes.length, cg⟩) ∧
      m1.nodes.get? ap = some (some ⟨dg, gl, pl, .RED⟩) ∧
      m1.nodes.get? m.nodes.length = some (some ⟨m.cells.length, none, none, .RED⟩) ∧
      ∀ a, a ≠ ag → a ≠ ap → a < m.nodes.length → m1.nodes.get? a = m.nodes.get? a := by
  have hap := lt_of_get?_some hp
  have hag := lt_of_get?_some hg
  have har := lt_of_get?_some hroot
  have hdp := lt_of_get?_some hc
  have hne : ap ≠ m.nodes.length := Nat.ne_of_lt hap
  have hneg : ag ≠ m.nodes.length := Nat.ne_of_lt hag
  have hne2 : root ≠ m.nodes.length := Nat.ne_of_lt har
  have hrp : root ≠ ap := by
    intro h
    subst h
    rw [hp] at hroot
    simp at hroot
  have hgl2 : ¬ gl = some ap := hgl
  have hN : ¬ some ap = some m.nodes.length := by simp [hne]
  by_cases hra : root = ag
  · subst hra
    rw [hg] at hroot
    simp only [Option.some.injEq, node.mk.injEq] at hroot
    obtain ⟨-, -, -, h3⟩ := hroot
    subst h3
    apply Exists.intro
    refine ⟨?h1, ?h2, ?h3, ?h4, ?h5, ?h6, ?h7⟩
    case h1 =>
      simp only [insertLoop, insertFixUp, RR, swapData, newNode, getLeft, getRight, getKey,
        getColor, getData, setData, setColor, setRight, setLeft, wr, rd, Mem.key, Mem.pair,
        Mem.deref, Mem.payload, bind, StateT.bind, Except.bind, pure, StateT.pure,
        Except.pure, hp, hg, hc, hk, hgl2, get?_set_lt, get?_set_other, get?_append_other,
        List.length_set, List.length_append, List.length_singleton, hap, hag, hdp,
        Nat.lt_succ_of_lt hap, Nat.lt_succ_of_lt hag, hga, Ne.symm hga, hrp, Ne.symm hrp,
        Option.some.injEq, ne_eq, not_false_eq_true, reduceCtorEq, if_true, if_false,
        Bool.false_eq_true]
      rfl
    case h2 => rfl
    case h3 => simp only [List.length_set, List.length_append, List.length_singleton]
    case h4 =>
      simp only [get?_set_lt, List.length_set, List.length_append, List.length_singleton,
        Nat.lt_succ_of_lt hag]
    case h5 =>
      simp only [get?_set_lt, get?_set_other, List.length_set, List.length_append,
        List.length_singleton, Nat.lt_succ_of_lt hap, hga, ne_eq, not_false_eq_true]
    case h6 =>
      simp only [get?_set_other, hne, hneg, ne_eq, not_false_eq_true, get?_append_length]
    case h7 =>
      intro a ha1 ha2 ha3
      simp only [get?_set_other, Ne.symm ha1, Ne.symm ha2, ne_eq, not_false_eq_true,
        get?_append_other _ ha3]
  · apply Exists.intro
    refine ⟨?h1, ?h2, ?h3, ?h4, ?h5, ?h6, ?h7⟩
    case h1 =>
      simp only [insertLoop, insertFixUp, RR, swapData, newNode, getLeft, getRight, getKey,
        getColor, getData, setData, setColor, setRight, setLeft, wr, rd, Mem.key, Mem.pair,
        Mem.deref, Mem.payload, bind, StateT.bind, Except.bind, pure, StateT.pure,
        Except.pure, hp, hg, hc, hk, hgl2, hroot, get?_set_lt, get?_set_other,
        get?_append_other,
        List.length_set, List.length_append, List.length_singleton, hap, hag, har, hdp,
        Nat.lt_succ_of_lt hap, Nat.lt_succ_of_lt hag, hga, Ne.symm hga, hrp, Ne.symm hrp,
        hra, Ne.symm hra,
        Option.some.injEq, ne_eq, not_false_eq_true, reduceCtorEq, if_true, if_false,
        Bool.false_eq_true]
      rfl
    case h2 => rfl
    case h3 => simp only [List.length_set, List.length_append, List.length_singleton]
    case h4 =>
      simp only [get?_set_lt, get?_set_other, List.length_set, List.length_append,
        List.length_singleton, Nat.lt_succ_of_lt hag, hra, Ne.symm hga, ne_eq,
        not_false_eq_true]
    case h5 =>
      simp only [get?_set_lt, get?_set_other, List.length_set, List.length_append,
        List.length_singleton, Nat.lt_succ_of_lt hap, hrp, ne_eq, not_false_eq_true]
    case h6 =>
      simp only [get?_set_other, hne, hneg, hne2, ne_eq, not_false_eq_true,
        get?_append_length]
    case h7 =>
      intro a ha1 ha2 ha3
      by_cases har2 : a = root
      · subst har2
        simp only [get?_set_lt, List.length_set, List.length_append, List.length_singleton,
          Nat.lt_succ_of_lt har, hroot]
      · simp only [get?_set_other, Ne.symm ha1, Ne.symm ha2, Ne.symm har2, ne_eq,
          not_false_eq_true, get?_append_other _ ha3]

theorem insertLoop_step_root (Less : K → K → Bool) (element : K × V)
    (m : Mem K V) (a0 al ar d dl dr : Nat) (c : colorT) (ll lr rl rr : Ptr)
    (kvo : K × V) (fuel : Nat)
    (ho : m.nodes.get? a0 = some (some ⟨d, some al, some ar, c⟩))
    (hl : m.nodes.get? al = some (some ⟨dl, ll, lr, .RED⟩))
    (hr : m.nodes.get? ar = some (some ⟨dr, rl, rr, .RED⟩))
    (hc : m.cells.get? d = some (some kvo)) (hk : Less element.1 kvo.1 = false)
    (h1 : a0 ≠ al) (h2 : a0 ≠ ar) (h3 : al ≠ ar) :
    ∃ m1 : Mem K V,
      insertLoop Less (some a0) element (fuel + 1) (some a0) (some a0) (some a0) m =
        insertLoop Less (some a0) element fuel (some ar) (some a0) (some a0) m1 ∧
      m1.cells = m.cells ∧ m1.nodes.length = m.nodes.length ∧
      m1.nodes.get? a0 = some (some ⟨d, some al, some ar, .BLACK⟩) ∧
      m1.nodes.get? al = some (some ⟨dl, ll, lr, .BLACK⟩) ∧
      m1.nodes.get? ar = some (some ⟨dr, rl, rr, .BLACK⟩) ∧
      ∀ a, a ≠ a0 → a ≠ al → a ≠ ar → m1.nodes.get? a = m.nodes.get? a := by
  have hao := lt_of_get?_some ho
  have hal := lt_of_get?_some hl
  have har := lt_of_get?_some hr
  apply Exists.intro
  refine ⟨?h1, ?h2, ?h3, ?h4, ?h5, ?h6, ?h7⟩
  case h1 =>
    simp only [insertLoop, insertFixUp, getLeft, getRight, getKey, getColor, setColor, wr, rd,
      Mem.key, Mem.pair, Mem.deref, Mem.payload, Mem.colorOf, bind, StateT.bind, Except.bind,
      pure, StateT.pure, Except.pure, ho, hl, hr, hc, hk, get?_set_lt, get?_set_other,
      List.length_set, hao, hal, har, h1, h2, h3, Ne.symm h1, Ne.symm h2,
      Ne.symm h3, ne_eq, not_false_eq_true, reduceCtorEq,
      if_true, if_false, Bool.false_eq_true]
    rfl
  case h2 => rfl
  case h3 => simp only [List.length_set]
  case h4 =>
    simp only [get?_set_lt, List.length_set, hao]
  case h5 =>
    simp only [get?_set_lt, get?_set_other, List.length_set, hal, h1, Ne.symm h1, ne_eq,
      not_false_eq_true]
  case h6 =>
    simp only [get?_set_lt, get?_set_other, List.length_set, har, h3, Ne.symm h3, h2,
      Ne.symm h2, ne_eq, not_false_eq_true]
  case h7 =>
    intro a ha1 ha2 ha3
    simp only [get?_set_other, Ne.symm ha1, Ne.symm ha2, Ne.symm ha3, ne_eq,
      not_false_eq_true]

theorem StrictWeak.asymm {Less : K → K → Bool} (hs : StrictWeak Less) {a b : K}
    (h : Less a b = true) : Less b a = false := by
  cases hba : Less b a with
  | false => rfl
  | true =>
    have := hs.trans _ _ _ h hba
    rw [hs.irrefl] at this
    cases this

theorem Tree.RB_black {a : Nat} {l : Tree K V} {d : Nat} {kv : K × V} {r : Tree K V} {h : Nat}
    (hrb : (Tree.node a l d .BLACK kv r).RB h) : ∃ h0, h = h0 + 1 ∧ l.RB h0 ∧ r.RB h0 := by
  cases h with
  | zero => exact absurd hrb (by simp [Tree.RB])
  | succ h0 => exact ⟨h0, rfl, hrb.1, hrb.2⟩

theorem Tree.color_red {t : Tree K V} (h : t.color = .RED) :
    ∃ a l d kv r, t = .node a l d .RED kv r := by
  cases t with
  | nil => simp [Tree.color] at h
  | node a l d c kv r =>
    simp only [Tree.color] at h
    subst h
    exact ⟨a, l, d, kv, r, rfl⟩

theorem cells_frame_append {m m' : Mem K V} {x : Option (K × V)}
    (h : m'.cells = m.cells ++ [x]) :
    ∀ d, d < m.cells.length → m'.cells.get? d = m.cells.get? d := by
  intro d hd
  rw [h]
  exact get?_append_lt x hd

theorem cells_frame_eq {m m' : Mem K V} (h : m'.cells = m.cells) :
    ∀ d, d < m.cells.length → m'.cells.get? d = m.cells.get? d := by
  intro d _
  rw [h]

/-- Growing the right subtree of a node grows the node. -/
theorem Grown.ctx_right {m m' : Mem K V} {element : K × V} {a d : Nat} {c : colorT}
    {kv : K × V} {L R R' : Tree K V}
    (hg : Grown m m' element R R')
    (hH : (Tree.node a L d c kv R).Holds m) (hS : (Tree.node a L d c kv R).Sep) :
    Grown m m' element (.node a L d c kv R) (.node a L d c kv R') := by
  obtain ⟨hH', hptr, hS', hent, haddr, hlen, hcells, hframe⟩ := hg
  obtain ⟨hn, hc, hL, hR⟩ := hH
  obtain ⟨haL, haR, hdisj, hSL, hSR⟩ := hS
  have ha := lt_of_get?_some hn
  have hLlt := hL.addr_lt
  refine ⟨⟨?_, ?_, ?_, hH'⟩, rfl, ⟨haL, ?_, ?_, hSL, hS'⟩, ?_, ?_, hlen, hcells, ?_⟩
  · rw [hframe a ha haR, hptr]; exact hn
  · rw [cells_frame_append hcells d (lt_of_get?_some hc)]; exact hc
  · exact hL.frame (fun x hx => hframe x (hLlt x hx) (hdisj x hx)) (cells_frame_append hcells)
  · intro hmem
    rcases (haddr a).mp hmem with h | h
    · exact haR h
    · omega
  · intro x hx hmem
    rcases (haddr x).mp hmem with h | h
    · exact hdisj x hx h
    · have := hLlt x hx
      omega
  · simp only [Tree.entries, List.map_append, List.map_cons, hent, List.append_assoc,
      List.cons_append]
  · intro x
    simp only [Tree.addrs, List.mem_cons, List.mem_append, haddr x]
    tauto
  · intro x hx hnot
    simp only [Tree.addrs, List.mem_cons, List.mem_append, not_or] at hnot
    exact hframe x hx hnot.2.2

/-- A growth proved in a heap `m1` that differs from `m` only inside the node objects of
`T`, for a tree `T1` with the same node objects, top and pairs as `T`, is a growth
from `m`. -/
theorem Grown.transfer {m m1 m' : Mem K V} {element : K × V} {T T1 T' : Tree K V}
    (hg : Grown m1 m' element T1 T')
    (hlen : m1.nodes.length = m.nodes.length) (hcells : m1.cells = m.cells)
    (hptr : T1.ptr = T.ptr) (hent : T1.entries.map Prod.snd = T.entries.map Prod.snd)
    (haddr : ∀ x, x ∈ T1.addrs ↔ x ∈ T.addrs)
    (hframe : ∀ a, a ∉ T.addrs → m1.nodes.get? a = m.nodes.get? a) :
    Grown m m' element T T' := by
  obtain ⟨hH', hptr', hS', hent', haddr', hlen', hcells', hframe'⟩ := hg
  refine ⟨hH', by rw [hptr', hptr], hS', by rw [hent', hent], ?_, by rw [hlen', hlen],
    by rw [hcells', hcells], ?_⟩
  · intro x
    rw [haddr' x, haddr x, hlen]
  · intro a ha hnot
    rw [hframe' a (by rw [hlen]; exact ha) (fun h => hnot ((haddr a).mp h)), hframe a hnot]

theorem Tree.ptr_mem {t : Tree K V} {a : Nat} (h : t.ptr = some a) : a ∈ t.addrs := by
  cases t with
  | nil => simp [Tree.ptr] at h
  | node a0 l d c kv r =>
    simp only [Tree.ptr, Option.some.injEq] at h
    simp [Tree.addrs, h]

theorem Tree.mem_addrs_right {a : Nat} {l : Tree K V} {d : Nat} {c : colorT} {kv : K × V}
    {r : Tree K V} {x : Nat} (h : x ∈ r.addrs) : x ∈ (Tree.node a l d c kv r).addrs :=
  List.mem_cons_of_mem _ (List.mem_append_right _ h)

theorem Tree.mem_addrs_left {a : Nat} {l : Tree K V} {d : Nat} {c : colorT} {kv : K × V}
    {r : Tree K V} {x : Nat} (h : x ∈ l.addrs) : x ∈ (Tree.node a l d c kv r).addrs :=
  List.mem_cons_of_mem _ (List.mem_append_left _ h)

theorem Tree.mem_addrs_top {a : Nat} {l : Tree K V} {d : Nat} {c : colorT} {kv : K × V}
    {r : Tree K V} : a ∈ (Tree.node a l d c kv r).addrs :=
  List.mem_cons_self _ _

theorem Tree.mem_entries_right {a : Nat} {l : Tree K V} {d : Nat} {c : colorT} {kv : K × V}
    {r : Tree K V} {e : Nat × (K × V)} (h : e ∈ r.entries) :
    e ∈ (Tree.node a l d c kv r).entries :=
  List.mem_append_right _ (List.mem_cons_of_mem _ h)

theorem Tree.mem_entries_top {a : Nat} {l : Tree K V} {d : Nat} {c : colorT} {kv : K × V}
    {r : Tree K V} : (a, kv) ∈ (Tree.node a l d c kv r).entries :=
  List.mem_append_right _ (List.mem_cons_self _ _)

/-- A rotation keeps the set of node objects. -/
theorem Tree.rot_addrs {ap ao : Nat} {PL OL T T' : Tree K V} {d1 d2 d3 d4 : Nat}
    {c1 c2 c3 c4 : colorT} {kv1 kv2 kv3 kv4 : K × V} (hT : T'.addrs = T.addrs) (x : Nat) :
    x ∈ (Tree.node ap (.node ao PL d1 c1 kv1 OL) d2 c2 kv2 T').addrs ↔
      x ∈ (Tree.node ap PL d3 c3 kv3 (.node ao OL d4 c4 kv4 T)).addrs := by
  simp only [Tree.addrs, hT, List.mem_cons, List.mem_append]
  tauto

/-- A rotation with payload swap keeps the in-order sequence of stored pairs. -/
theorem Tree.rot_entries {ap ao : Nat} {PL OL T T' : Tree K V} {d1 d2 d3 d4 : Nat}
    {c1 c2 c3 c4 : colorT} {kvp kvo : K × V}
    (hT : T'.entries.map Prod.snd = T.entries.map Prod.snd) :
    (Tree.node ap (.node ao PL d1 c1 kvp OL) d2 c2 kvo T').entries.map Prod.snd =
      (Tree.node ap PL d3 c3 kvp (.node ao OL d4 c4 kvo T)).entries.map Prod.snd := by
  simp only [Tree.entries, List.map_append, List.map_cons, hT, List.append_assoc,
    List.cons_append]

theorem insertLoop_right (Less : K → K → Bool) (hs : StrictWeak Less) (element : K × V)
    (root : Nat) :
    ∀ (n : Nat) (m : Mem K V) (ap : Nat) (PL : Tree K V) (dp : Nat) (kvp : K × V)
      (PR : Tree K V) (h : Nat) (gp : Ptr) (fuel : Nat),
      (Tree.node ap PL dp .BLACK kvp PR).height ≤ n →
      (Tree.node ap PL dp .BLACK kvp PR).height ≤ fuel →
      (Tree.node ap PL dp .BLACK kvp PR).Holds m →
      (Tree.node ap PL dp .BLACK kvp PR).Sep →
      (Tree.node ap PL dp .BLACK kvp PR).RB h →
      ¬ (PL.color = .RED ∧ PR.color = .RED) →
      (∀ e ∈ (Tree.node ap PL dp .BLACK kvp PR).entries, Less e.2.1 element.1 = true) →
      (∃ dr rl rr, m.nodes.get? root = some (some ⟨dr, rl, rr, .BLACK⟩)) →
      (root = ap ∨ root ∉ (Tree.node ap PL dp .BLACK kvp PR).addrs) →
      ∃ (m' : Mem K V) (P' : Tree K V),
        insertLoop Less (some root) element fuel PR.ptr (some ap) gp m = .ok ((), m') ∧
        Grown m m' element (.node ap PL dp .BLACK kvp PR) P' ∧
        P'.color = .BLACK ∧ P'.RB h := by
  intro n
  induction n with
  | zero => intro m ap PL dp kvp PR h gp fuel hh; simp [Tree.height] at hh
  | succ n ih =>
    intro m ap PL dp kvp PR h gp fuel hh hfuel hH hS hRB hNT hkeys hroot hrootp
    obtain ⟨f, rfl⟩ : ∃ f, fuel = f + 1 :=
      ⟨fuel - 1, by simp only [Tree.height] at hfuel; omega⟩
    obtain ⟨h0, rfl, hRBL, hRBR⟩ := Tree.RB_black hRB
    obtain ⟨hnp, hcp, hPL, hPR⟩ := hH
    obtain ⟨hapL, hapR, hdisj, hSL, hSR⟩ := hS
    obtain ⟨drt, rtl, rtr, hrt⟩ := hroot
    have hkp : Less element.1 kvp.1 = false :=
      hs.asymm (hkeys (ap, kvp) (by simp [Tree.entries]))
    have hPLlt := hPL.addr_lt
    have hap := lt_of_get?_some hnp
    cases PR with
    | nil =>
      obtain ⟨m1, hrun, hcells, hlen, hlap, hlN, hfr⟩ :=
        insertLoop_final_black Less root element m ap dp drt PL.ptr none rtl rtr kvp gp f
          hnp hcp hkp hrt
      refine ⟨m1, .node ap PL dp .BLACK kvp
        (.node m.nodes.length .nil m.cells.length .RED element .nil), hrun, ?_, rfl, ?_⟩
      · refine ⟨⟨hlap, ?_, ?_, ⟨hlN, ?_, trivial, trivial⟩⟩, rfl, ?_, ?_, ?_, hlen, hcells, ?_⟩
        · rw [cells_frame_append hcells dp (lt_of_get?_some hcp)]; exact hcp
        · exact hPL.frame (fun x hx => hfr x (fun hxa => hapL (hxa ▸ hx)) (hPLlt x hx))
            (cells_frame_append hcells)
        · rw [hcells]; exact get?_append_length _ _
        · refine ⟨hapL, ?_, ?_, hSL, ?_⟩
          · simp only [Tree.addrs, List.append_nil, List.mem_singleton]; omega
          · intro x hx
            have := hPLlt x hx
            simp only [Tree.addrs, List.append_nil, List.mem_singleton]; omega
          · simp [Tree.Sep, Tree.addrs]
        · simp [Tree.entries]
        · intro x
          simp only [Tree.addrs, List.append_nil, List.mem_cons, List.mem_append,
            List.mem_singleton, List.not_mem_nil, or_false]
          tauto
        · intro a ha hnot
          simp only [Tree.addrs, List.append_nil, List.mem_cons, not_or] at hnot
          exact hfr a hnot.1 ha
      · simp only [Tree.RB] at hRBR
        subst hRBR
        simp [Tree.RB, Tree.color, hRBL]
    | node ao OL d_o co kvo OR =>
      obtain ⟨hno, hco, hOL, hOR⟩ := hPR
      obtain ⟨haoL, haoR, hdisjO, hSOL, hSOR⟩ := hSR
      have hko : Less element.1 kvo.1 = false :=
        hs.asymm (hkeys (ao, kvo) (by simp [Tree.entries]))
      have hrootR : root ∉ (Tree.node ao OL d_o co kvo OR).addrs := by
        rcases hrootp with h | h
        · rw [h]; exact hapR
        · exact fun hmem => h (Tree.mem_addrs_right hmem)
      have hPRh : (Tree.node ao OL d_o co kvo OR).height ≤ n := by
        simp only [Tree.height] at hh ⊢; omega
      have hPRf : (Tree.node ao OL d_o co kvo OR).height ≤ f := by
        simp only [Tree.height] at hfuel ⊢; omega
      have hkeysR : ∀ e ∈ (Tree.node ao OL d_o co kvo OR).entries,
          Less e.2.1 element.1 = true := by
        intro e he
        exact hkeys e (Tree.mem_entries_right he)
      have hHP : (Tree.node ap PL dp .BLACK kvp (.node ao OL d_o co kvo OR)).Holds m :=
        ⟨hnp, hcp, hPL, hno, hco, hOL, hOR⟩
      have hSP : (Tree.node ap PL dp .BLACK kvp (.node ao OL d_o co kvo OR)).Sep :=
        ⟨hapL, hapR, hdisj, hSL, haoL, haoR, hdisjO, hSOL, hSOR⟩
      cases co with
      | BLACK =>
        by_cases h2r : OL.color = .RED ∧ OR.color = .RED
        · -- the right child has two RED children: recolour, then descend two levels
          obtain ⟨al, OLL, dl, kvl, OLR, rfl⟩ := Tree.color_red h2r.1
          obtain ⟨ar, ORL, dr, kvr, ORR, rfl⟩ := Tree.color_red h2r.2
          obtain ⟨h1, rfl, hRBOL, hRBOR⟩ := Tree.RB_black hRBR
          simp only [Tree.RB] at hRBOL hRBOR
          obtain ⟨hOLLc, hOLRc, hRBOLL, hRBOLR⟩ := hRBOL
          obtain ⟨hORLc, hORRc, hRBORL, hRBORR⟩ := hRBOR
          obtain ⟨hnl, hcl, hOLL, hOLR⟩ := hOL
          obtain ⟨hnr, hcr, hORL, hORR⟩ := hOR
          obtain ⟨halL, halR, hdisjL, hSOLL, hSOLR⟩ := hSOL
          obtain ⟨harL, harR, hdisjR, hSORL, hSORR⟩ := hSOR
          obtain ⟨f1, rfl⟩ : ∃ f1, f = f1 + 1 :=
            ⟨f - 1, by simp only [Tree.height] at hPRf; omega⟩
          have hORh : (Tree.node ar ORL dr .BLACK kvr ORR).height ≤ n := by
            simp only [Tree.height] at hPRh ⊢; omega
          have hORf : (Tree.node ar ORL dr .BLACK kvr ORR).height ≤ f1 := by
            simp only [Tree.height] at hPRf ⊢; omega
          simp only [Tree.ptr] at hno hnp
          have hkr : Less element.1 kvr.1 = false :=
            hs.asymm (hkeysR (ar, kvr) (Tree.mem_entries_right Tree.mem_entries_top))
          have e1 : ao ≠ al := fun h => haoL (h ▸ Tree.mem_addrs_top)
          have e2 : ao ≠ ar := fun h => haoR (h ▸ Tree.mem_addrs_top)
          have e3 : al ≠ ar := fun h => hdisjO al Tree.mem_addrs_top (h ▸ Tree.mem_addrs_top)
          have e4 : ap ≠ ao := fun h => hapR (h ▸ Tree.mem_addrs_top)
          have e5 : ap ≠ al := fun h =>
            hapR (h ▸ Tree.mem_addrs_left Tree.mem_addrs_top)
          have e6 : ap ≠ ar := fun h =>
            hapR (h ▸ Tree.mem_addrs_right Tree.mem_addrs_top)
          obtain ⟨m1, hrun1, hcells1, hlen1, hlao, hlal, hlar, hfr1⟩ :=
            insertLoop_step_recolor Less (some root) element m ao al ar ap d_o dl dr dp .BLACK
              OLL.ptr OLR.ptr ORL.ptr ORR.ptr PL.ptr (some ao) kvo gp (f1 + 1) hno hnl hnr hnp
              hco hko e1 e2 e3 e4 e5 e6
          have hcf1 := cells_frame_eq hcells1
          have hcell1 : ∀ d x, m.cells.get? d = some x → m1.cells.get? d = some x :=
            fun d x hx => by rw [hcells1]; exact hx
          -- subtrees untouched by the recolouring
          have hPL1 : PL.Holds m1 := hPL.frame (fun x hx => hfr1 x
            (fun h => hdisj x hx (h ▸ Tree.mem_addrs_top))
            (fun h => hdisj x hx (h ▸ Tree.mem_addrs_left Tree.mem_addrs_top))
            (fun h => hdisj x hx (h ▸ Tree.mem_addrs_right Tree.mem_addrs_top))) hcf1
          have hOLL1 : OLL.Holds m1 := hOLL.frame (fun x hx => hfr1 x
            (fun h => haoL (h ▸ Tree.mem_addrs_left hx))
            (fun h => halL (h ▸ hx))
            (fun h => hdisjO x (Tree.mem_addrs_left hx) (h ▸ Tree.mem_addrs_top))) hcf1
          have hOLR1 : OLR.Holds m1 := hOLR.frame (fun x hx => hfr1 x
            (fun h => haoL (h ▸ Tree.mem_addrs_right hx))
            (fun h => halR (h ▸ hx))
            (fun h => hdisjO x (Tree.mem_addrs_right hx) (h ▸ Tree.mem_addrs_top))) hcf1
          have hORL1 : ORL.Holds m1 := hORL.frame (fun x hx => hfr1 x
            (fun h => haoR (h ▸ Tree.mem_addrs_left hx))
            (fun h => hdisjO al Tree.mem_addrs_top (h ▸ Tree.mem_addrs_left hx))
            (fun h => harL (h ▸ hx))) hcf1
          have hORR1 : ORR.Holds m1 := hORR.frame (fun x hx => hfr1 x
            (fun h => haoR (h ▸ Tree.mem_addrs_right hx))
            (fun h => hdisjO al Tree.mem_addrs_top (h ▸ Tree.mem_addrs_right hx))
            (fun h => harR (h ▸ hx))) hcf1
          have hnt2 : ¬ (ORL.color = .RED ∧ ORR.color = .RED) := by
            rw [hORLc]; simp
          have hstep2 := insertLoop_step_plain Less (some root) element m1 ar
            ⟨dr, ORL.ptr, ORR.ptr, .BLACK⟩ kvr ORL.color ORR.color (some ao) (some ap) f1
            hlar (hcell1 _ _ hcr) hORL1.colorOf_eq hORR1.colorOf_eq hnt2 hkr
          have hrt1 : m1.nodes.get? root = some (some ⟨drt, rtl, rtr, .BLACK⟩) := by
            rw [hfr1 root (fun h => hrootR (h ▸ Tree.mem_addrs_top))
              (fun h => hrootR (h ▸ Tree.mem_addrs_left Tree.mem_addrs_top))
              (fun h => hrootR (h ▸ Tree.mem_addrs_right Tree.mem_addrs_top))]
            exact hrt
          obtain ⟨m', R', hrun, hg, hcol, hrb⟩ :=
            ih m1 ar ORL dr kvr ORR (h1 + 1) (some ao) f1 hORh hORf
              ⟨hlar, hcell1 _ _ hcr, hORL1, hORR1⟩ ⟨harL, harR, hdisjR, hSORL, hSORR⟩
              ⟨hRBORL, hRBORR⟩ hnt2
              (fun e he => hkeysR e (Tree.mem_entries_right he)) ⟨drt, rtl, rtr, hrt1⟩
              (Or.inr (fun hmem => hrootR (Tree.mem_addrs_right hmem)))
          have hHin : (Tree.node ao (.node al OLL dl .BLACK kvl OLR) d_o .RED kvo
              (.node ar ORL dr .BLACK kvr ORR)).Holds m1 :=
            ⟨hlao, hcell1 _ _ hco, ⟨hlal, hcell1 _ _ hcl, hOLL1, hOLR1⟩,
              hlar, hcell1 _ _ hcr, hORL1, hORR1⟩
          have hSin : (Tree.node ao (.node al OLL dl .BLACK kvl OLR) d_o .RED kvo
              (.node ar ORL dr .BLACK kvr ORR)).Sep :=
            ⟨haoL, haoR, hdisjO, ⟨halL, halR, hdisjL, hSOLL, hSOLR⟩,
              harL, harR, hdisjR, hSORL, hSORR⟩
          have hnp1 : m1.nodes.get? ap = some (some ⟨dp, PL.ptr, some ao, .BLACK⟩) := by
            rw [hfr1 ap e4 e5 e6]; exact hnp
          have hg2 := (hg.ctx_right hHin hSin).ctx_right
            (show (Tree.node ap PL dp .BLACK kvp (.node ao (.node al OLL dl .BLACK kvl OLR) d_o
              .RED kvo (.node ar ORL dr .BLACK kvr ORR))).Holds m1 from
              ⟨hnp1, hcell1 _ _ hcp, hPL1, hHin⟩)
            (show (Tree.node ap PL dp .BLACK kvp (.node ao (.node al OLL dl .BLACK kvl OLR) d_o
              .RED kvo (.node ar ORL dr .BLACK kvr ORR))).Sep from
              ⟨hapL, hapR, hdisj, hSL, hSin⟩)
          refine ⟨m', _, ?_, hg2.transfer hlen1 hcells1 rfl rfl (fun x => Iff.rfl) ?_, rfl, ?_⟩
          · simp only [Tree.ptr] at hstep2 ⊢
            rw [hrun1, hstep2]
            exact hrun
          · intro a hnot
            exact hfr1 a (fun h => hnot (h ▸ Tree.mem_addrs_right Tree.mem_addrs_top))
              (fun h => hnot (h ▸ Tree.mem_addrs_right
                (Tree.mem_addrs_left Tree.mem_addrs_top)))
              (fun h => hnot (h ▸ Tree.mem_addrs_right
                (Tree.mem_addrs_right Tree.mem_addrs_top)))
          · exact ⟨hRBL, rfl, hcol, ⟨hRBOLL, hRBOLR⟩, hrb⟩
        · -- the right child is BLACK and keeps its colour: descend
          have hstep := insertLoop_step_plain Less (some root) element m ao
            ⟨d_o, OL.ptr, OR.ptr, .BLACK⟩ kvo OL.color OR.color (some ap) gp f hno hco
            hOL.colorOf_eq hOR.colorOf_eq h2r hko
          obtain ⟨m', R', hrun, hg, hcol, hrb⟩ :=
            ih m ao OL d_o kvo OR h0 (some ap) f hPRh hPRf ⟨hno, hco, hOL, hOR⟩
              ⟨haoL, haoR, hdisjO, hSOL, hSOR⟩ hRBR h2r hkeysR ⟨drt, rtl, rtr, hrt⟩
              (Or.inr hrootR)
          refine ⟨m', .node ap PL dp .BLACK kvp R', ?_, hg.ctx_right hHP hSP, rfl, ?_⟩
          · simp only [Tree.ptr] at hstep ⊢
            rw [hstep]
            exact hrun
          · exact ⟨hRBL, hrb⟩
      | RED =>
        simp only [Tree.RB] at hRBR
        obtain ⟨hOLc, hORc, hRBOL, hRBOR⟩ := hRBR
        have hPLc : PL.color = .BLACK := by
          cases hc : PL.color with
          | BLACK => rfl
          | RED => exact absurd ⟨hc, rfl⟩ hNT
        have hnt1 : ¬ (OL.color = .RED ∧ OR.color = .RED) := by
          rw [hOLc]; simp
        have hstep := insertLoop_step_plain Less (some root) element m ao
          ⟨d_o, OL.ptr, OR.ptr, .RED⟩ kvo OL.color OR.color (some ap) gp f hno hco
          hOL.colorOf_eq hOR.colorOf_eq hnt1 hko
        have haoPL : ao ∉ PL.addrs := fun hmem =>
          hdisj ao hmem (by simp [Tree.addrs])
        have hglne : PL.ptr ≠ some ao := fun hp => haoPL (Tree.ptr_mem hp)
        have hapao : ap ≠ ao := by
          intro h
          apply hapR
          simp [Tree.addrs, h]
        have hrootao : root ≠ ao := by
          intro h
          apply hrootR
          simp [Tree.addrs, h]
        have hOLlt := hOL.addr_lt
        have hapOL : ap ∉ OL.addrs := fun hmem => hapR (Tree.mem_addrs_left hmem)
        have hPLOL : ∀ x ∈ PL.addrs, x ∉ OL.addrs :=
          fun x hx hmem => hdisj x hx (Tree.mem_addrs_left hmem)
        cases OR with
        | nil =>
          obtain ⟨f1, rfl⟩ : ∃ f1, f = f1 + 1 :=
            ⟨f - 1, by simp only [Tree.height] at hfuel; omega⟩
          simp only [Tree.ptr] at hno hnp hstep
          obtain ⟨m1, hrun, hcells, hlen, hlag, hlap, hlN, hfr⟩ :=
            insertLoop_final_RR Less root element m ao ap d_o dp drt .BLACK OL.ptr none PL.ptr
              rtl rtr kvo f1 hno hnp hglne hco hko hrt hapao
          have hao := lt_of_get?_some hno
          refine ⟨m1, .node ap (.node ao PL dp .RED kvp OL) d_o .BLACK kvo
            (.node m.nodes.length .nil m.cells.length .RED element .nil), ?_, ?_, rfl, ?_⟩
          · simp only [Tree.ptr]
            rw [hstep]
            exact hrun
          · have hcf := cells_frame_append hcells
            refine ⟨⟨hlag, ?_, ⟨hlap, ?_, ?_, ?_⟩, ⟨hlN, ?_, trivial, trivial⟩⟩, rfl, ?_, ?_, ?_,
              hlen, hcells, ?_⟩
            · rw [hcf d_o (lt_of_get?_some hco)]; exact hco
            · rw [hcf dp (lt_of_get?_some hcp)]; exact hcp
            · exact hPL.frame (fun x hx => hfr x (fun hxa => hapL (hxa ▸ hx))
                (fun hxa => haoPL (hxa ▸ hx)) (hPLlt x hx)) hcf
            · exact hOL.frame (fun x hx => hfr x (fun hxa => hapOL (hxa ▸ hx))
                (fun hxa => haoL (hxa ▸ hx)) (hOLlt x hx)) hcf
            · rw [hcells]; exact get?_append_length _ _
            · refine ⟨?_, ?_, ?_, ⟨haoPL, haoL, hPLOL, hSL, hSOL⟩, ?_⟩
              · simp only [Tree.addrs, List.mem_cons, List.mem_append, not_or]
                exact ⟨hapao, hapL, hapOL⟩
              · simp only [Tree.addrs, List.append_nil, List.mem_singleton]; omega
              · intro x hx
                simp only [Tree.addrs, List.mem_cons, List.mem_append] at hx
                simp only [Tree.addrs, List.append_nil, List.mem_singleton]
                rcases hx with h | h | h
                · omega
                · have := hPLlt x h; omega
                · have := hOLlt x h; omega
              · simp [Tree.Sep, Tree.addrs]
            · simp [Tree.entries]
            · intro x
              simp only [Tree.addrs, List.append_nil, List.mem_cons, List.mem_append,
                List.mem_singleton, List.not_mem_nil, or_false]
              constructor
              · rintro (h | (h | h | h) | h)
                · exact Or.inl (Or.inl h)
                · exact Or.inl (Or.inr (Or.inr (Or.inl h)))
                · exact Or.inl (Or.inr (Or.inl h))
                · exact Or.inl (Or.inr (Or.inr (Or.inr h)))
                · exact Or.inr h
              · rintro ((h | h | h | h) | h)
                · exact Or.inl h
                · exact Or.inr (Or.inl (Or.inr (Or.inl h)))
                · exact Or.inr (Or.inl (Or.inl h))
                · exact Or.inr (Or.inl (Or.inr (Or.inr h)))
                · exact Or.inr (Or.inr h)
            · intro a ha hnot
              simp only [Tree.addrs, List.append_nil, List.mem_cons, List.mem_append,
                not_or] at hnot
              exact hfr a hnot.1 hnot.2.2.1 ha
          · simp only [Tree.RB] at hRBOR
            subst hRBOR
            exact ⟨⟨hPLc, hOLc, hRBL, hRBOL⟩, rfl, rfl, rfl, rfl⟩
        | node ao2 O2L d2 c2 kv2 O2R =>
          simp only [Tree.color] at hORc
          subst hORc
          obtain ⟨f1, rfl⟩ : ∃ f1, f = f1 + 1 :=
            ⟨f - 1, by simp only [Tree.height] at hfuel; omega⟩
          obtain ⟨hno2, hco2, hO2L, hO2R⟩ := hOR
          obtain ⟨hao2L, hao2R, hdisj2, hSO2L, hSO2R⟩ := hSOR
          have hko2 : Less element.1 kv2.1 = false :=
            hs.asymm (hkeys (ao2, kv2) (by simp [Tree.entries]))
          have hORh : (Tree.node ao2 O2L d2 .BLACK kv2 O2R).height ≤ n := by
            simp only [Tree.height] at hh ⊢; omega
          have hORf : (Tree.node ao2 O2L d2 .BLACK kv2 O2R).height ≤ f1 := by
            simp only [Tree.height] at hfuel ⊢; omega
          have hkeysO : ∀ e ∈ (Tree.node ao2 O2L d2 .BLACK kv2 O2R).entries,
              Less e.2.1 element.1 = true := by
            intro e he
            exact hkeysR e (Tree.mem_entries_right he)
          have hrootO : root ∉ (Tree.node ao2 O2L d2 .BLACK kv2 O2R).addrs := by
            exact fun hmem => hrootR (Tree.mem_addrs_right hmem)
          by_cases h2r : O2L.color = .RED ∧ O2R.color = .RED
          · -- RED right child whose BLACK right child has two RED children:
            -- recolour, rotate with RR, then descend
            obtain ⟨a2l, O2LL, dl2, kvl2, O2LR, rfl⟩ := Tree.color_red h2r.1
            obtain ⟨a3, O3L, d3, kv3, O3R, rfl⟩ := Tree.color_red h2r.2
            obtain ⟨h1, rfl, hRBO2L, hRBO2R⟩ := Tree.RB_black hRBOR
            simp only [Tree.RB] at hRBO2L hRBO2R
            obtain ⟨hO2LLc, hO2LRc, hRBO2LL, hRBO2LR⟩ := hRBO2L
            obtain ⟨hO3Lc, hO3Rc, hRBO3L, hRBO3R⟩ := hRBO2R
            obtain ⟨hn2l, hc2l, hO2LL, hO2LR⟩ := hO2L
            obtain ⟨hn3, hc3, hO3L, hO3R⟩ := hO2R
            obtain ⟨ha2lL, ha2lR, hdisj2l, hSO2LL, hSO2LR⟩ := hSO2L
            obtain ⟨ha3L, ha3R, hdisj3, hSO3L, hSO3R⟩ := hSO2R
            obtain ⟨f2, rfl⟩ : ∃ f2, f1 = f2 + 1 :=
              ⟨f1 - 1, by simp only [Tree.height] at hORf; omega⟩
            have hO3h : (Tree.node a3 O3L d3 .BLACK kv3 O3R).height ≤ n := by
              simp only [Tree.height] at hORh ⊢; omega
            have hO3f : (Tree.node a3 O3L d3 .BLACK kv3 O3R).height ≤ f2 := by
              simp only [Tree.height] at hORf ⊢; omega
            simp only [Tree.ptr] at hno hnp hno2
            have hk3 : Less element.1 kv3.1 = false :=
              hs.asymm (hkeysO (a3, kv3) (Tree.mem_entries_right Tree.mem_entries_top))
            have e1 : ao2 ≠ a2l := fun h => hao2L (h ▸ Tree.mem_addrs_top)
            have e2 : ao2 ≠ a3 := fun h => hao2R (h ▸ Tree.mem_addrs_top)
            have e3 : a2l ≠ a3 := fun h =>
              hdisj2 a2l Tree.mem_addrs_top (h ▸ Tree.mem_addrs_top)
            have e4 : ao ≠ ao2 := fun h => haoR (h ▸ Tree.mem_addrs_top)
            have e5 : ao ≠ a2l := fun h => haoR (h ▸ Tree.mem_addrs_left Tree.mem_addrs_top)
            have e6 : ao ≠ a3 := fun h => haoR (h ▸ Tree.mem_addrs_right Tree.mem_addrs_top)
            have e7 : ap ≠ ao2 := fun h => hapR (h ▸ Tree.mem_addrs_right Tree.mem_addrs_top)
            have e8 : ap ≠ a2l := fun h =>
              hapR (h ▸ Tree.mem_addrs_right (Tree.mem_addrs_left Tree.mem_addrs_top))
            have e9 : ap ≠ a3 := fun h =>
              hapR (h ▸ Tree.mem_addrs_right (Tree.mem_addrs_right Tree.mem_addrs_top))
            have hroot2 : some ao ≠ some root := fun h => hrootao (Option.some.inj h).symm
            obtain ⟨m1, hrun1, hcells1, hlen1, hlao2, hla2l, hla3, hlap, hlao, hfr1⟩ :=
              insertLoop_step_recolor_RR Less (some root) element m ao2 a2l a3 ao ap d2 dl2 d3
                d_o dp .BLACK .BLACK O2LL.ptr O2LR.ptr O3L.ptr O3R.ptr OL.ptr PL.ptr kv2
                (f2 + 1) hno2 hn2l hn3 hno hnp hglne hroot2 hco2 hko2 e1 e2 e3 e4 e5 e6 e7 e8
                e9 hapao
            have hcf1 := cells_frame_eq hcells1
            have hcell1 : ∀ d x, m.cells.get? d = some x → m1.cells.get? d = some x :=
              fun d x hx => by rw [hcells1]; exact hx
            -- subtrees untouched by the recolouring and the rotation
            have hPL1 : PL.Holds m1 := hPL.frame (fun x hx => hfr1 x
              (fun h => hdisj x hx (h ▸ Tree.mem_addrs_right Tree.mem_addrs_top))
              (fun h => hdisj x hx
                (h ▸ Tree.mem_addrs_right (Tree.mem_addrs_left Tree.mem_addrs_top)))
              (fun h => hdisj x hx
                (h ▸ Tree.mem_addrs_right (Tree.mem_addrs_right Tree.mem_addrs_top)))
              (fun h => hapL (h ▸ hx))
              (fun h => hdisj x hx (h ▸ Tree.mem_addrs_top))) hcf1
            have hOL1 : OL.Holds m1 := hOL.frame (fun x hx => hfr1 x
              (fun h => hdisjO x hx (h ▸ Tree.mem_addrs_top))
              (fun h => hdisjO x hx (h ▸ Tree.mem_addrs_left Tree.mem_addrs_top))
              (fun h => hdisjO x hx (h ▸ Tree.mem_addrs_right Tree.mem_addrs_top))
              (fun h => hapOL (h ▸ hx))
              (fun h => haoL (h ▸ hx))) hcf1
            have hO2LL1 : O2LL.Holds m1 := hO2LL.frame (fun x hx => hfr1 x
              (fun h => hao2L (h ▸ Tree.mem_addrs_left hx))
              (fun h => ha2lL (h ▸ hx))
              (fun h => hdisj2 x (Tree.mem_addrs_left hx) (h ▸ Tree.mem_addrs_top))
              (fun h => hapR (h ▸ Tree.mem_addrs_right
                (Tree.mem_addrs_left (Tree.mem_addrs_left hx))))
              (fun h => haoR (h ▸ Tree.mem_addrs_left (Tree.mem_addrs_left hx)))) hcf1
            have hO2LR1 : O2LR.Holds m1 := hO2LR.frame (fun x hx => hfr1 x
              (fun h => hao2L (h ▸ Tree.mem_addrs_right hx))
              (fun h => ha2lR (h ▸ hx))
              (fun h => hdisj2 x (Tree.mem_addrs_right hx) (h ▸ Tree.mem_addrs_top))
              (fun h => hapR (h ▸ Tree.mem_addrs_right
                (Tree.mem_addrs_left (Tree.mem_addrs_right hx))))
              (fun h => haoR (h ▸ Tree.mem_addrs_left (Tree.mem_addrs_right hx)))) hcf1
            have hO3L1 : O3L.Holds m1 := hO3L.frame (fun x hx => hfr1 x
              (fun h => hao2R (h ▸ Tree.mem_addrs_left hx))
              (fun h => hdisj2 a2l Tree.mem_addrs_top (h ▸ Tree.mem_addrs_left hx))
              (fun h => ha3L (h ▸ hx))
              (fun h => hapR (h ▸ Tree.mem_addrs_right
                (Tree.mem_addrs_right (Tree.mem_addrs_left hx))))
              (fun h => haoR (h ▸ Tree.mem_addrs_right (Tree.mem_addrs_left hx)))) hcf1
            have hO3R1 : O3R.Holds m1 := hO3R.frame (fun x hx => hfr1 x
              (fun h => hao2R (h ▸ Tree.mem_addrs_right hx))
              (fun h => hdisj2 a2l Tree.mem_addrs_top (h ▸ Tree.mem_addrs_right hx))
              (fun h => ha3R (h ▸ hx))
              (fun h => hapR (h ▸ Tree.mem_addrs_right
                (Tree.mem_addrs_right (Tree.mem_addrs_right hx))))
              (fun h => haoR (h ▸ Tree.mem_addrs_right (Tree.mem_addrs_right hx)))) hcf1
            have hnt2 : ¬ (O3L.color = .RED ∧ O3R.color = .RED) := by
              rw [hO3Lc]; simp
            have hstep2 := insertLoop_step_plain Less (some root) element m1 a3
              ⟨d3, O3L.ptr, O3R.ptr, .BLACK⟩ kv3 O3L.color O3R.color (some ao2) (some ao) f2
              hla3 (hcell1 _ _ hc3) hO3L1.colorOf_eq hO3R1.colorOf_eq hnt2 hk3
            have hrt1 : ∃ dr rl rr, m1.nodes.get? root = some (some ⟨dr, rl, rr, .BLACK⟩) := by
              rcases hrootp with h | h
              · rw [h]; exact ⟨_, _, _, hlap⟩
              · refine ⟨drt, rtl, rtr, ?_⟩
                rw [hfr1 root
                  (fun e => h (e ▸ Tree.mem_addrs_right (Tree.mem_addrs_right
                    Tree.mem_addrs_top)))
                  (fun e => h (e ▸ Tree.mem_addrs_right (Tree.mem_addrs_right
                    (Tree.mem_addrs_left Tree.mem_addrs_top))))
                  (fun e => h (e ▸ Tree.mem_addrs_right (Tree.mem_addrs_right
                    (Tree.mem_addrs_right Tree.mem_addrs_top))))
                  (fun e => h (e ▸ Tree.mem_addrs_top))
                  hrootao]
                exact hrt
            obtain ⟨m', R', hrun, hg, hcol, hrb⟩ :=
              ih m1 a3 O3L d3 kv3 O3R (h1 + 1) (some ao2) f2 hO3h hO3f
                ⟨hla3, hcell1 _ _ hc3, hO3L1, hO3R1⟩ ⟨ha3L, ha3R, hdisj3, hSO3L, hSO3R⟩
                ⟨hRBO3L, hRBO3R⟩ hnt2
                (fun e he => hkeysO e (Tree.mem_entries_right he)) hrt1
                (Or.inr (fun hmem => hrootO (Tree.mem_addrs_right hmem)))
            have hHin : (Tree.node ao2 (.node a2l O2LL dl2 .BLACK kvl2 O2LR) d2 .RED kv2
                (.node a3 O3L d3 .BLACK kv3 O3R)).Holds m1 :=
              ⟨hlao2, hcell1 _ _ hco2, ⟨hla2l, hcell1 _ _ hc2l, hO2LL1, hO2LR1⟩,
                hla3, hcell1 _ _ hc3, hO3L1, hO3R1⟩
            have hSin : (Tree.node ao2 (.node a2l O2LL dl2 .BLACK kvl2 O2LR) d2 .RED kv2
                (.node a3 O3L d3 .BLACK kv3 O3R)).Sep :=
              ⟨hao2L, hao2R, hdisj2, ⟨ha2lL, ha2lR, hdisj2l, hSO2LL, hSO2LR⟩,
                ha3L, ha3R, hdisj3, hSO3L, hSO3R⟩
            have hapT : ap ∉ (Tree.node ao2 (.node a2l O2LL dl2 .BLACK kvl2 O2LR) d2 .RED kv2
                (.node a3 O3L d3 .BLACK kv3 O3R)).addrs := fun hmem =>
              hapR (Tree.mem_addrs_right
                (show ap ∈ (Tree.node ao2 (.node a2l O2LL dl2 .RED kvl2 O2LR) d2
                  .BLACK kv2 (.node a3 O3L d3 .RED kv3 O3R)).addrs from hmem))
            have hapN : ap ∉ (Tree.node ao PL dp .RED kvp OL).addrs := by
              simp only [Tree.addrs, List.mem_cons, List.mem_append, not_or]
              exact ⟨hapao, hapL, hapOL⟩
            have hNT : ∀ x ∈ (Tree.node ao PL dp .RED kvp OL).addrs,
                x ∉ (Tree.node ao2 (.node a2l O2LL dl2 .BLACK kvl2 O2LR) d2 .RED kv2
                  (.node a3 O3L d3 .BLACK kv3 O3R)).addrs := by
              intro x hx
              simp only [Tree.addrs, List.mem_cons, List.mem_append] at hx
              rcases hx with h | h | h
              · rw [h]; exact haoR
              · exact fun hmem => hdisj x h (Tree.mem_addrs_right
                  (show x ∈ (Tree.node ao2 (.node a2l O2LL dl2 .RED kvl2 O2LR) d2
                    .BLACK kv2 (.node a3 O3L d3 .RED kv3 O3R)).addrs from hmem))
              · exact hdisjO x h
            have hg2 := (hg.ctx_right hHin hSin).ctx_right
              (show (Tree.node ap (.node ao PL dp .RED kvp OL) d_o .BLACK kvo
                (.node ao2 (.node a2l O2LL dl2 .BLACK kvl2 O2LR) d2 .RED kv2
                  (.node a3 O3L d3 .BLACK kv3 O3R))).Holds m1 from
                ⟨hlap, hcell1 _ _ hco, ⟨hlao, hcell1 _ _ hcp, hPL1, hOL1⟩, hHin⟩)
              (show (Tree.node ap (.node ao PL dp .RED kvp OL) d_o .BLACK kvo
                (.node ao2 (.node a2l O2LL dl2 .BLACK kvl2 O2LR) d2 .RED kv2
                  (.node a3 O3L d3 .BLACK kv3 O3R))).Sep from
                ⟨hapN, hapT, hNT, ⟨haoPL, haoL, hPLOL, hSL, hSOL⟩, hSin⟩)
            refine ⟨m', _, ?_, hg2.transfer hlen1 hcells1 rfl ?_ ?_ ?_, rfl, ?_⟩
            · simp only [Tree.ptr] at hstep hstep2 ⊢
              rw [hstep, hrun1, hstep2]
              exact hrun
            · refine Tree.rot_entries ?_
              rfl
            · intro x
              refine Tree.rot_addrs ?_ x
              rfl
            · intro a hnot
              exact hfr1 a
                (fun h => hnot (h ▸ Tree.mem_addrs_right (Tree.mem_addrs_right
                  Tree.mem_addrs_top)))
                (fun h => hnot (h ▸ Tree.mem_addrs_right (Tree.mem_addrs_right
                  (Tree.mem_addrs_left Tree.mem_addrs_top))))
                (fun h => hnot (h ▸ Tree.mem_addrs_right (Tree.mem_addrs_right
                  (Tree.mem_addrs_right Tree.mem_addrs_top))))
                (fun h => hnot (h ▸ Tree.mem_addrs_top))
                (fun h => hnot (h ▸ Tree.mem_addrs_right Tree.mem_addrs_top))
            · exact ⟨⟨hPLc, hOLc, hRBL, hRBOL⟩, rfl, hcol, ⟨hRBO2LL, hRBO2LR⟩, hrb⟩
          · have hstep2 := insertLoop_step_plain Less (some root) element m ao2
              ⟨d2, O2L.ptr, O2R.ptr, .BLACK⟩ kv2 O2L.color O2R.color (some ao) (some ap) f1
              hno2 hco2 hO2L.colorOf_eq hO2R.colorOf_eq h2r hko2
            obtain ⟨m', R', hrun, hg, hcol, hrb⟩ :=
              ih m ao2 O2L d2 kv2 O2R h0 (some ao) f1 hORh hORf ⟨hno2, hco2, hO2L, hO2R⟩
                ⟨hao2L, hao2R, hdisj2, hSO2L, hSO2R⟩ hRBOR h2r hkeysO ⟨drt, rtl, rtr, hrt⟩
                (Or.inr hrootO)
            have hHR : (Tree.node ao OL d_o .RED kvo (.node ao2 O2L d2 .BLACK kv2 O2R)).Holds m :=
              ⟨hno, hco, hOL, hno2, hco2, hO2L, hO2R⟩
            have hSR2 : (Tree.node ao OL d_o .RED kvo (.node ao2 O2L d2 .BLACK kv2 O2R)).Sep :=
              ⟨haoL, haoR, hdisjO, hSOL, hao2L, hao2R, hdisj2, hSO2L, hSO2R⟩
            refine ⟨m', .node ap PL dp .BLACK kvp (.node ao OL d_o .RED kvo R'), ?_,
              (hg.ctx_right hHR hSR2).ctx_right hHP hSP, rfl, ?_⟩
            · simp only [Tree.ptr] at hstep hstep2 ⊢
              rw [hstep, hstep2]
              exact hrun
            · exact ⟨hRBL, hOLc, hcol, hRBOL, hrb⟩

/-- The loop of `insert` started at a BLACK root whose tree satisfies the balance
invariants, for an element whose key is greater than every stored key: it returns, and
the tree has grown by one node at the right end, is still balanced and has a BLACK
root. -/
theorem insertLoop_root (Less : K → K → Bool) (hs : StrictWeak Less) (element : K × V)
    (m : Mem K V) (ap : Nat) (PL : Tree K V) (dp : Nat) (kvp : K × V) (PR : Tree K V)
    (h fuel : Nat)
    (hH : (Tree.node ap PL dp .BLACK kvp PR).Holds m)
    (hS : (Tree.node ap PL dp .BLACK kvp PR).Sep)
    (hRB : (Tree.node ap PL dp .BLACK kvp PR).RB h)
    (hkeys : ∀ e ∈ (Tree.node ap PL dp .BLACK kvp PR).entries, Less e.2.1 element.1 = true)
    (hfuel : (Tree.node ap PL dp .BLACK kvp PR).height + 1 ≤ fuel) :
    ∃ (m' : Mem K V) (P' : Tree K V) (h' : Nat),
      insertLoop Less (some ap) element fuel (some ap) (some ap) (some ap) m = .ok ((), m') ∧
      Grown m m' element (.node ap PL dp .BLACK kvp PR) P' ∧
      P'.color = .BLACK ∧ P'.RB h' := by
  obtain ⟨f, rfl⟩ : ∃ f, fuel = f + 1 := ⟨fuel - 1, by omega⟩
  have hf : (Tree.node ap PL dp .BLACK kvp PR).height ≤ f := by omega
  have hkp : Less element.1 kvp.1 = false :=
    hs.asymm (hkeys (ap, kvp) Tree.mem_entries_top)
  by_cases h2r : PL.color = .RED ∧ PR.color = .RED
  · obtain ⟨al, PLL, dl, kvl, PLR, rfl⟩ := Tree.color_red h2r.1
    obtain ⟨ar, ORL, dr, kvr, ORR, rfl⟩ := Tree.color_red h2r.2
    obtain ⟨h0, rfl, hRBL, hRBR⟩ := Tree.RB_black hRB
    simp only [Tree.RB] at hRBL hRBR
    obtain ⟨hPLLc, hPLRc, hRBPLL, hRBPLR⟩ := hRBL
    obtain ⟨hORLc, hORRc, hRBORL, hRBORR⟩ := hRBR
    obtain ⟨hnp, hcp, ⟨hnl, hcl, hPLL, hPLR⟩, hnr, hcr, hORL, hORR⟩ := hH
    obtain ⟨hapL, hapR, hdisj, ⟨halL, halR, hdisjL, hSPLL, hSPLR⟩,
      harL, harR, hdisjR, hSORL, hSORR⟩ := hS
    obtain ⟨f1, rfl⟩ : ∃ f1, f = f1 + 1 :=
      ⟨f - 1, by simp only [Tree.height] at hf; omega⟩
    have hORh : (Tree.node ar ORL dr .BLACK kvr ORR).height ≤ f1 := by
      simp only [Tree.height] at hf ⊢; omega
    simp only [Tree.ptr] at hnp
    have hkr : Less element.1 kvr.1 = false :=
      hs.asymm (hkeys (ar, kvr) (Tree.mem_entries_right Tree.mem_entries_top))
    have e1 : ap ≠ al := fun h => hapL (h ▸ Tree.mem_addrs_top)
    have e2 : ap ≠ ar := fun h => hapR (h ▸ Tree.mem_addrs_top)
    have e3 : al ≠ ar := fun h => hdisj al Tree.mem_addrs_top (h ▸ Tree.mem_addrs_top)
    obtain ⟨m1, hrun1, hcells1, hlen1, hlap, hlal, hlar, hfr1⟩ :=
      insertLoop_step_root Less element m ap al ar dp dl dr .BLACK PLL.ptr PLR.ptr ORL.ptr
        ORR.ptr kvp (f1 + 1) hnp hnl hnr hcp hkp e1 e2 e3
    have hcf1 := cells_frame_eq hcells1
    have hcell1 : ∀ d x, m.cells.get? d = some x → m1.cells.get? d = some x :=
      fun d x hx => by rw [hcells1]; exact hx
    have hPLL1 : PLL.Holds m1 := hPLL.frame (fun x hx => hfr1 x
      (fun h => hapL (h ▸ Tree.mem_addrs_left hx))
      (fun h => halL (h ▸ hx))
      (fun h => hdisj x (Tree.mem_addrs_left hx) (h ▸ Tree.mem_addrs_top))) hcf1
    have hPLR1 : PLR.Holds m1 := hPLR.frame (fun x hx => hfr1 x
      (fun h => hapL (h ▸ Tree.mem_addrs_right hx))
      (fun h => halR (h ▸ hx))
      (fun h => hdisj x (Tree.mem_addrs_right hx) (h ▸ Tree.mem_addrs_top))) hcf1
    have hORL1 : ORL.Holds m1 := hORL.frame (fun x hx => hfr1 x
      (fun h => hapR (h ▸ Tree.mem_addrs_left hx))
      (fun h => hdisj al Tree.mem_addrs_top (h ▸ Tree.mem_addrs_left hx))
      (fun h => harL (h ▸ hx))) hcf1
    have hORR1 : ORR.Holds m1 := hORR.frame (fun x hx => hfr1 x
      (fun h => hapR (h ▸ Tree.mem_addrs_right hx))
      (fun h => hdisj al Tree.mem_addrs_top (h ▸ Tree.mem_addrs_right hx))
      (fun h => harR (h ▸ hx))) hcf1
    have hnt2 : ¬ (ORL.color = .RED ∧ ORR.color = .RED) := by
      rw [hORLc]; simp
    have hstep2 := insertLoop_step_plain Less (some ap) element m1 ar
      ⟨dr, ORL.ptr, ORR.ptr, .BLACK⟩ kvr ORL.color ORR.color (some ap) (some ap) f1
      hlar (hcell1 _ _ hcr) hORL1.colorOf_eq hORR1.colorOf_eq hnt2 hkr
    obtain ⟨m', R', hrun, hg, hcol, hrb⟩ :=
      insertLoop_right Less hs element ap _ m1 ar ORL dr kvr ORR (h0 + 1) (some ap) f1
        le_rfl hORh ⟨hlar, hcell1 _ _ hcr, hORL1, hORR1⟩ ⟨harL, harR, hdisjR, hSORL, hSORR⟩
        ⟨hRBORL, hRBORR⟩ hnt2
        (fun e he => hkeys e (Tree.mem_entries_right he)) ⟨_, _, _, hlap⟩
        (Or.inr (fun hmem => hapR hmem))
    have hg2 := hg.ctx_right
      (show (Tree.node ap (.node al PLL dl .BLACK kvl PLR) dp .BLACK kvp
        (.node ar ORL dr .BLACK kvr ORR)).Holds m1 from
        ⟨hlap, hcell1 _ _ hcp, ⟨hlal, hcell1 _ _ hcl, hPLL1, hPLR1⟩,
          hlar, hcell1 _ _ hcr, hORL1, hORR1⟩)
      (show (Tree.node ap (.node al PLL dl .BLACK kvl PLR) dp .BLACK kvp
        (.node ar ORL dr .BLACK kvr ORR)).Sep from
        ⟨hapL, hapR, hdisj, ⟨halL, halR, hdisjL, hSPLL, hSPLR⟩,
          harL, harR, hdisjR, hSORL, hSORR⟩)
    refine ⟨m', _, h0 + 1 + 1, ?_, hg2.transfer hlen1 hcells1 rfl rfl (fun x => Iff.rfl) ?_,
      rfl, ?_⟩
    · simp only [Tree.ptr] at hstep2 ⊢
      rw [hrun1, hstep2]
      exact hrun
    · intro a hnot
      exact hfr1 a (fun h => hnot (h ▸ Tree.mem_addrs_top))
        (fun h => hnot (h ▸ Tree.mem_addrs_left Tree.mem_addrs_top))
        (fun h => hnot (h ▸ Tree.mem_addrs_right Tree.mem_addrs_top))
    · exact ⟨⟨hRBPLL, hRBPLR⟩, hrb⟩
  · obtain ⟨hnp, hcp, hPL, hPR⟩ := hH
    have hstep := insertLoop_step_plain Less (some ap) element m ap
      ⟨dp, PL.ptr, PR.ptr, .BLACK⟩ kvp PL.color PR.color (some ap) (some ap) f hnp hcp
      hPL.colorOf_eq hPR.colorOf_eq h2r hkp
    obtain ⟨m', P', hrun, hg, hcol, hrb⟩ :=
      insertLoop_right Less hs element ap _ m ap PL dp kvp PR h (some ap) f le_rfl hf
        ⟨hnp, hcp, hPL, hPR⟩ hS hRB h2r hkeys ⟨_, _, _, hnp⟩ (Or.inl rfl)
    refine ⟨m', P', h, ?_, hg, hcol, hrb⟩
    simp only [Tree.ptr] at hstep ⊢
    rw [hstep]
    exact hrun

theorem inorder_spec (m : Mem K V) :
    ∀ (t : Tree K V) (fuel : Nat), t.Holds m → t.height ≤ fuel →
      inorder m fuel t.ptr = .ok (t.entries.map Prod.snd) := by
  intro t
  induction t with
  | nil => intro fuel _ _; cases fuel <;> rfl
  | node a l d c kv r ihl ihr =>
    intro fuel hH hf
    obtain ⟨hn, hc, hl, hr⟩ := hH
    cases fuel with
    | zero => simp [Tree.height] at hf
    | succ f =>
      have hfl : l.height ≤ f := by simp only [Tree.height] at hf; omega
      have hfr : r.height ≤ f := by simp only [Tree.height] at hf; omega
      rw [show (Tree.node a l d c kv r).ptr = some a from rfl]
      simp only [inorder, Mem.deref_eq hn, Mem.payload_eq hc, ihl f hl hfl,
        ihr f hr hfr, bind, Except.bind, pure, Except.pure, Tree.entries, List.map_append,
        List.map_cons]

theorem redRed_spec (m : Mem K V) :
    ∀ (t : Tree K V) (h fuel : Nat), t.Holds m → t.RB h → t.height ≤ fuel →
      redRed m fuel t.ptr = .ok false := by
  intro t
  induction t with
  | nil => intro h fuel _ _ _; cases fuel <;> rfl
  | node a l d c kv r ihl ihr =>
    intro h fuel hH hRB hf
    obtain ⟨hn, hc, hl, hr⟩ := hH
    cases fuel with
    | zero => simp [Tree.height] at hf
    | succ f =>
      have hfl : l.height ≤ f := by simp only [Tree.height] at hf; omega
      have hfr : r.height ≤ f := by simp only [Tree.height] at hf; omega
      cases c with
      | RED =>
        obtain ⟨hlc, hrc, hRBl, hRBr⟩ := hRB
        rw [show (Tree.node a l d .RED kv r).ptr = some a from rfl]
        simp only [redRed, Mem.deref_eq hn, hl.colorOf_eq, hr.colorOf_eq, hlc, hrc,
          ihl h f hl hRBl hfl, ihr h f hr hRBr hfr, bind, Except.bind, pure, Except.pure,
          reduceCtorEq, decide_False, decide_True, Bool.or_self, Bool.and_false]
      | BLACK =>
        obtain ⟨h0, rfl, hRBl, hRBr⟩ := Tree.RB_black hRB
        rw [show (Tree.node a l d .BLACK kv r).ptr = some a from rfl]
        simp only [redRed, Mem.deref_eq hn, hl.colorOf_eq, hr.colorOf_eq,
          ihl h0 f hl hRBl hfl, ihr h0 f hr hRBr hfr, bind, Except.bind, pure, Except.pure,
          reduceCtorEq, decide_False, Bool.false_and, Bool.or_self]

theorem blackCounts_spec (m : Mem K V) :
    ∀ (t : Tree K V) (h fuel : Nat), t.Holds m → t.RB h → t.height ≤ fuel →
      ∃ k, blackCounts m fuel t.ptr = .ok (List.replicate (k + 1) h) := by
  intro t
  induction t with
  | nil =>
    intro h fuel _ hRB _
    simp only [Tree.RB] at hRB
    subst hRB
    exact ⟨0, by cases fuel <;> rfl⟩
  | node a l d c kv r ihl ihr =>
    intro h fuel hH hRB hf
    obtain ⟨hn, hc, hl, hr⟩ := hH
    cases fuel with
    | zero => simp [Tree.height] at hf
    | succ f =>
      have hfl : l.height ≤ f := by simp only [Tree.height] at hf; omega
      have hfr : r.height ≤ f := by simp only [Tree.height] at hf; omega
      cases c with
      | RED =>
        obtain ⟨hlc, hrc, hRBl, hRBr⟩ := hRB
        obtain ⟨kl, hkl⟩ := ihl h f hl hRBl hfl
        obtain ⟨kr, hkr⟩ := ihr h f hr hRBr hfr
        refine ⟨kl + 1 + kr, ?_⟩
        rw [show (Tree.node a l d .RED kv r).ptr = some a from rfl]
        simp only [blackCounts, Mem.deref_eq hn, hkl, hkr, bind, Except.bind, pure,
          Except.pure, reduceCtorEq, if_false, List.map_id', ← List.replicate_add]
        rfl
      | BLACK =>
        obtain ⟨h0, rfl, hRBl, hRBr⟩ := Tree.RB_black hRB
        obtain ⟨kl, hkl⟩ := ihl h0 f hl hRBl hfl
        obtain ⟨kr, hkr⟩ := ihr h0 f hr hRBr hfr
        refine ⟨kl + 1 + kr, ?_⟩
        rw [show (Tree.node a l d .BLACK kv r).ptr = some a from rfl]
        simp only [blackCounts, Mem.deref_eq hn, hkl, hkr, bind, Except.bind, pure,
          Except.pure, if_true, ← List.replicate_add, List.map_replicate]
        rfl

theorem balanced_spec (m : Mem K V) (t : Tree K V) (h fuel : Nat) (hH : t.Holds m)
    (hRB : t.RB h) (hc : t.color = .BLACK) (hf : t.height ≤ fuel) :
    balanced m fuel t.ptr = .ok true := by
  obtain ⟨k, hk⟩ := blackCounts_spec m t h fuel hH hRB hf
  simp only [balanced, hH.colorOf_eq, hc, redRed_spec m t h fuel hH hRB hf, hk, bind,
    Except.bind, pure, Except.pure, List.replicate_succ, List.headD_cons, decide_True,
    Bool.not_false, Bool.and_self, Bool.true_and, List.all_cons, List.all_replicate]
  simp

theorem Tree.RB_bounds :
    ∀ (t : Tree K V) (h : Nat), t.RB h →
      2 ^ h ≤ t.entries.length + 1 ∧ t.height ≤ 2 * h + 1 ∧
        (t.color = .BLACK → t.height ≤ 2 * h) := by
  intro t
  induction t with
  | nil =>
    intro h hRB
    simp only [Tree.RB] at hRB
    subst hRB
    simp [Tree.entries, Tree.height]
  | node a l d c kv r ihl ihr =>
    intro h hRB
    cases c with
    | RED =>
      obtain ⟨hlc, hrc, hRBl, hRBr⟩ := hRB
      obtain ⟨hl1, _, hl3⟩ := ihl h hRBl
      obtain ⟨hr1, _, hr3⟩ := ihr h hRBr
      have := hl3 hlc
      have := hr3 hrc
      refine ⟨?_, ?_, ?_⟩
      · simp only [Tree.entries, List.length_append, List.length_cons]; omega
      · simp only [Tree.height]; omega
      · intro hc; simp [Tree.color] at hc
    | BLACK =>
      obtain ⟨h0, rfl, hRBl, hRBr⟩ := Tree.RB_black hRB
      obtain ⟨hl1, hl2, _⟩ := ihl h0 hRBl
      obtain ⟨hr1, hr2, _⟩ := ihr h0 hRBr
      refine ⟨?_, ?_, ?_⟩
      · simp only [Tree.entries, List.length_append, List.length_cons, pow_succ]; omega
      · simp only [Tree.height]; omega
      · intro _; simp only [Tree.height]; omega

/-- A tree that satisfies the balance invariants with a BLACK top has height at most
`2 * log2 (n + 1)` for its `n` nodes, stated without logarithms. -/
theorem Tree.RB_height (t : Tree K V) (h : Nat) (hRB : t.RB h) (hc : t.color = .BLACK) :
    2 ^ t.height ≤ (t.entries.length + 1) ^ 2 := by
  obtain ⟨h1, _, h3⟩ := Tree.RB_bounds t h hRB
  calc 2 ^ t.height ≤ 2 ^ (2 * h) := Nat.pow_le_pow_right (by decide) (h3 hc)
    _ = (2 ^ h) ^ 2 := by rw [Nat.mul_comm, Nat.pow_mul]
    _ ≤ (t.entries.length + 1) ^ 2 := Nat.pow_le_pow_left h1 2

theorem Tree.ordered_iff (Less : K → K → Bool) (t : Tree K V) :
    t.Ordered Less ↔ (t.entries.map Prod.snd).Pairwise fun e f => Less e.1 f.1 = true := by
  simp only [Tree.Ordered, List.pairwise_map]

theorem heightOf_spec (m : Mem K V) :
    ∀ (t : Tree K V) (fuel : Nat), t.Holds m → t.height ≤ fuel →
      heightOf m fuel t.ptr = .ok t.height := by
  intro t
  induction t with
  | nil => intro fuel _ _; cases fuel <;> rfl
  | node a l d c kv r ihl ihr =>
    intro fuel hH hf
    obtain ⟨hn, hc, hl, hr⟩ := hH
    cases fuel with
    | zero => simp [Tree.height] at hf
    | succ f =>
      have hfl : l.height ≤ f := by simp only [Tree.height] at hf; omega
      have hfr : r.height ≤ f := by simp only [Tree.height] at hf; omega
      rw [show (Tree.node a l d c kv r).ptr = some a from rfl]
      simp only [heightOf, Mem.deref_eq hn, ihl f hl hfl, ihr f hr hfr, bind, Except.bind,
        pure, Except.pure, Tree.height]

/-- The engine `insert` on the empty tree or on a balanced tree with a BLACK root, for an
element whose key is greater than every stored key: it returns, and the tree has grown
by one node at the right end, is still balanced and has a BLACK root. -/
theorem insert_greatest (Less : K → K → Bool) (hs : StrictWeak Less) (element : K × V)
    (tr : redBlackTree) (m : Mem K V) (t : Tree K V) (h fuel : Nat)
    (hroot : tr.root = t.ptr) (hH : t.Holds m) (hS : t.Sep) (hRB : t.RB h)
    (hc : t.color = .BLACK)
    (hkeys : ∀ e ∈ t.entries, Less e.2.1 element.1 = true)
    (hfuel : t.height + 1 ≤ fuel) :
    ∃ (m' : Mem K V) (t' : Tree K V) (h' : Nat),
      tr.insert Less element fuel m = .ok (⟨t'.ptr, (tr._size + 1) % sizeMod⟩, m') ∧
      t'.Holds m' ∧ t'.Sep ∧ t'.RB h' ∧ t'.color = .BLACK ∧
      t'.entries.map Prod.snd = t.entries.map Prod.snd ++ [element] := by
  obtain ⟨rt, sz⟩ := tr
  simp only at hroot
  subst hroot
  cases t with
  | nil =>
    refine ⟨⟨m.cells ++ [some element],
      m.nodes ++ [some (node.mk m.cells.length none none .BLACK)]⟩,
      .node m.nodes.length .nil m.cells.length .BLACK element .nil, 1, rfl,
      ⟨get?_append_length _ _, get?_append_length _ _, trivial, trivial⟩, ?_, ⟨rfl, rfl⟩, rfl,
      ?_⟩
    · simp [Tree.Sep, Tree.addrs]
    · simp [Tree.entries]
  | node a l d c kv r =>
    simp only [Tree.color] at hc
    subst hc
    obtain ⟨m', P', h', hrun, hg, hcol, hrb⟩ :=
      insertLoop_root Less hs element m a l d kv r h fuel hH hS hRB hkeys hfuel
    obtain ⟨hH', hptr, hS', hent, _⟩ := hg
    refine ⟨m', P', h', ?_, hH', hS', hrb, hcol, hent⟩
    rw [hptr]
    simp only [redBlackTree.insert, Tree.ptr, bind, StateT.bind, Except.bind, hrun, pure,
      StateT.pure, Except.pure]

/-- The facade `insert` on the empty tree or on a balanced, ordered tree with a BLACK
root, for a pair whose key is greater than every stored key: it returns `true` and a
state whose tree has grown by one node at the right end and is still balanced and
ordered. -/
theorem map_insert_greatest (Less : K → K → Bool) (hs : StrictWeak Less) (element : K × V)
    (mp : map) (m : Mem K V) (t : Tree K V) (h fuel : Nat)
    (hroot : mp.R.root = t.ptr) (hH : t.Holds m) (hS : t.Sep) (hRB : t.RB h)
    (hc : t.color = .BLACK) (hO : t.Ordered Less)
    (hkeys : ∀ e ∈ t.entries, Less e.2.1 element.1 = true)
    (hfuel : (t.entries.length + 2) ^ 2 < 2 ^ fuel) :
    ∃ (m' : Mem K V) (t' : Tree K V) (h' : Nat) (it : iterator) (mp' : map),
      mp.insert Less element fuel m = .ok (((it, true), mp'), m') ∧
      mp'.R.root = t'.ptr ∧
      t'.Holds m' ∧ t'.Sep ∧ t'.RB h' ∧ t'.color = .BLACK ∧ t'.Ordered Less ∧
      t'.entries.map Prod.snd = t.entries.map Prod.snd ++ [element] := by
  have hh := Tree.RB_height t h hRB hc
  have hlt : t.height < fuel := by
    have h1 : (t.entries.length + 1) ^ 2 ≤ (t.entries.length + 2) ^ 2 :=
      Nat.pow_le_pow_left (by omega) 2
    exact (Nat.pow_lt_pow_iff_right (by decide : 1 < 2)).mp (by omega)
  obtain ⟨r, hfind, _, _, hnone⟩ :=
    find_spec Less hs mp m t hroot hH hO element.1 fuel (le_of_lt hlt)
  have hr : r = none := hnone.mpr (fun e he => by simp [Equal, hkeys e he])
  subst hr
  obtain ⟨m', t', h', hins, hH', hS', hRB', hc', hent⟩ :=
    insert_greatest Less hs element mp.R m t h fuel hroot hH hS hRB hc hkeys hlt
  have hO' : t'.Ordered Less := by
    rw [Tree.ordered_iff, hent, List.pairwise_append]
    refine ⟨(Tree.ordered_iff Less t).mp hO, List.pairwise_singleton _ _, ?_⟩
    intro a ha b hb
    simp only [List.mem_singleton] at hb
    subst hb
    obtain ⟨e, he, rfl⟩ := List.mem_map.mp ha
    exact hkeys e he
  have hlen : t'.entries.length = t.entries.length + 1 := by
    have := congrArg List.length hent
    simpa using this
  have hh' := Tree.RB_height t' h' hRB' hc'
  have hlt' : t'.height < fuel := by
    rw [hlen, show t.entries.length + 1 + 1 = t.entries.length + 2 from rfl] at hh'
    exact (Nat.pow_lt_pow_iff_right (by decide : 1 < 2)).mp (by omega)
  obtain ⟨r2, hfind2, _⟩ :=
    find_spec Less hs ⟨⟨t'.ptr, (mp.R._size + 1) % sizeMod⟩⟩ m' t' rfl hH' hO' element.1 fuel
      (le_of_lt hlt')
  refine ⟨m', t', h', ⟨r2⟩, ⟨⟨t'.ptr, (mp.R._size + 1) % sizeMod⟩⟩, ?_, rfl, hH', hS', hRB',
    hc', hO', hent⟩
  simp only [map.insert, rd, bind, StateT.bind, Except.bind, hfind, hins, hfind2, pure,
    StateT.pure, Except.pure, if_true]

theorem runOps_append [Inhabited V] (Less : K → K → Bool) (fuel : Nat) :
    ∀ (ops1 ops2 : List (Op K V)) (mp : map) (m : Mem K V) (mp1 : map) (m1 : Mem K V),
      runOps Less fuel ops1 mp m = .ok (mp1, m1) →
      runOps Less fuel (ops1 ++ ops2) mp m = runOps Less fuel ops2 mp1 m1 := by
  intro ops1
  induction ops1 with
  | nil =>
    intro ops2 mp m mp1 m1 h
    simp only [runOps, pure, StateT.pure, Except.pure, Except.ok.injEq, Prod.mk.injEq] at h
    obtain ⟨rfl, rfl⟩ := h
    rfl
  | cons op ops ih =>
    intro ops2 mp m mp1 m1 h
    simp only [runOps, List.cons_append, bind, StateT.bind, Except.bind] at h ⊢
    cases hop : op.apply Less fuel mp m with
    | error e => rw [hop] at h; cases h
    | ok res =>
      rw [hop] at h
      simp only [hop]
      exact ih ops2 res.1 res.2 mp1 m1 h

theorem ascending_succ (n : Nat) :
    ascending (n + 1) = ascending n ++ [Op.insert (1 + n, 1 + n)] := by
  simp only [ascending, List.range'_1_concat, List.map_append, List.map_cons, List.map_nil]

/-- The state after the ascending inserts `1, ..., n`: the run returns, and the heap holds
a balanced, ordered tree with a BLACK root whose in-order pairs are `(1,1), ..., (n,n)`. -/
theorem ascending_inv (junk fuel : Nat) :
    ∀ n, (n + 1) ^ 2 < 2 ^ fuel →
      ∃ (mp : map) (m : Mem Nat Nat) (t : Tree Nat Nat) (h : Nat),
        reach junk fuel (ascending n) = .ok (mp, m) ∧ mp.R.root = t.ptr ∧
        t.Holds m ∧ t.Sep ∧ t.RB h ∧ t.color = .BLACK ∧ t.Ordered natLess ∧
        t.entries.map Prod.snd = (List.range' 1 n).map fun k => (k, k) := by
  intro n
  induction n with
  | zero =>
    intro _
    exact ⟨map.default junk, Mem.empty, .nil, 0, rfl, rfl, trivial, trivial, rfl, rfl,
      List.Pairwise.nil, rfl⟩
  | succ n ih =>
    intro hf
    have hf0 : (n + 1) ^ 2 < 2 ^ fuel :=
      lt_of_le_of_lt (Nat.pow_le_pow_left (by omega) 2) hf
    obtain ⟨mp, m, t, h, hrun, hroot, hH, hS, hRB, hc, hO, hent⟩ := ih hf0
    have hlen : t.entries.length = n := by
      have := congrArg List.length hent
      simpa using this
    have hkeys : ∀ e ∈ t.entries, natLess e.2.1 ((1 + n, 1 + n) : Nat × Nat).1 = true := by
      intro e he
      have hm : e.2 ∈ t.entries.map Prod.snd := List.mem_map.mpr ⟨e, he, rfl⟩
      rw [hent] at hm
      obtain ⟨k, hk, hke⟩ := List.mem_map.mp hm
      rw [List.mem_range'_1] at hk
      rw [← hke]
      simp only [natLess, decide_eq_true_eq]
      omega
    obtain ⟨m', t', h', it, mp', hins, hroot', hH', hS', hRB', hc', hO', hent'⟩ :=
      map_insert_greatest natLess natLess_strictWeak (1 + n, 1 + n) mp m t h fuel hroot hH hS
        hRB hc hO hkeys (by rw [hlen]; exact hf)
    refine ⟨mp', m', t', h', ?_, hroot', hH', hS', hRB', hc', hO', ?_⟩
    · simp only [reach, StateT.run] at hrun ⊢
      rw [ascending_succ, runOps_append natLess fuel _ _ _ _ _ _ hrun]
      simp only [runOps, Op.apply, bind, StateT.bind, Except.bind, hins, pure, StateT.pure,
        Except.pure]
    · rw [hent', hent, List.range'_1_concat, List.map_append, List.map_cons, List.map_nil]

/-! ### The frame of `erase`: what `remove` may do to the heap -/

theorem Live.set_iff {m : Mem K V} {b : Nat} {n : node} (n' : node)
    (h : m.nodes.get? b = some (some n)) (b' : Nat) :
    Live { m with nodes := m.nodes.set b (some n') } b' ↔ Live m b' := by
  by_cases hbb : b = b'
  · subst hbb
    simp only [Live, get?_set_lt _ (lt_of_get?_some h), h, Option.some.injEq, exists_eq']
  · simp only [Live, get?_set_other _ hbb]

theorem InData.of_set {m0 m : Mem K V} {b : Nat} {n n' : node}
    (hd : ∀ b n, m.nodes.get? b = some (some n) → InData m0 n.data)
    (h : m.nodes.get? b = some (some n)) (hn' : InData m0 n'.data) :
    ∀ b' n'', (m.nodes.set b (some n')).get? b' = some (some n'') → InData m0 n''.data := by
  intro b' n'' hb'
  by_cases hbb : b = b'
  · subst hbb
    rw [get?_set_lt _ (lt_of_get?_some h)] at hb'
    simp only [Option.some.injEq] at hb'
    subst hb'
    exact hn'
  · rw [get?_set_other _ hbb] at hb'
    exact hd b' n'' hb'

theorem frameA_inv (m0 : Mem K V) : Inv m0 (FrameA m0) := by
  refine ⟨?_, fun m b n hF h => hF.2.2 b n h⟩
  intro m b n n' hF h hn'
  exact ⟨hF.1, fun b' => (Live.set_iff n' h b').trans (hF.2.1 b'),
    InData.of_set hF.2.2 h hn'⟩

theorem frameB_inv (Less : K → K → Bool) (x : K) (m0 : Mem K V) :
    Inv m0 (FrameB Less x m0) := by
  refine ⟨?_, ?_⟩
  · intro m b n n' hF h hn'
    obtain ⟨b0, d0, kv, h1, h2, h3, h4, h5, h6, h7⟩ := hF
    refine ⟨b0, d0, kv, h1, h2, h3, h4, ?_, ?_, InData.of_set h7 h hn'⟩
    · exact fun hl => h5 ((Live.set_iff n' h b0).mp hl)
    · exact fun b' hb' => (Live.set_iff n' h b').trans (h6 b' hb')
  · intro m b n hF h
    obtain ⟨b0, d0, kv, h1, h2, h3, h4, h5, h6, h7⟩ := hF
    exact h7 b n h

theorem frameAB_inv (Less : K → K → Bool) (x : K) (m0 : Mem K V) :
    Inv m0 (FrameAB Less x m0) := by
  refine ⟨?_, ?_⟩
  · intro m b n n' hF h hn'
    rcases hF with hF | hF
    · exact Or.inl ((frameA_inv m0).1 m b n n' hF h hn')
    · exact Or.inr ((frameB_inv Less x m0).1 m b n n' hF h hn')
  · intro m b n hF h
    rcases hF with hF | hF
    · exact (frameA_inv m0).2 m b n hF h
    · exact (frameB_inv Less x m0).2 m b n hF h

theorem Keeps.pure {α : Type} {J : Mem K V → Prop} {Q : α → Prop}
    {a : α} (h : Q a) : Keeps J J (Pure.pure a : Run K V α) Q := by
  intro m b m' hF hrun
  simp only [Pure.pure, StateT.pure, Except.pure, Except.ok.injEq, Prod.mk.injEq] at hrun
  obtain ⟨rfl, rfl⟩ := hrun
  exact ⟨hF, h⟩

theorem Keeps.bind {α β : Type} {J J1 J' : Mem K V → Prop}
    {prog : Run K V α} {f : α → Run K V β} {Q : α → Prop} {R : β → Prop}
    (h1 : Keeps J J1 prog Q) (h2 : ∀ a, Q a → Keeps J1 J' (f a) R) :
    Keeps J J' (prog >>= f) R := by
  intro m b m' hF hrun
  simp only [Bind.bind, StateT.bind, Except.bind] at hrun
  cases h : prog m with
  | error e => rw [h] at hrun; cases hrun
  | ok r =>
    rw [h] at hrun
    obtain ⟨a, m1⟩ := r
    obtain ⟨hF1, hQ⟩ := h1 m a m1 hF h
    exact h2 a hQ m1 b m' hF1 hrun

theorem Keeps.seq {α β : Type} {J J1 J' : Mem K V → Prop}
    {prog : Run K V α} {f : α → Run K V β} {R : β → Prop}
    (h1 : Keeps J J1 prog (fun _ => True)) (h2 : ∀ a, Keeps J1 J' (f a) R) :
    Keeps J J' (prog >>= f) R :=
  Keeps.bind h1 (fun a _ => h2 a)

theorem Keeps.pure_bind {α β : Type} {J J' : Mem K V → Prop}
    {a : α} {f : α → Run K V β} {R : β → Prop} (h : Keeps J J' (f a) R) :
    Keeps J J' (Pure.pure a >>= f) R := h

theorem Keeps.post {α : Type} {J J1 J' : Mem K V → Prop} {prog : Run K V α} {Q : α → Prop}
    (h1 : Keeps J J1 prog Q) (h2 : ∀ m, J1 m → J' m) : Keeps J J' prog Q := by
  intro m a m' hF hrun
  obtain ⟨hF1, hQ⟩ := h1 m a m' hF hrun
  exact ⟨h2 m' hF1, hQ⟩

theorem Keeps.ite {α : Type} {J J' : Mem K V → Prop}
    {c : Prop} [Decidable c] {p q : Run K V α} {Q : α → Prop}
    (h1 : Keeps J J' p Q) (h2 : Keeps J J' q Q) :
    Keeps J J' (if c then p else q) Q := by
  split
  · exact h1
  · exact h2

theorem Keeps.rd {α : Type} {J : Mem K V → Prop}
    (f : Mem K V → Except Fault α) : Keeps J J (rd f) (fun _ => True) := by
  intro m a m' hF hrun
  simp only [sjtu.rd, Bind.bind, Except.bind] at hrun
  cases h : f m with
  | error e => rw [h] at hrun; cases hrun
  | ok r =>
    rw [h] at hrun
    simp only [Pure.pure, Except.pure, Except.ok.injEq, Prod.mk.injEq] at hrun
    obtain ⟨_, rfl⟩ := hrun
    exact ⟨hF, trivial⟩

theorem Keeps.getLeft {J : Mem K V → Prop} (o : Ptr) :
    Keeps J J (getLeft o) (fun _ => True) := Keeps.rd _

theorem Keeps.getRight {J : Mem K V → Prop} (o : Ptr) :
    Keeps J J (getRight o) (fun _ => True) := Keeps.rd _

theorem Keeps.getColor {J : Mem K V → Prop} (o : Ptr) :
    Keeps J J (getColor o) (fun _ => True) := Keeps.rd _

theorem Keeps.getKey {J : Mem K V → Prop} (o : Ptr) :
    Keeps J J (getKey o) (fun _ => True) := Keeps.rd _

theorem Keeps.getData {m0 : Mem K V} {J : Mem K V → Prop} (hJ : Inv m0 J) (o : Ptr) :
    Keeps J J (getData o) (InData m0) := by
  intro m a m' hF hrun
  simp only [sjtu.getData, sjtu.rd, Bind.bind, Except.bind] at hrun
  cases o with
  | none => simp only [Mem.deref, reduceCtorEq] at hrun
  | some b =>
    cases h : m.nodes.get? b with
    | none => simp only [Mem.deref, h, reduceCtorEq] at hrun
    | some s =>
      cases s with
      | none => simp only [Mem.deref, h, reduceCtorEq] at hrun
      | some n =>
        simp only [Mem.deref, h, Pure.pure, Except.pure, Except.ok.injEq,
          Prod.mk.injEq] at hrun
        obtain ⟨rfl, rfl⟩ := hrun
        exact ⟨hF, hJ.2 m b n hF h⟩

theorem Keeps.wr {m0 : Mem K V} {J : Mem K V → Prop} (hJ : Inv m0 J) (o : Ptr)
    (f : node → node) (hf : ∀ n, InData m0 n.data → InData m0 (f n).data) :
    Keeps J J (wr o f) (fun _ => True) := by
  intro m a m' hF hrun
  cases o with
  | none => simp only [sjtu.wr, reduceCtorEq] at hrun
  | some b =>
    cases h : m.nodes.get? b with
    | none => simp only [sjtu.wr, h, reduceCtorEq] at hrun
    | some s =>
      cases s with
      | none => simp only [sjtu.wr, h, reduceCtorEq] at hrun
      | some n =>
        simp only [sjtu.wr, h, Except.ok.injEq, Prod.mk.injEq, true_and] at hrun
        subst hrun
        exact ⟨hJ.1 m b n (f n) hF h (hf n (hJ.2 m b n hF h)), trivial⟩

theorem Keeps.setLeft {m0 : Mem K V} {J : Mem K V → Prop} (hJ : Inv m0 J) (o v : Ptr) :
    Keeps J J (setLeft o v) (fun _ => True) :=
  Keeps.wr hJ o _ (fun _ h => h)

theorem Keeps.setRight {m0 : Mem K V} {J : Mem K V → Prop} (hJ : Inv m0 J) (o v : Ptr) :
    Keeps J J (setRight o v) (fun _ => True) :=
  Keeps.wr hJ o _ (fun _ h => h)

theorem Keeps.setColor {m0 : Mem K V} {J : Mem K V → Prop} (hJ : Inv m0 J) (o : Ptr)
    (c : colorT) : Keeps J J (setColor o c) (fun _ => True) :=
  Keeps.wr hJ o _ (fun _ h => h)

theorem Keeps.setData {m0 : Mem K V} {J : Mem K V → Prop} (hJ : Inv m0 J) (o : Ptr) (d : Nat)
    (hd : InData m0 d) : Keeps J J (setData o d) (fun _ => True) :=
  Keeps.wr hJ o _ (fun _ _ => hd)

theorem Keeps.swapData {m0 : Mem K V} {J : Mem K V → Prop} (hJ : Inv m0 J) (t1 t2 : Ptr) :
    Keeps J J (swapData t1 t2) (fun _ => True) :=
  Keeps.bind (Keeps.getData hJ t1) (fun temp ht =>
    Keeps.bind (Keeps.getData hJ t2) (fun d2 hd2 =>
      Keeps.seq (Keeps.setData hJ t1 d2 hd2) (fun _ => Keeps.setData hJ t2 temp ht)))

theorem Keeps.LL {m0 : Mem K V} {J : Mem K V → Prop} (hJ : Inv m0 J) (gp : Ptr) :
    Keeps J J (LL gp) (fun _ => True) := by
  unfold sjtu.LL
  repeat' with_reducible first
    | exact Keeps.pure trivial
    | assumption
    | apply_assumption
    | exact Keeps.getLeft _
    | exact Keeps.getRight _
    | exact Keeps.getColor _
    | exact Keeps.getKey _
    | apply Keeps.setLeft
    | apply Keeps.setRight
    | apply Keeps.setColor
    | apply Keeps.swapData
    | exact Keeps.rd _
    | apply Keeps.ite
    | apply Keeps.pure_bind
    | apply Keeps.seq
    | dsimp only
    | intro _

theorem Keeps.RR {m0 : Mem K V} {J : Mem K V → Prop} (hJ : Inv m0 J) (gp : Ptr) :
    Keeps J J (RR gp) (fun _ => True) := by
  unfold sjtu.RR
  repeat' with_reducible first
    | exact Keeps.pure trivial
    | assumption
    | apply_assumption
    | exact Keeps.getLeft _
    | exact Keeps.getRight _
    | exact Keeps.getColor _
    | exact Keeps.getKey _
    | apply Keeps.setLeft
    | apply Keeps.setRight
    | apply Keeps.setColor
    | apply Keeps.swapData
    | exact Keeps.rd _
    | apply Keeps.ite
    | apply Keeps.pure_bind
    | apply Keeps.seq
    | dsimp only
    | intro _

theorem Keeps.RL {m0 : Mem K V} {J : Mem K V → Prop} (hJ : Inv m0 J) (gp : Ptr) :
    Keeps J J (RL gp) (fun _ => True) := by
  unfold sjtu.RL
  repeat' with_reducible first
    | exact Keeps.pure trivial
    | assumption
    | apply_assumption
    | exact Keeps.getLeft _
    | exact Keeps.getRight _
    | exact Keeps.getColor _
    | exact Keeps.getKey _
    | apply Keeps.setLeft
    | apply Keeps.setRight
    | apply Keeps.setColor
    | apply Keeps.swapData
    | exact Keeps.rd _
    | apply Keeps.ite
    | apply Keeps.pure_bind
    | apply Keeps.seq
    | dsimp only
    | intro _

theorem Keeps.LR {m0 : Mem K V} {J : Mem K V → Prop} (hJ : Inv m0 J) (gp : Ptr) :
    Keeps J J (LR gp) (fun _ => True) := by
  unfold sjtu.LR
  refine Keeps.seq (Keeps.rd _) (fun p => Keeps.seq (Keeps.rd _) (fun o =>
    Keeps.seq (Keeps.rd _) (fun temp => Keeps.seq (Keeps.swapData hJ _ _) (fun _ =>
      Keeps.seq (Keeps.setRight hJ _ _) (fun _ =>
        Keeps.bind (Keeps.getData hJ o) (fun d hd =>
          Keeps.seq (Keeps.setData hJ gp d hd) (fun _ => ?_)))))))
  repeat' with_reducible first
    | exact Keeps.pure trivial
    | assumption
    | apply_assumption
    | exact Keeps.getLeft _
    | exact Keeps.getRight _
    | exact Keeps.getColor _
    | exact Keeps.getKey _
    | apply Keeps.setLeft
    | apply Keeps.setRight
    | apply Keeps.setColor
    | apply Keeps.swapData
    | exact Keeps.rd _
    | apply Keeps.ite
    | apply Keeps.pure_bind
    | apply Keeps.seq
    | dsimp only
    | intro _

theorem Keeps.removeFixUp {m0 : Mem K V} {J : Mem K V → Prop} (hJ : Inv m0 J)
    (Less : K → K → Bool) (root : Ptr) (del : K) :
    ∀ (fuel : Nat) (o p c : Ptr),
      Keeps J J (removeFixUp Less root del fuel o p c) (fun _ => True) := by
  intro fuel
  induction fuel with
  | zero =>
    intro o p c m a m' _ hrun
    simp only [sjtu.removeFixUp, reduceCtorEq] at hrun
  | succ fuel ih =>
    intro o p c
    unfold sjtu.removeFixUp
    refine Keeps.seq (Keeps.getColor _) (fun col => Keeps.ite (Keeps.pure trivial) ?_)
    lift_lets
    intro jpC
    have hC : ∀ b, Keeps J J (jpC b) (fun _ => True) := by
      intro b
      dsimp only [jpC]
      repeat' with_reducible first
        | exact Keeps.pure trivial
        | assumption
        | apply_assumption
        | exact Keeps.getLeft _
        | exact Keeps.getRight _
        | exact Keeps.getColor _
        | exact Keeps.getKey _
        | apply Keeps.setLeft
        | apply Keeps.setRight
        | apply Keeps.setColor
        | apply Keeps.swapData
        | apply Keeps.LL
        | apply Keeps.LR
        | apply Keeps.RR
        | apply Keeps.RL
        | exact Keeps.rd _
        | apply Keeps.ite
        | apply Keeps.pure_bind
        | apply Keeps.seq
        | dsimp only
        | intro _
    clear_value jpC
    intro jpB
    have hB : ∀ b, Keeps J J (jpB b) (fun _ => True) := by
      intro b
      dsimp only [jpB]
      repeat' with_reducible first
        | exact Keeps.pure trivial
        | assumption
        | apply_assumption
        | exact Keeps.getLeft _
        | exact Keeps.getRight _
        | exact Keeps.getColor _
        | exact Keeps.getKey _
        | apply Keeps.setLeft
        | apply Keeps.setRight
        | apply Keeps.setColor
        | apply Keeps.swapData
        | apply Keeps.LL
        | apply Keeps.LR
        | apply Keeps.RR
        | apply Keeps.RL
        | exact Keeps.rd _
        | apply Keeps.ite
        | apply Keeps.pure_bind
        | apply Keeps.seq
        | dsimp only
        | intro _
    clear_value jpB
    intro p1 jpT
    have hT : ∀ b, Keeps J J (jpT b) (fun _ => True) := by
      intro b
      dsimp only [jpT]
      repeat' with_reducible first
        | exact Keeps.pure trivial
        | assumption
        | apply_assumption
        | exact Keeps.getLeft _
        | exact Keeps.getRight _
        | exact Keeps.getColor _
        | exact Keeps.getKey _
        | apply Keeps.setLeft
        | apply Keeps.setRight
        | apply Keeps.setColor
        | apply Keeps.swapData
        | apply Keeps.LL
        | apply Keeps.LR
        | apply Keeps.RR
        | apply Keeps.RL
        | exact Keeps.rd _
        | apply Keeps.ite
        | apply Keeps.pure_bind
        | apply Keeps.seq
        | dsimp only
        | intro _
    clear_value jpT
    intro jpE
    have hE : ∀ b, Keeps J J (jpE b) (fun _ => True) := by
      intro b
      dsimp only [jpE]
      repeat' with_reducible first
        | exact Keeps.pure trivial
        | assumption
        | apply_assumption
        | exact Keeps.getLeft _
        | exact Keeps.getRight _
        | exact Keeps.getColor _
        | exact Keeps.getKey _
        | apply Keeps.setLeft
        | apply Keeps.setRight
        | apply Keeps.setColor
        | apply Keeps.swapData
        | apply Keeps.LL
        | apply Keeps.LR
        | apply Keeps.RR
        | apply Keeps.RL
        | exact Keeps.rd _
        | apply Keeps.ite
        | apply Keeps.pure_bind
        | apply Keeps.seq
        | dsimp only
        | intro _
    clear_value jpE
    repeat' with_reducible first
      | exact Keeps.pure trivial
      | assumption
      | apply_assumption
      | exact Keeps.getLeft _
      | exact Keeps.getRight _
      | exact Keeps.getColor _
      | exact Keeps.getKey _
      | apply Keeps.setLeft
      | apply Keeps.setRight
      | apply Keeps.setColor
      | apply Keeps.swapData
      | apply Keeps.LL
      | apply Keeps.LR
      | apply Keeps.RR
      | apply Keeps.RL
      | exact Keeps.rd _
      | apply Keeps.ite
      | apply Keeps.pure_bind
      | apply Keeps.seq
      | dsimp only
      | intro _

/-- The statement `delete o` on a node whose pair has a key equivalent to `x`, before any
other `delete`. -/
theorem FrameA.deleteNode {Less : K → K → Bool} {x : K} {m0 m m1 : Mem K V} {o : Ptr} {k : K}
    (hF : FrameA m0 m) (hk : m.key o = .ok k) (hE : Equal Less k x = true)
    (hrun : sjtu.deleteNode o m = .ok ((), m1)) : FrameB Less x m0 m1 := by
  cases o with
  | none => simp only [Mem.key, Mem.pair, Mem.deref, Bind.bind, Except.bind, reduceCtorEq] at hk
  | some b =>
    cases hn : m.nodes.get? b with
    | none => simp only [sjtu.deleteNode, hn, reduceCtorEq] at hrun
    | some s =>
      cases s with
      | none => simp only [sjtu.deleteNode, hn, reduceCtorEq] at hrun
      | some n =>
        cases hc : m.cells.get? n.data with
        | none => simp only [sjtu.deleteNode, hn, hc, reduceCtorEq] at hrun
        | some s2 =>
          cases s2 with
          | none => simp only [sjtu.deleteNode, hn, hc, reduceCtorEq] at hrun
          | some kv =>
            simp only [sjtu.deleteNode, hn, hc, Except.ok.injEq, Prod.mk.injEq, true_and] at hrun
            subst hrun
            simp only [Mem.key, Mem.pair, Mem.deref, Mem.payload, hn, hc, Bind.bind, Except.bind,
              Pure.pure, Except.pure, Except.ok.injEq] at hk
            subst hk
            obtain ⟨h1, h2, h3⟩ := hF
            refine ⟨b, n.data, kv, by rw [← h1]; exact hc, hE, by rw [h1], (h2 b).mp ⟨n, hn⟩,
              ?_, ?_, ?_⟩
            · rintro ⟨n', hn'⟩
              simp only at hn'
              rw [get?_set_lt _ (lt_of_get?_some hn)] at hn'
              cases hn'
            · intro b' hb'
              simp only [Live]
              rw [get?_set_other _ (Ne.symm hb')]
              exact h2 b'
            · intro b' n' hb'
              simp only at hb'
              by_cases hbb : b = b'
              · subst hbb
                rw [get?_set_lt _ (lt_of_get?_some hn)] at hb'
                cases hb'
              · rw [get?_set_other _ hbb] at hb'
                exact h3 b' n' hb'

theorem Keeps.getKey_delete {α : Type} {Less : K → K → Bool} {x : K} {m0 : Mem K V}
    {o : Ptr} {f : Unit → Run K V α} {g : K → Run K V α} {Q : α → Prop}
    (hf : ∀ u, Keeps (FrameAB Less x m0) (FrameAB Less x m0) (f u) Q)
    (hg : ∀ k, Keeps (FrameA m0) (FrameAB Less x m0) (g k) Q) :
    Keeps (FrameA m0) (FrameAB Less x m0)
      (sjtu.getKey o >>= fun k =>
        if Equal Less k x = true then sjtu.deleteNode o >>= f else g k) Q := by
  intro m a m' hF hrun
  simp only [sjtu.getKey, sjtu.rd, Bind.bind, StateT.bind, Except.bind] at hrun
  cases hk : m.key o with
  | error e => simp only [hk, reduceCtorEq] at hrun
  | ok k =>
    simp only [hk, Pure.pure, Except.pure] at hrun
    by_cases hE : Equal Less k x = true
    · rw [if_pos hE] at hrun
      cases hd : sjtu.deleteNode o m with
      | error e => simp only [StateT.bind, Bind.bind, Except.bind, hd, reduceCtorEq] at hrun
      | ok r =>
        obtain ⟨u, m1⟩ := r
        simp only [StateT.bind, Bind.bind, Except.bind, hd] at hrun
        exact hf u m1 a m' (Or.inr (FrameA.deleteNode hF hk hE hd)) hrun
    · rw [if_neg hE] at hrun
      exact hg k m a m' hF hrun

theorem Keeps.removeLoop (Less : K → K → Bool) (x : K) (m0 : Mem K V) (root : Ptr)
    (depth : Nat) :
    ∀ (fuel : Nat) (o p c : Ptr),
      Keeps (FrameA m0) (FrameAB Less x m0) (removeLoop Less root x depth fuel o p c)
        (fun _ => True) := by
  intro fuel
  induction fuel with
  | zero =>
    intro o p c m a m' _ hrun
    simp only [sjtu.removeLoop, reduceCtorEq] at hrun
  | succ fuel ih =>
    intro o p c
    have hA := frameA_inv m0
    have hAB := frameAB_inv Less x m0
    unfold sjtu.removeLoop
    dsimp only
    refine Keeps.seq (Keeps.removeFixUp hA _ _ _ _ _ _ _) ?_
    rintro ⟨o1, p1, c1⟩
    dsimp only
    repeat' with_reducible first
      | exact Keeps.pure trivial
      | assumption
      | apply_assumption
      | exact Keeps.getLeft _
      | exact Keeps.getRight _
      | exact Keeps.getColor _
      | exact Keeps.getKey _
      | apply Keeps.setLeft
      | apply Keeps.setRight
      | apply Keeps.setColor
      | apply Keeps.swapData
      | apply Keeps.getKey_delete
      | exact Keeps.rd _
      | apply Keeps.ite
      | apply Keeps.pure_bind
      | apply Keeps.seq
      | dsimp only
      | intro _

/-- The successor case of `erase`, a family of runs that return.  When the erased pair
sits in the root node `r`, the root has a left child `l` and its right child `s` is a
leaf (so `s` holds the in-order successor), and a BLACK root has children of equal
colour, `erase` returns normally, moves the pair of `s` into node `r` and deletes node
`s`: afterwards the iterator to `r` dereferences to the successor's pair, the iterator to
`s` refers to a deleted node, and every iterator to another node whose cell is not the
erased one still dereferences to the pair it had before. -/
theorem erase_moves_successor_payload (Less : K → K → Bool) (hirr : ∀ k, Less k k = false)
    (mp : map) (m : Mem K V) (r l s dr ds : Nat) (nl : node) (cr cs : colorT)
    (kvr kvs : K × V) (fuel : Nat)
    (hroot : mp.R.root = some r)
    (hr : m.nodes.get? r = some (some ⟨dr, some l, some s, cr⟩))
    (hl : m.nodes.get? l = some (some nl))
    (hs : m.nodes.get? s = some (some ⟨ds, none, none, cs⟩))
    (hcol : cr = .BLACK → nl.color = cs)
    (hcr : m.cells.get? dr = some (some kvr))
    (hcs : m.cells.get? ds = some (some kvs))
    (hrl : r ≠ l) (hrs : r ≠ s) (hls : l ≠ s) (hd : dr ≠ ds) :
    ∃ m' : Mem K V,
      (mp.erase Less ⟨some r⟩ (fuel + 1)).run m =
        .ok ((.ok (), ⟨⟨some r, (mp.R._size + sizeMod - 1) % sizeMod⟩⟩), m') ∧
      m'.pair (some r) = .ok kvs ∧
      m'.pair (some s) = .error .dangling ∧
      ∀ b n kv, b ≠ r → b ≠ s → m.nodes.get? b = some (some n) → n.data ≠ dr →
        m.pair (some b) = .ok kv → m'.pair (some b) = .ok kv := by
  obtain ⟨N, nl', hrun, hNr, hNs, hNl, hdata, hNo⟩ :=
    erase_root_run Less hirr mp m r l s dr ds nl cr cs kvr fuel hroot hr hl hs hcol hcr
      hrl hrs hls
  refine ⟨⟨m.cells.set dr none, N⟩, hrun, ?_, ?_, ?_⟩
  · simp only [Mem.pair, Mem.deref, Mem.payload, hNr, bind, Except.bind,
      get?_set_other none hd, hcs]
  · simp only [Mem.pair, Mem.deref, hNs, bind, Except.bind]
  · intro b n kv hbr hbs hb hnd hp
    have hcell : ∀ d, d ≠ dr → (m.cells.set dr none).get? d = m.cells.get? d :=
      fun d hne => get?_set_other none (Ne.symm hne)
    by_cases hbl : b = l
    · subst hbl
      rw [hl] at hb
      cases hb
      simp only [Mem.pair, Mem.deref, Mem.payload, hl, bind, Except.bind] at hp
      simp only [Mem.pair, Mem.deref, Mem.payload, hNl, bind, Except.bind, hdata,
        hcell _ hnd]
      exact hp
    · simp only [Mem.pair, Mem.deref, Mem.payload, hb, bind, Except.bind] at hp
      simp only [Mem.pair, Mem.deref, Mem.payload, hNo b hbr hbs hbl, hb, bind, Except.bind,
        hcell _ hnd]
      exact hp

theorem erase_moves_successor_payload_witness :
    mem213.nodes.get? 0 = some (some ⟨0, some 1, some 2, .BLACK⟩) ∧
    mem213.nodes.get? 1 = some (some ⟨1, none, none, .RED⟩) ∧
    mem213.nodes.get? 2 = some (some ⟨2, none, none, .RED⟩) ∧
    mem213.cells.get? 0 = some (some (2, 20)) ∧ mem213.cells.get? 2 = some (some (3, 30)) ∧
    ∃ m' : Mem Nat Nat,
      (map213.erase natLess ⟨some 0⟩ (7 + 1)).run mem213 =
        .ok ((.ok (), ⟨⟨some 0, (map213.R._size + sizeMod - 1) % sizeMod⟩⟩), m') ∧
      m'.pair (some 0) = .ok (3, 30) ∧
      m'.pair (some 2) = .error .dangling ∧
      ∀ b n kv, b ≠ 0 → b ≠ 2 → mem213.nodes.get? b = some (some n) → n.data ≠ 0 →
        mem213.pair (some b) = .ok kv → m'.pair (some b) = .ok kv :=
  ⟨rfl, rfl, rfl, rfl, rfl,
    erase_moves_successor_payload natLess natLess_strictWeak.irrefl map213 mem213 0 1 2 0 2
      ⟨1, none, none, .RED⟩ .BLACK .RED (2, 20) (3, 30) 7 rfl rfl rfl rfl (fun _ => rfl) rfl rfl
      (by decide) (by decide) (by decide) (by decide)⟩

end lemmas

section claims
variable {K V : Type}

/-- C1 (order invariant), evaluated on the calls insert 3, insert 1, insert 2 on an empty
map: the third insert reaches `LR`, after which iterating from `begin()` to `end()`
visits the keys 1, 3, 3, which is not a strictly increasing sequence. -/
theorem order_invariant_fails_insert_3_1_2 :
    reach 0 64 [.insert (3, 30), .insert (1, 10), .insert (2, 20)] = .ok (map312, mem312) ∧
    (map312.traverse natLess 64).run mem312 = .ok ([(1, 10), (3, 30), (3, 30)], mem312) ∧
    ¬ StrictlyIncreasing natLess ([(1, 10), (3, 30), (3, 30)].map Prod.fst) :=
  ⟨by decide!, by decide!, by simp [StrictlyIncreasing, natLess]⟩

/-- C2 (balance invariant), evaluated on the calls insert 2, insert 1, insert 3 followed
by erasing the element with key 2: the tree is balanced before the erase, and after it
the root is RED and the paths to absent children carry 1, 1 and 0 BLACK nodes. -/
theorem balance_invariant_fails_erase_root :
    reach 0 64 [.insert (2, 20), .insert (1, 10), .insert (3, 30)] = .ok (map213, mem213) ∧
    balanced mem213 64 map213.R.root = .ok true ∧
    reach 0 64 [.insert (2, 20), .insert (1, 10), .insert (3, 30), .erase 2] =
      .ok (⟨⟨some 0, 2⟩⟩, mem13) ∧
    mem13.colorOf (some 0) = .ok .RED ∧
    blackCounts mem13 64 (some 0) = .ok [1, 1, 0] ∧
    balanced mem13 64 (some 0) = .ok false := by
  decide!

/-- C3 (size invariant), evaluated on the calls insert 2, 1, 3, 4 followed by erasing the
element with key 2, starting from `_size = 0`: `size()` is 3, while two nodes are
reachable from the root and `count(k) == 1` holds for the keys 1 and 3 only.  Moreover a
default-constructed map reports whatever its uninitialised `_size` held. -/
theorem size_invariant_fails_erase_2 :
    reach 0 64 [.insert (2, 20), .insert (1, 10), .insert (3, 30), .insert (4, 40), .erase 2] =
      .ok (map134, mem134) ∧
    map134.size = 3 ∧
    reachable mem134 64 map134.R.root = .ok [1, 0] ∧
    (∀ k, (map134.count natLess k 64).run mem134 =
      .ok ((if k = 1 ∨ k = 3 then 1 else 0), mem134)) ∧
    (∀ junk, junk < sizeMod → (map.default junk).size = junk) := by
  refine ⟨by decide!, rfl, by decide!, ?_, ?_⟩
  · intro k
    obtain ⟨r, hr, _, _, h3⟩ := find_spec natLess natLess_strictWeak map134 mem134 tree134 rfl
      tree134_holds tree134_ordered k 64 (by decide)
    rw [count_run natLess map134 mem134 k 64 r hr]
    have hiff : r = none ↔ ¬ (k = 1 ∨ k = 3) := by
      rw [h3]
      simp only [tree134, Tree.entries, List.nil_append, List.cons_append, List.mem_cons,
        List.mem_nil_iff, or_false, forall_eq_or_imp, forall_eq, Equal, natLess,
        Bool.not_eq_false', Bool.or_eq_true, decide_eq_true_eq]
      omega
    by_cases hk : k = 1 ∨ k = 3
    · rw [if_pos hk, if_neg (fun h => hiff.mp h hk)]
    · rw [if_neg hk, if_pos (hiff.mpr hk)]
  · intro junk hj
    simp [map.default, redBlackTree.default, map.size, redBlackTree.size, Nat.mod_eq_of_lt hj]

/-- C4 (insert of an absent key), evaluated on a map holding 3 and 1: key 2 is absent,
`insert((2, 20))` returns the past-the-end iterator together with `true`, and afterwards
`find(2)` is `end()` and `count(2)` is 0. -/
theorem insert_absent_key_lost :
    reach 0 64 [.insert (3, 30), .insert (1, 10)] = .ok (map31, mem31) ∧
    (map31.count natLess 2 64).run mem31 = .ok (0, mem31) ∧
    (map31.insert natLess (2, 20) 64).run mem31 = .ok (((⟨none⟩, true), map312), mem312) ∧
    (map312.find natLess 2 64).run mem312 = .ok (map312.end, mem312) ∧
    (map312.count natLess 2 64).run mem312 = .ok (0, mem312) := by
  decide!

/-- C5 (uniqueness): on a map whose tree is ordered, `insert` of a pair whose key is
equivalent to the key stored in node `a` returns the iterator to `a` together with
`false`, and neither the map object (root, size) nor the heap (shape, colours, keys,
values) changes. -/
theorem insert_present_key_noop (Less : K → K → Bool) (hs : StrictWeak Less) (mp : map)
    (m : Mem K V) (t : Tree K V) (hroot : mp.R.root = t.ptr) (hH : t.Holds m)
    (hO : t.Ordered Less) (value : K × V) (fuel : Nat) (hf : t.height ≤ fuel)
    (a : Nat) (kv : K × V) (hmem : (a, kv) ∈ t.entries)
    (he : Equal Less kv.1 value.1 = true) :
    (mp.insert Less value fuel).run m = .ok (((⟨some a⟩, false), mp), m) := by
  obtain ⟨r, hr, _, h2, _⟩ := find_spec Less hs mp m t hroot hH hO value.1 fuel hf
  rw [h2 a kv hmem he] at hr
  exact insert_run_some Less mp m value fuel a hr

theorem insert_present_key_noop_witness :
    StrictWeak natLess ∧ tree213.Holds mem213 ∧ tree213.Ordered natLess ∧
    (map213.insert natLess (3, 99) 2).run mem213 = .ok (((⟨some 2⟩, false), map213), mem213) :=
  ⟨natLess_strictWeak, tree213_holds, tree213_ordered,
    insert_present_key_noop natLess natLess_strictWeak map213 mem213 tree213 rfl tree213_holds
      tree213_ordered (3, 99) 2 (by decide) 2 (3, 30) (by simp [tree213, Tree.entries]) rfl⟩

/-- C6 (lookup correctness): on an ordered tree under a strict weak order, with fuel for
the height of the tree, engine `find(k)` returns a pointer `r`; if `r` is a node, that
node stores a key equivalent to `k`; every node storing a key equivalent to `k` is the one
returned; `r` is absent exactly when no stored key is equivalent to `k`; `count(k)` is 1
when `r` is a node and 0 when it is absent; facade `find(k)` wraps `r`, and is `end()`
exactly when `count(k)` is 0.  None of them changes the heap. -/
theorem find_count_correct (Less : K → K → Bool) (hs : StrictWeak Less) (mp : map)
    (m : Mem K V) (t : Tree K V) (hroot : mp.R.root = t.ptr) (hH : t.Holds m)
    (hO : t.Ordered Less) (k : K) (fuel : Nat) (hf : t.height ≤ fuel) :
    ∃ (r : Ptr) (n : Nat),
      mp.R.find Less m k fuel = .ok r ∧
      (∀ a, r = some a →
        ∃ kv, (a, kv) ∈ t.entries ∧ m.pair (some a) = .ok kv ∧ Equal Less kv.1 k = true) ∧
      (∀ a kv, (a, kv) ∈ t.entries → Equal Less kv.1 k = true → r = some a) ∧
      (r = none ↔ ∀ e ∈ t.entries, Equal Less e.2.1 k = false) ∧
      (mp.count Less k fuel).run m = .ok (n, m) ∧
      (n = 1 ↔ ∃ e ∈ t.entries, Equal Less e.2.1 k = true) ∧
      (n = 0 ↔ ∀ e ∈ t.entries, Equal Less e.2.1 k = false) ∧
      (mp.find Less k fuel).run m = .ok (⟨r⟩, m) ∧
      ((⟨r⟩ : iterator) = mp.end ↔ n = 0) := by
  obtain ⟨r, hr, h1, h2, h3⟩ := find_spec Less hs mp m t hroot hH hO k fuel hf
  refine ⟨r, (if r = none then 0 else 1), hr, h1, h2, h3, count_run Less mp m k fuel r hr,
    ?_, ?_, find_run Less mp m k fuel r hr, ?_⟩
  · cases r with
    | none =>
      simp only [if_true, Nat.zero_ne_one, false_iff, not_exists, not_and]
      intro e hm
      simp [h3.mp rfl e hm]
    | some a =>
      obtain ⟨kv, hm, _, he⟩ := h1 a rfl
      simp only [reduceCtorEq, if_false, true_iff]
      exact ⟨(a, kv), hm, he⟩
  · rw [← h3]
    cases r <;> simp
  · cases r <;> simp [map.end]

theorem find_count_correct_witness :
    StrictWeak natLess ∧ tree213.Holds mem213 ∧ tree213.Ordered natLess ∧
    ∃ (r : Ptr) (n : Nat),
      map213.R.find natLess mem213 3 2 = .ok r ∧
      (∀ a, r = some a →
        ∃ kv, (a, kv) ∈ tree213.entries ∧ mem213.pair (some a) = .ok kv ∧
          Equal natLess kv.1 3 = true) ∧
      (∀ a kv, (a, kv) ∈ tree213.entries → Equal natLess kv.1 3 = true → r = some a) ∧
      (r = none ↔ ∀ e ∈ tree213.entries, Equal natLess e.2.1 3 = false) ∧
      (map213.count natLess 3 2).run mem213 = .ok (n, mem213) ∧
      (n = 1 ↔ ∃ e ∈ tree213.entries, Equal natLess e.2.1 3 = true) ∧
      (n = 0 ↔ ∀ e ∈ tree213.entries, Equal natLess e.2.1 3 = false) ∧
      (map213.find natLess 3 2).run mem213 = .ok (⟨r⟩, mem213) ∧
      ((⟨r⟩ : iterator) = map213.end ↔ n = 0) :=
  ⟨natLess_strictWeak, tree213_holds, tree213_ordered,
    find_count_correct natLess natLess_strictWeak map213 mem213 tree213 rfl tree213_holds
      tree213_ordered 3 2 (by decide)⟩

/-- C7 (`at` contract): on an ordered map, with fuel for the height of the tree, `at(key)`
returns or throws without changing the heap; it throws `index_out_of_bound` exactly when
no stored key is equivalent to `key`, and otherwise returns the value stored with the
equivalent key. -/
theorem at_contract (Less : K → K → Bool) (hs : StrictWeak Less) (mp : map)
    (m : Mem K V) (t : Tree K V) (hroot : mp.R.root = t.ptr) (hH : t.Holds m)
    (hO : t.Ordered Less) (key : K) (fuel : Nat) (hf : t.height ≤ fuel) :
    ∃ res : Except exception V,
      (mp.at Less key fuel).run m = .ok (res, m) ∧
      (res = .error .index_out_of_bound ↔ ∀ e ∈ t.entries, Equal Less e.2.1 key = false) ∧
      (∀ a kv, (a, kv) ∈ t.entries → Equal Less kv.1 key = true → res = .ok kv.2) := by
  obtain ⟨r, hr, h1, h2, h3⟩ := find_spec Less hs mp m t hroot hH hO key fuel hf
  cases r with
  | none =>
    refine ⟨.error .index_out_of_bound, at_run_none Less mp m key fuel hr, ?_, ?_⟩
    · exact ⟨fun _ => h3.mp rfl, fun _ => rfl⟩
    · intro a kv hm he
      cases h2 a kv hm he
  | some a =>
    obtain ⟨kv, hm, hp, he⟩ := h1 a rfl
    refine ⟨.ok kv.2, at_run_some Less mp m key fuel a kv hr hp, ?_, ?_⟩
    · constructor
      · intro h; cases h
      · intro h
        have := h3.mpr h
        cases this
    · intro a' kv' hm' he'
      have h4 := h2 a' kv' hm' he'
      cases h4
      have h5 := hH.pair_eq a kv' hm'
      rw [hp] at h5
      cases h5
      rfl

theorem at_contract_witness :
    StrictWeak natLess ∧ tree213.Holds mem213 ∧ tree213.Ordered natLess ∧
    ∃ res : Except exception Nat,
      (map213.at natLess 1 2).run mem213 = .ok (res, mem213) ∧
      (res = .error .index_out_of_bound ↔
        ∀ e ∈ tree213.entries, Equal natLess e.2.1 1 = false) ∧
      (∀ a kv, (a, kv) ∈ tree213.entries → Equal natLess kv.1 1 = true → res = .ok kv.2) :=
  ⟨natLess_strictWeak, tree213_holds, tree213_ordered,
    at_contract natLess natLess_strictWeak map213 mem213 tree213 rfl tree213_holds
      tree213_ordered 1 2 (by decide)⟩

/-- C8 (indexed write access), evaluated on a map holding 3 and 1, where key 2 is absent:
`m[2]` inserts a node (size becomes 3) but then throws `index_out_of_bound`, because the
node created for key 2 ends up pointing at the cell of key 3. -/
theorem index_absent_key_throws :
    reach 0 64 [.insert (3, 30), .insert (1, 10)] = .ok (map31, mem31) ∧
    (map31.count natLess 2 64).run mem31 = .ok (0, mem31) ∧
    (map31.index natLess 2 64).run mem31 =
      .ok ((.error .index_out_of_bound, map312),
        ⟨[some (3, 30), some (1, 10), some (2, 0)],
         [some ⟨0, some 1, some 2, .BLACK⟩, some ⟨1, none, none, .RED⟩,
          some ⟨0, none, none, .RED⟩]⟩) := by
  decide!

/-- C9 (erase removes exactly one key), evaluated on the balanced map holding 1, 2, 3, 4
built by insert 2, 1, 3, 4: `erase(find(2))` returns normally and decreases `size()` from
4 to 3, but forward iteration afterwards visits 1, 3 only: the pair with key 4 is gone as
well. -/
theorem erase_drops_two_keys :
    reach 0 64 [.insert (2, 20), .insert (1, 10), .insert (3, 30), .insert (4, 40)] =
      .ok (map2134, mem2134) ∧
    balanced mem2134 64 map2134.R.root = .ok true ∧
    (map2134.traverse natLess 64).run mem2134 =
      .ok ([(1, 10), (2, 20), (3, 30), (4, 40)], mem2134) ∧
    (do let it ← map2134.find natLess 2 64
        map2134.erase natLess it 64).run mem2134 = .ok ((.ok (), map134), mem134) ∧
    map2134.size = 4 ∧ map134.size = 3 ∧
    (map134.traverse natLess 64).run mem134 = .ok ([(1, 10), (3, 30)], mem134) ∧
    (map134.count natLess 4 64).run mem134 = .ok (0, mem134) := by
  decide!

/-- C10 (`erase(end())`): for every map and heap, `erase` called with the past-the-end
iterator throws `invalid_iterator`, and the map object and the heap are the ones from
before the call. -/
theorem erase_end_throws (Less : K → K → Bool) (mp : map) (m : Mem K V) (fuel : Nat) :
    (mp.erase Less mp.end fuel).run m = .ok ((.error .invalid_iterator, mp), m) :=
  rfl

/-- C14 (copy is content-equal), evaluated: copy construction of the three-element map
yields a map with the same size and the same in-order pairs and leaves the source as it
was; but copy assignment `b = a` calls the destructor of the target tree twice before
copying, so it dereferences `nullptr` whenever `b` is empty, for every source `a`, and
reads deleted nodes when `b` holds elements. -/
theorem copy_assignment_faults :
    (map213.copyCtor 8).run mem213 = .ok (⟨⟨some 3, 3⟩⟩, mem213copy) ∧
    ((⟨⟨some 3, 3⟩⟩ : map).traverse natLess 8).run mem213copy =
      .ok ([(1, 10), (2, 20), (3, 30)], mem213copy) ∧
    (map213.traverse natLess 8).run mem213copy =
      .ok ([(1, 10), (2, 20), (3, 30)], mem213copy) ∧
    (∀ (junk fuel : Nat) (a : map) (m : Mem Nat Nat),
      ((map.default junk).assign a (fuel + 1)).run m = .error .nullDeref) ∧
    (map31.assign map213 8).run mem213copy = .error .dangling := by
  refine ⟨by decide!, by decide!, by decide!, ?_, by decide!⟩
  intro junk fuel a m
  rfl

/-- C15 (copy preserves the red-black invariants), evaluated on the balanced
three-element map: every node of the copy, its root included, is RED, so the copy violates
invariants 2 and 3. -/
theorem copy_is_all_red :
    balanced mem213 8 map213.R.root = .ok true ∧
    (map213.copyCtor 8).run mem213 = .ok (⟨⟨some 3, 3⟩⟩, mem213copy) ∧
    mem213copy.colorOf (some 3) = .ok .RED ∧
    redRed mem213copy 8 (some 3) = .ok true ∧
    balanced mem213copy 8 (some 3) = .ok false := by
  decide!

/-- C16 (`clear()`), evaluated on the three-element map: `clear()` deletes every node but
leaves `root` pointing at the deleted root node and `_size` at 3, so `size()` is 3,
`empty()` is false and `count(2)` reads a deleted node; on an empty map `clear()`
dereferences `nullptr`. -/
theorem clear_keeps_root_and_size :
    (map213.clear 8).run mem213 = .ok (map213, ⟨[none, none, none], [none, none, none]⟩) ∧
    map213.size = 3 ∧ map213.empty = false ∧ map213.R.root = some 0 ∧
    (map213.count natLess 2 8).run (⟨[none, none, none], [none, none, none]⟩ : Mem Nat Nat) =
      .error .dangling ∧
    (∀ (junk fuel : Nat) (m : Mem Nat Nat),
      ((map.default junk).clear (fuel + 1)).run m = .error .nullDeref) := by
  refine ⟨by decide!, by decide!, by decide!, by decide!, by decide!, ?_⟩
  intro junk fuel m
  rfl

/-- C17 (concrete scenarios 1 and 2), evaluated on a default-constructed map.  Inserting
5, 3, 8, 1, 4, 7, 9 gives forward iteration 1, 3, 4, 5, 7, 8, 9; the node with key 5 then
has two children; erasing the element with key 5 gives forward iteration 1, 3, 4, 7, 8, 9
and `count(5) == 0`.  But `size()` is 6 only if the storage of `_size`, which the
default constructor leaves uninitialised, happened to hold 0: on storage that held 7 the
same calls build the same tree and `size()` is 14 after the inserts and 13 after the
erase. -/
theorem scenario_size_follows_initial_storage :
    reach 7 64 [.insert (5, 50), .insert (3, 30), .insert (8, 80), .insert (1, 10),
      .insert (4, 40), .insert (7, 70), .insert (9, 90)] = .ok (⟨⟨some 0, 14⟩⟩, mem7) ∧
    ((⟨⟨some 0, 14⟩⟩ : map).traverse natLess 64).run mem7 =
      .ok ([(1, 10), (3, 30), (4, 40), (5, 50), (7, 70), (8, 80), (9, 90)], mem7) ∧
    ((⟨⟨some 0, 14⟩⟩ : map).find natLess 5 64).run mem7 = .ok (⟨some 0⟩, mem7) ∧
    mem7.deref (some 0) = .ok ⟨0, some 1, some 2, .BLACK⟩ ∧
    (do let it ← (⟨⟨some 0, 14⟩⟩ : map).find natLess 5 64
        (⟨⟨some 0, 14⟩⟩ : map).erase natLess it 64).run mem7 =
      .ok ((.ok (), ⟨⟨some 0, 13⟩⟩), mem6) ∧
    ((⟨⟨some 0, 13⟩⟩ : map).traverse natLess 64).run mem6 =
      .ok ([(1, 10), (3, 30), (4, 40), (7, 70), (8, 80), (9, 90)], mem6) ∧
    ((⟨⟨some 0, 13⟩⟩ : map).count natLess 5 64).run mem6 = .ok (0, mem6) ∧
    (⟨⟨some 0, 13⟩⟩ : map).size = 13 ∧
    reach 0 64 [.insert (5, 50), .insert (3, 30), .insert (8, 80), .insert (1, 10),
      .insert (4, 40), .insert (7, 70), .insert (9, 90)] = .ok (map7, mem7) ∧
    (do let it ← map7.find natLess 5 64
        map7.erase natLess it 64).run mem7 = .ok ((.ok (), map6), mem6) ∧
    map6.size = 6 :=
  ⟨by decide!, by decide!, by decide!, by decide!, by decide!, by decide!, by decide!,
    by decide!, by decide!, by decide!, by decide!⟩

/-- C18 (concrete scenario 3), evaluated on a default-constructed map whose storage held
the value 7 in `_size`: `size()` is 7 and `empty()` is false although the map has no
element; `at(42)` throws `index_out_of_bound`; after `m[42]` the entry 42 exists with the
default value and `count(42)` is 1, and `size()` is 8.  For every initial content `junk`
of the storage `size()` starts at `junk`. -/
theorem default_map_size_uninitialised :
    (map.default 7).size = 7 ∧ (map.default 7).empty = false ∧
    ((map.default 7).at natLess 42 8).run (Mem.empty : Mem Nat Nat) =
      .ok (.error .index_out_of_bound, Mem.empty) ∧
    ((map.default 7).index natLess 42 8).run (Mem.empty : Mem Nat Nat) =
      .ok ((.ok 0, ⟨⟨some 0, 8⟩⟩), ⟨[some (42, 0)], [some ⟨0, none, none, .BLACK⟩]⟩) ∧
    ((⟨⟨some 0, 8⟩⟩ : map).count natLess 42 8).run
      ⟨[some (42, 0)], [some ⟨0, none, none, .BLACK⟩]⟩ =
      .ok (1, ⟨[some (42, 0)], [some ⟨0, none, none, .BLACK⟩]⟩) ∧
    (⟨⟨some 0, 8⟩⟩ : map).size = 8 ∧
    (∀ junk, junk < sizeMod → (map.default junk).size = junk) := by
  refine ⟨by decide!, by decide!, by decide!, by decide!, by decide!, by decide!, ?_⟩
  intro junk hj
  simp [map.default, redBlackTree.default, map.size, redBlackTree.size, Nat.mod_eq_of_lt hj]

/-- C20 (rotations preserve content and order), evaluated on the four three-node shapes
that `insertFixUp` dispatches: `LL` and `RR` keep the in-order sequence 1, 2, 3; `LR`
turns it into 1, 3, 3 (nodes 0 and 2 end up with the same `data` pointer and the pair
with key 2 is referenced by no node); `RL` dereferences `gp->left == nullptr`, and with
an uncle present it links the uncle (node 3) and the uncle's right child (node 4) into a
cycle: node 3 keeps `right = node 4` and node 4 gets `left = node 3`. -/
theorem rotations_LR_RL_lose_content :
    inorder memLL 8 (some 0) = .ok [(1, 10), (2, 20), (3, 30)] ∧
    (do LL (some 0)
        rd fun m => inorder m 8 (some 0)).run memLL =
      .ok ([(1, 10), (2, 20), (3, 30)],
        ⟨[some (3, 30), some (2, 20), some (1, 10)],
         [some ⟨1, some 2, some 1, .BLACK⟩, some ⟨0, none, none, .RED⟩,
          some ⟨2, none, none, .RED⟩]⟩) ∧
    inorder memRR 8 (some 0) = .ok [(1, 10), (2, 20), (3, 30)] ∧
    (do RR (some 0)
        rd fun m => inorder m 8 (some 0)).run memRR =
      .ok ([(1, 10), (2, 20), (3, 30)],
        ⟨[some (1, 10), some (2, 20), some (3, 30)],
         [some ⟨1, some 1, some 2, .BLACK⟩, some ⟨0, none, none, .RED⟩,
          some ⟨2, none, none, .RED⟩]⟩) ∧
    inorder memLR 8 (some 0) = .ok [(1, 10), (2, 20), (3, 30)] ∧
    (do LR (some 0)
        rd fun m => inorder m 8 (some 0)).run memLR =
      .ok ([(1, 10), (3, 30), (3, 30)],
        ⟨[some (3, 30), some (1, 10), some (2, 20)],
         [some ⟨0, some 1, some 2, .BLACK⟩, some ⟨1, none, none, .RED⟩,
          some ⟨0, none, none, .RED⟩]⟩) ∧
    inorder memRL 8 (some 0) = .ok [(1, 10), (2, 20), (3, 30)] ∧
    (RL (some 0)).run memRL = .error .nullDeref ∧
    inorder memRLuncle 8 (some 0) = .ok [(0, 0), (1, 10), (2, 20), (3, 30), (4, 40)] ∧
    (RL (some 0)).run memRLuncle =
      .ok ((),
        ⟨[some (2, 20), some (4, 40), some (3, 30), some (0, 0), some (1, 10)],
         [some ⟨4, some 4, some 1, .BLACK⟩, some ⟨1, some 2, none, .RED⟩,
          some ⟨2, none, none, .RED⟩, some ⟨3, none, some 4, .BLACK⟩,
          some ⟨0, some 3, none, .RED⟩]⟩) :=
  ⟨by decide!, by decide!, by decide!, by decide!, by decide!, by decide!, by decide!,
    by decide!, by decide!, by decide!⟩

/-- C12 (successor / forward iteration): on an ordered tree under a strict weak order,
with fuel for the height of the tree, `successor(n)` returns the node that immediately
follows `n` in the in-order sequence, and absent when `n` is the last one; and on a
non-empty map the loop from `begin()` with `++` visits the stored pairs in in-order,
each once, and stops at `end()`. -/
theorem successor_forward_iteration (Less : K → K → Bool) (hs : StrictWeak Less) (mp : map)
    (m : Mem K V) (t : Tree K V) (hroot : mp.R.root = t.ptr) (hH : t.Holds m)
    (hO : t.Ordered Less) (fuel : Nat) (hf : t.height ≤ fuel) :
    (∀ pre a kv post, t.entries = pre ++ (a, kv) :: post →
      mp.R.successor Less m (some a) fuel = .ok (post.head?.map Prod.fst)) ∧
    (t ≠ .nil → t.entries.length < fuel →
      (mp.traverse Less fuel).run m = .ok (t.entries.map Prod.snd, m)) := by
  refine ⟨fun pre a kv post he =>
    successor_spec Less hs mp m t hroot hH hO fuel hf pre post a kv he, ?_⟩
  intro hne hlen
  obtain ⟨a, kv, rest, he, hmin⟩ := minimium_spec m t fuel hne hH hf
  have hw := walk_spec Less hs mp m t hroot hH hO fuel hf t.entries [] fuel rfl hlen
  rw [he] at hw
  simp only [List.head?_cons, Option.map_some', StateT.run] at hw
  rw [← hroot] at hmin
  simp only [map.traverse, map.begin, StateT.run, bind, StateT.bind, rd, hmin, Except.bind, pure,
    Except.pure, StateT.pure, hw, he]

theorem successor_forward_iteration_witness :
    StrictWeak natLess ∧ tree213.Holds mem213 ∧ tree213.Ordered natLess ∧
    map213.R.successor natLess mem213 (some 1) 4 = .ok (some 0) ∧
    map213.R.successor natLess mem213 (some 2) 4 = .ok none ∧
    (map213.traverse natLess 4).run mem213 = .ok ([(1, 10), (2, 20), (3, 30)], mem213) :=
  ⟨natLess_strictWeak, tree213_holds, tree213_ordered,
    (successor_forward_iteration natLess natLess_strictWeak map213 mem213 tree213 rfl
      tree213_holds tree213_ordered 4 (by decide)).1 [] 1 (1, 10)
      [(0, (2, 20)), (2, (3, 30))] rfl,
    (successor_forward_iteration natLess natLess_strictWeak map213 mem213 tree213 rfl
      tree213_holds tree213_ordered 4 (by decide)).1 [(1, (1, 10)), (0, (2, 20))] 2 (3, 30)
      [] rfl,
    (successor_forward_iteration natLess natLess_strictWeak map213 mem213 tree213 rfl
      tree213_holds tree213_ordered 4 (by decide)).2 (by simp [tree213]) (by decide)⟩

/-- C13 as stated fails: on the three-element map the engine routine `precursor` applied
to the null node returns null, while the node holding the maximum key is node 2. -/
theorem precursor_null_returns_null :
    map213.R.precursor natLess mem213 none 8 = .ok none ∧
    maximium mem213 8 map213.R.root = .ok (some 2) ∧
    mem213.pair (some 2) = .ok (3, 30) := by
  decide!

/-- C13 (amended): on a non-empty ordered tree, with fuel for its height, decrementing the
past-the-end iterator (`operator--`) yields the node that is last in in-order, whose key
is greater than every other stored key; the engine routine `precursor` applied to the
null node returns null. -/
theorem decr_end_is_maximum (Less : K → K → Bool) (mp : map) (m : Mem K V) (t : Tree K V)
    (hroot : mp.R.root = t.ptr) (hne : t ≠ .nil) (hH : t.Holds m) (hO : t.Ordered Less)
    (fuel : Nat) (hf : t.height ≤ fuel) :
    ∃ a kv init, t.entries = init ++ [(a, kv)] ∧
      (∀ e ∈ init, Less e.2.1 kv.1 = true) ∧
      (iterator.decr Less mp mp.end fuel).run m = .ok (⟨some a⟩, m) ∧
      m.pair (some a) = .ok kv ∧
      mp.R.precursor Less m none fuel = .ok none := by
  obtain ⟨a, kv, init, he, hmax⟩ := maximium_spec m t fuel hne hH hf
  refine ⟨a, kv, init, he, ?_, ?_, hH.pair_eq a kv (by rw [he]; simp), rfl⟩
  · intro e hmem
    have h := hO
    simp only [Tree.Ordered, he, List.pairwise_append] at h
    exact h.2.2 e hmem (a, kv) (by simp)
  · rw [← hroot] at hmax
    simp only [iterator.decr, map.end, if_true, StateT.run, bind, StateT.bind, rd, hmax,
      Except.bind, pure, Except.pure, StateT.pure]

theorem decr_end_is_maximum_witness :
    tree213 ≠ .nil ∧ tree213.Holds mem213 ∧ tree213.Ordered natLess ∧
    ∃ a kv init, tree213.entries = init ++ [(a, kv)] ∧
      (∀ e ∈ init, natLess e.2.1 kv.1 = true) ∧
      (iterator.decr natLess map213 map213.end 2).run mem213 = .ok (⟨some a⟩, mem213) ∧
      mem213.pair (some a) = .ok kv ∧
      map213.R.precursor natLess mem213 none 2 = .ok none :=
  ⟨by simp [tree213], tree213_holds, tree213_ordered,
    decr_end_is_maximum natLess map213 mem213 tree213 rfl (by simp [tree213]) tree213_holds
      tree213_ordered 2 (by decide)⟩

/-- C19 (concrete scenario 4, ascending inserts stay balanced): for every `N` and every
`n ≤ N`, the client calls `insert((1,1)), ..., insert((n,n))` on a default-constructed
map return, given fuel above `2 * log2 (N + 1)`, and the state after the `n`-th insert
has a balanced tree (BLACK root, no RED node with a RED child, equal BLACK counts on all
paths from the root to an absent child) whose in-order pairs are exactly
`(1,1), ..., (n,n)` and whose height `hgt` satisfies `2 ^ hgt ≤ (n + 1) ^ 2`, that is,
`hgt ≤ 2 * log2 (n + 1)`. -/
theorem ascending_inserts_stay_balanced (junk N fuel : Nat)
    (hfuel : (N + 1) ^ 2 < 2 ^ fuel) (n : Nat) (hn : n ≤ N) :
    ∃ (mp : map) (m : Mem Nat Nat) (hgt : Nat),
      reach junk fuel (ascending n) = .ok (mp, m) ∧
      balanced m fuel mp.R.root = .ok true ∧
      inorder m fuel mp.R.root = .ok ((List.range' 1 n).map fun k => (k, k)) ∧
      heightOf m fuel mp.R.root = .ok hgt ∧ 2 ^ hgt ≤ (n + 1) ^ 2 := by
  have hf : (n + 1) ^ 2 < 2 ^ fuel :=
    lt_of_le_of_lt (Nat.pow_le_pow_left (by omega) 2) hfuel
  obtain ⟨mp, m, t, h, hrun, hroot, hH, _, hRB, hc, _, hent⟩ := ascending_inv junk fuel n hf
  have hlen : t.entries.length = n := by
    have := congrArg List.length hent
    simpa using this
  have hh := Tree.RB_height t h hRB hc
  rw [hlen] at hh
  have hlt : t.height ≤ fuel :=
    le_of_lt ((Nat.pow_lt_pow_iff_right (by decide : 1 < 2)).mp (lt_of_le_of_lt hh hf))
  refine ⟨mp, m, t.height, hrun, ?_, ?_, ?_, hh⟩
  · rw [hroot]; exact balanced_spec m t h fuel hH hRB hc hlt
  · rw [hroot, ← hent]; exact inorder_spec m t fuel hH hlt
  · rw [hroot]; exact heightOf_spec m t fuel hH hlt

/-- The statement of C19 at `N = n = 3` with fuel 5. -/
theorem ascending_inserts_stay_balanced_witness :
    (3 + 1) ^ 2 < 2 ^ 5 ∧ 3 ≤ 3 ∧
      ∃ (mp : map) (m : Mem Nat Nat) (hgt : Nat),
        reach 0 5 (ascending 3) = .ok (mp, m) ∧
        balanced m 5 mp.R.root = .ok true ∧
        inorder m 5 mp.R.root = .ok ((List.range' 1 3).map fun k => (k, k)) ∧
        heightOf m 5 mp.R.root = .ok hgt ∧ 2 ^ hgt ≤ (3 + 1) ^ 2 :=
  ⟨by decide, by decide, ascending_inserts_stay_balanced 0 3 5 (by decide) 3 (by decide)⟩

end claims

end sjtu
